import Mathlib

/-!
# A verification development for the `cherrytree` tree library

This file gives a shallow embedding of `src/lib.rs` (the `Tree<K, V>` type
backed by a slotmap of `InnerNode`s) and proves properties of its public
operations.

Modelling conventions:
* Slotmap keys are modelled as `Nat`.  Key allocation is modelled by a
  monotone counter `next_key`; a slotmap hands out a key that is distinct
  from every live key, and never re-issues a key whose slot was freed
  (generation counters), which the strictly increasing counter captures.
* The slotmap itself is an association list `List (Nat × InnerNode V)`
  with (invariantly) no duplicate keys; `len` is its length.
* `IndexSet<K>` (an insertion-ordered set) is a `List Nat` without
  duplicates; `IndexSet::insert` appends when absent, `shift_remove` is
  `List.erase`, `difference` is an order-preserving filter.
* Rust functions that can panic (`unwrap`, `todo!`, `unreachable!`) or
  whose loops may diverge on a malformed tree are modelled as
  `Option`-valued functions, `none` meaning "no normal result" (panic or
  divergence).  `while` loops over explicit stacks become fuel-indexed
  recursion; the fuel used at every call site is `inner_nodes.length + 1`,
  which is shown to be enough on well-formed trees (and for the removal
  loops it is enough unconditionally, since every iteration deletes a
  slot).
* Capacity / `size_hint` parameters only size Rust allocations; they are
  kept in the signatures but (as in the source) touch no data.
-/

namespace Cherry

/-- The stored record for one node: `InnerNode<K, V>` from the source. -/
structure InnerNode (V : Type) where
  parent_key : Option Nat
  child_keys : List Nat
  value : V
  depth : Nat
deriving Repr, DecidableEq

/-- The tree: root key plus the slotmap of nodes (`Tree<K, V>`); `next_key`
models the slotmap's fresh-key generation. -/
structure Tree (V : Type) where
  root_key : Option Nat
  inner_nodes : List (Nat × InnerNode V)
  next_key : Nat
deriving Repr, DecidableEq

variable {V : Type}

/-- Association-list lookup (slotmap `get`). -/
def lookupKey (k : Nat) : List (Nat × InnerNode V) → Option (InnerNode V)
  | [] => none
  | (k', n) :: rest => if k' = k then some n else lookupKey k rest

/-- Association-list removal of the (first) entry with the given key
(slotmap `remove`, restricted to the key part). -/
def eraseKey (k : Nat) : List (Nat × InnerNode V) → List (Nat × InnerNode V)
  | [] => []
  | (k', n) :: rest => if k' = k then rest else (k', n) :: eraseKey k rest

/-- Association-list update of the entry with the given key
(slotmap `get_mut` followed by a field assignment). -/
def setKey (k : Nat) (n : InnerNode V) : List (Nat × InnerNode V) → List (Nat × InnerNode V)
  | [] => []
  | (k', m) :: rest => if k' = k then (k', n) :: rest else (k', m) :: setKey k n rest

/-- The list of live keys of a slotmap. -/
def keysOf (nodes : List (Nat × InnerNode V)) : List Nat :=
  nodes.map Prod.fst

/-- `IndexSet::insert`: append when absent (insertion order preserved). -/
def indexSetInsert (l : List Nat) (k : Nat) : List Nat :=
  if k ∈ l then l else l ++ [k]

-- ### The public read API

/-- `Tree::contains`. -/
def contains (t : Tree V) (k : Nat) : Bool :=
  (lookupKey k t.inner_nodes).isSome

/-- `Tree::is_empty`. -/
def isEmpty (t : Tree V) : Bool :=
  t.inner_nodes.isEmpty

/-- `Tree::len`. -/
def len (t : Tree V) : Nat :=
  t.inner_nodes.length

/-- `Tree::clear`. -/
def clear (t : Tree V) : Tree V :=
  { t with root_key := none, inner_nodes := [] }

-- ### Insertion

/-- `Tree::insert_root_with_capacity` (capacity is allocation-only).
Returns the updated tree and the new root key. -/
def insertRoot (t : Tree V) (v : V) : Tree V × Nat :=
  let t1 := if t.root_key.isSome then clear t else t
  let k := t1.next_key
  (⟨some k, t1.inner_nodes ++ [(k, ⟨none, [], v, 0⟩)], k + 1⟩, k)

/-- `Tree::insert_with_capacity` (capacity is allocation-only).
`none` when `parent_key` is absent; otherwise the new key and tree. -/
def insert (t : Tree V) (v : V) (parent_key : Nat) : Option (Nat × Tree V) :=
  match lookupKey parent_key t.inner_nodes with
  | none => none
  | some pnode =>
    let k := t.next_key
    let nodes1 := t.inner_nodes ++ [(k, ⟨some parent_key, [], v, pnode.depth + 1⟩)]
    let nodes2 := setKey parent_key
      { pnode with child_keys := indexSetInsert pnode.child_keys k } nodes1
    some (k, ⟨t.root_key, nodes2, k + 1⟩)

-- ### The cascading removal loop

/-- The shared `while let Some(k) = stack.pop()` removal loop of
`remove`/`reorder_children`: pop a key, delete its slot (panicking if the
slot is dead), push its children.  The Rust `Vec` pops from the back and
pushes children in child order, so the next key visited is the *last*
child; the head of our stack list is the `Vec`'s back, hence children are
pushed reversed.  `none` models a panic (dead key) or fuel exhaustion;
fuel `nodes.length + 1` can never exhaust since every iteration deletes a
slot. -/
def cascade : Nat → List Nat → List (Nat × InnerNode V) → Option (List (Nat × InnerNode V))
  | 0, _, _ => none
  | _ + 1, [], nodes => some nodes
  | fuel + 1, k :: rest, nodes =>
    match lookupKey k nodes with
    | none => none
    | some n => cascade fuel (n.child_keys.reverse ++ rest) (eraseKey k nodes)

-- ### Removal

/-- `Tree::remove`.  The outer `Option` is `none` on a panic; the normal
Rust result is the returned `Option V` together with the updated tree.
`size_hint` only sizes the scratch `Vec` in the source trailer, so it is
unused here. -/
def remove (t : Tree V) (key : Nat) (size_hint : Option Nat) : Option (Option V × Tree V) :=
  match t.root_key with
  | none => some (none, t)
  | some rk =>
    if key = rk then
      match lookupKey rk t.inner_nodes with
      | none => none
      | some n => some (some n.value, clear t)
    else
      match lookupKey key t.inner_nodes with
      | none => some (none, t)
      | some n =>
        let nodes1 := eraseKey key t.inner_nodes
        match cascade (nodes1.length + 1) n.child_keys.reverse nodes1 with
        | none => none
        | some nodes2 =>
          match n.parent_key with
          | none => none
          | some pk =>
            match lookupKey pk nodes2 with
            | none => none
            | some pn =>
              some (some n.value,
                ⟨t.root_key, setKey pk { pn with child_keys := pn.child_keys.erase key } nodes2,
                  t.next_key⟩)

-- ### Reorder children

/-- `Tree::reorder_children`.  The closure gets a read-only snapshot of the
current child order; its Rust return type `IndexSet` is duplicate-free,
which theorems carry as a `Nodup` hypothesis on `f`'s output. -/
def reorderChildren (t : Tree V) (key : Nat) (f : List Nat → List Nat) :
    Option (Tree V × Bool) :=
  match lookupKey key t.inner_nodes with
  | none => some (t, false)
  | some n =>
    let reordered := f n.child_keys
    if reordered.all (fun x => x ∈ n.child_keys) then
      let keys_to_remove := n.child_keys.filter (fun c => c ∉ reordered)
      match cascade (t.inner_nodes.length + 1) keys_to_remove.reverse t.inner_nodes with
      | none => none
      | some nodes2 =>
        match lookupKey key nodes2 with
        | none => none
        | some n2 =>
          some (⟨t.root_key, setKey key { n2 with child_keys := reordered } nodes2, t.next_key⟩,
            true)
    else
      some (t, false)

-- ### Relationship

/-- `Relationship<K>` from the source. -/
inductive Relationship where
  | same : Relationship
  | ancestral (ancestor_key descendent_key : Nat) : Relationship
  | siblings (common_ancestor_key : Nat) : Relationship
deriving Repr, DecidableEq

/-- The first loop of `get_relationship`: walk `key_1`'s parent chain.
Either hits `key_2` (ancestral) or records the chain in `path` and breaks
at the root.  `none` is a panic (dead parent key) or divergence. -/
def walk1 (nodes : List (Nat × InnerNode V)) (key1 key2 : Nat) :
    Nat → Option Nat → List Nat → Option (List Nat ⊕ Relationship)
  | 0, _, _ => none
  | _ + 1, none, path => some (Sum.inl path)
  | fuel + 1, some p, path =>
    if p = key2 then some (Sum.inr (.ancestral key2 key1))
    else
      match lookupKey p nodes with
      | none => none
      | some n => walk1 nodes key1 key2 fuel n.parent_key (indexSetInsert path p)

/-- The second loop of `get_relationship`: walk `key_2`'s parent chain,
checking against `key_1` and then against `key_1`'s recorded chain.
Hitting the root (`none` parent) is the source's `unreachable!()`, modelled
as `none`. -/
def walk2 (nodes : List (Nat × InnerNode V)) (key1 key2 : Nat) (path : List Nat) :
    Nat → Option Nat → Option (Option Relationship)
  | 0, _ => none
  | _ + 1, none => none
  | fuel + 1, some p =>
    if p = key1 then some (some (.ancestral key1 key2))
    else if p ∈ path then some (some (.siblings p))
    else
      match lookupKey p nodes with
      | none => none
      | some n => walk2 nodes key1 key2 path fuel n.parent_key

/-- `Tree::get_relationship`.  Outer `Option`: panic/divergence; inner
`Option`: the Rust return value (`none` when either key is absent). -/
def getRelationship (t : Tree V) (key1 key2 : Nat) : Option (Option Relationship) :=
  if contains t key1 && contains t key2 then
    if key1 = key2 then some (some .same)
    else
      match lookupKey key1 t.inner_nodes with
      | none => none
      | some n1 =>
        match walk1 t.inner_nodes key1 key2 (t.inner_nodes.length + 1) n1.parent_key [] with
        | none => none
        | some (Sum.inr r) => some (some r)
        | some (Sum.inl path) =>
          match lookupKey key2 t.inner_nodes with
          | none => none
          | some n2 => walk2 t.inner_nodes key1 key2 path (t.inner_nodes.length + 1) n2.parent_key
  else
    some none

-- ### Rebase

/-- The `update_depths` stack loop: pop `(depth, key)`, stamp the depth,
push the children with `depth + 1`.  Same `Vec`-as-stack convention as
`cascade`. -/
def updateDepths (fuel : Nat) (stack : List (Nat × Nat))
    (nodes : List (Nat × InnerNode V)) : Option (List (Nat × InnerNode V)) :=
  match fuel, stack with
  | 0, _ => none
  | _ + 1, [] => some nodes
  | fuel + 1, (d, k) :: rest =>
    match lookupKey k nodes with
    | none => none
    | some n =>
      updateDepths fuel ((n.child_keys.map (fun c => (d + 1, c))).reverse ++ rest)
        (setKey k { n with depth := d } nodes)

/-- `rebase_generic`: the happy-path rebase.  Note the source compares the
*old parent's* depth (`current_depth`) with `new_parent_depth + 1` to
decide whether to re-stamp depths. -/
def rebaseGeneric (t : Tree V) (key new_parent_key : Nat) : Option (Tree V) :=
  match lookupKey key t.inner_nodes with
  | none => none
  | some node =>
    match node.parent_key with
    | none => none
    | some current_parent_key =>
      if current_parent_key = new_parent_key then some t
      else
        let nodes1 := setKey key { node with parent_key := some new_parent_key } t.inner_nodes
        match lookupKey current_parent_key nodes1 with
        | none => none
        | some cpn =>
          let current_depth := cpn.depth
          let nodes2 :=
            setKey current_parent_key { cpn with child_keys := cpn.child_keys.erase key } nodes1
          match lookupKey new_parent_key nodes2 with
          | none => none
          | some npn =>
            let new_parent_depth := npn.depth
            let nodes3 :=
              setKey new_parent_key
                { npn with child_keys := indexSetInsert npn.child_keys key } nodes2
            let new_depth := new_parent_depth + 1
            if current_depth = new_depth then
              some ⟨t.root_key, nodes3, t.next_key⟩
            else
              (updateDepths (nodes3.length + 1) [(new_depth, key)] nodes3).map
                (fun nodes4 => ⟨t.root_key, nodes4, t.next_key⟩)

/-- The inner `rebase` dispatch on the relationship.  `rebase_onto_descendent`
is `todo!()` in the source — a guaranteed panic — and the third ancestral
arm is `unreachable!()`; both are `none`. -/
def rebaseInner (t : Tree V) (rel : Relationship) (key new_parent_key : Nat) :
    Option (Tree V) :=
  match rel with
  | .same => some t
  | .ancestral a d =>
    if new_parent_key = a then rebaseGeneric t key new_parent_key
    else if new_parent_key = d then none
    else none
  | .siblings _ => rebaseGeneric t key new_parent_key

/-- `Tree::rebase`.  `none` on a panic; otherwise the updated tree and the
returned boolean.  `size_hint` only pre-sizes the depth-restamping stack. -/
def rebase (t : Tree V) (key new_parent_key : Nat) (size_hint : Option Nat) :
    Option (Tree V × Bool) :=
  match getRelationship t key new_parent_key with
  | none => none
  | some none => some (t, false)
  | some (some rel) => (rebaseInner t rel key new_parent_key).map (fun t' => (t', true))

-- ### Parent chains and well-formedness

/-- The rootward parent chain of `k`: the list of its strict ancestors,
nearest first.  Fuel-indexed; `none` when a dead key is hit or the fuel is
exhausted (which on a well-formed tree never happens with fuel
`nodes.length + 1`). -/
def pchain (nodes : List (Nat × InnerNode V)) : Nat → Nat → Option (List Nat)
  | 0, _ => none
  | fuel + 1, k =>
    match lookupKey k nodes with
    | none => none
    | some n =>
      match n.parent_key with
      | none => some []
      | some p => (pchain nodes fuel p).map (fun l => p :: l)

/-- The ancestor list of `k` with the canonical fuel. -/
def ancChain (nodes : List (Nat × InnerNode V)) (k : Nat) : List Nat :=
  (pchain nodes (nodes.length + 1) k).getD []

/-- `x` lies in the subtree rooted at `s` (i.e. `x = s` or `s` is a strict
ancestor of `x`). -/
def inSubtree (nodes : List (Nat × InnerNode V)) (s x : Nat) : Bool :=
  s == x || (ancChain nodes x).contains s

/-- Propositional version of `inSubtree`: `x` equals `s` or has `s` as a
strict ancestor. -/
def InSub (nodes : List (Nat × InnerNode V)) (s x : Nat) : Prop :=
  s = x ∨ s ∈ ancChain nodes x

/-- The number of strict descendants of `k`. -/
def descCount (t : Tree V) (k : Nat) : Nat :=
  ((keysOf t.inner_nodes).filter (fun x => (ancChain t.inner_nodes x).contains k)).length

/-- Specification-side description of the second `get_relationship` loop:
scan a parent chain; the first element equal to `key1` yields the
ancestral result, the first element in `path` yields the siblings result,
and an exhausted chain yields nothing (the `unreachable!()` case). -/
def hitResult (key1 key2 : Nat) (path : List Nat) : List Nat → Option Relationship
  | [] => none
  | p :: rest =>
    if p = key1 then some (.ancestral key1 key2)
    else if p ∈ path then some (.siblings p)
    else hitResult key1 key2 path rest

/-- `c` is the lowest common ancestor of `a` and `b`: a common strict
ancestor such that every common strict ancestor is `c` itself or a strict
ancestor of `c`. -/
def IsLCA (nodes : List (Nat × InnerNode V)) (a b c : Nat) : Prop :=
  c ∈ ancChain nodes a ∧ c ∈ ancChain nodes b ∧
    ∀ d, d ∈ ancChain nodes a → d ∈ ancChain nodes b → d = c ∨ d ∈ ancChain nodes c

/-- Does the node `c` exist and have parent `k`?  (Decidable helper.) -/
def parentIs (nodes : List (Nat × InnerNode V)) (c k : Nat) : Bool :=
  match lookupKey c nodes with
  | some m => m.parent_key == some k
  | none => false

/-- Does the node `p` exist and list `c` among its children? -/
def hasChild (nodes : List (Nat × InnerNode V)) (p c : Nat) : Bool :=
  match lookupKey p nodes with
  | some m => m.child_keys.contains c
  | none => false

/-- Structural well-formedness of the bare node map (no root/depth facts):
distinct keys, parent/child coherence both ways, duplicate-free child
lists, and every parent chain reaching a parentless node within the
canonical fuel. -/
structure WFm (nodes : List (Nat × InnerNode V)) : Prop where
  keys_nodup : (keysOf nodes).Nodup
  children_live : ∀ k n, lookupKey k nodes = some n → ∀ c ∈ n.child_keys,
      ∃ m, lookupKey c nodes = some m ∧ m.parent_key = some k
  parent_back : ∀ k n p, lookupKey k nodes = some n → n.parent_key = some p →
      ∃ m, lookupKey p nodes = some m ∧ k ∈ m.child_keys
  child_nodup : ∀ k n, lookupKey k nodes = some n → n.child_keys.Nodup
  reach : ∀ k n, lookupKey k nodes = some n →
      (pchain nodes (nodes.length + 1) k).isSome = true

/-- Structural well-formedness of a whole tree: the map invariants plus
the root bookkeeping and key-counter bound.  (Deliberately silent about
the `depth` fields: the depth invariant is the *claimed* invariant 3, and
the code in fact fails to maintain it — see the C2 theorem.) -/
structure WF (t : Tree V) : Prop where
  keys_nodup : (keysOf t.inner_nodes).Nodup
  keys_lt : ∀ k ∈ keysOf t.inner_nodes, k < t.next_key
  root_none : t.root_key = none → t.inner_nodes = []
  root_live : ∀ r, t.root_key = some r → ∃ n, lookupKey r t.inner_nodes = some n
  parent_none_iff : ∀ k n, lookupKey k t.inner_nodes = some n →
      (n.parent_key = none ↔ t.root_key = some k)
  children_live : ∀ k n, lookupKey k t.inner_nodes = some n → ∀ c ∈ n.child_keys,
      ∃ m, lookupKey c t.inner_nodes = some m ∧ m.parent_key = some k
  parent_back : ∀ k n p, lookupKey k t.inner_nodes = some n → n.parent_key = some p →
      ∃ m, lookupKey p t.inner_nodes = some m ∧ k ∈ m.child_keys
  child_nodup : ∀ k n, lookupKey k t.inner_nodes = some n → n.child_keys.Nodup
  reach : ∀ k n, lookupKey k t.inner_nodes = some n →
      (pchain t.inner_nodes (t.inner_nodes.length + 1) k).isSome = true

/-- Executable well-formedness check (used to discharge `WF` on concrete
trees by `decide`). -/
def wfB (t : Tree V) : Bool :=
  decide (keysOf t.inner_nodes).Nodup &&
  (keysOf t.inner_nodes).all (fun k => decide (k < t.next_key)) &&
  (match t.root_key with
   | none => t.inner_nodes.isEmpty
   | some r => (keysOf t.inner_nodes).contains r) &&
  t.inner_nodes.all (fun e =>
    (match e.2.parent_key with
     | none => t.root_key == some e.1
     | some p => !(t.root_key == some e.1) && hasChild t.inner_nodes p e.1) &&
    e.2.child_keys.all (fun c => parentIs t.inner_nodes c e.1) &&
    decide e.2.child_keys.Nodup &&
    (pchain t.inner_nodes (t.inner_nodes.length + 1) e.1).isSome)

/-- The trees reachable through the public mutating API, starting from the
empty tree (`Tree::default` / `Tree::with_capacity`).  `set_value` models
writing through `get_mut`/`nodes_mut`/`iter_mut`, which expose only the
value mutably.  For `reorder_children`, the Rust closure returns an
`IndexSet`, hence the duplicate-freeness hypothesis. -/
inductive Reachable : Tree V → Prop where
  | empty : Reachable ⟨none, [], 0⟩
  | insert_root (t : Tree V) (v : V) : Reachable t → Reachable (insertRoot t v).1
  | insert_child (t : Tree V) (v : V) (p k : Nat) (t' : Tree V) :
      Reachable t → insert t v p = some (k, t') → Reachable t'
  | remove_key (t : Tree V) (k : Nat) (h : Option Nat) (v : Option V) (t' : Tree V) :
      Reachable t → remove t k h = some (v, t') → Reachable t'
  | reorder (t : Tree V) (k : Nat) (f : List Nat → List Nat) (t' : Tree V) (b : Bool) :
      Reachable t → (∀ l, (f l).Nodup) → reorderChildren t k f = some (t', b) → Reachable t'
  | rebase_key (t : Tree V) (k p : Nat) (h : Option Nat) (t' : Tree V) (b : Bool) :
      Reachable t → rebase t k p h = some (t', b) → Reachable t'
  | clear_tree (t : Tree V) : Reachable t → Reachable (clear t)
  | set_value (t : Tree V) (k : Nat) (n : InnerNode V) (v : V) :
      Reachable t → lookupKey k t.inner_nodes = some n →
      Reachable ⟨t.root_key, setKey k { n with value := v } t.inner_nodes, t.next_key⟩

-- ### Sanity examples on the library's own doc scenario

/-- The empty tree. -/
def emptyTree : Tree Nat := ⟨none, [], 0⟩

example :
    (insertRoot (emptyTree) 0).2 = 0 ∧
      (insertRoot emptyTree 0).1.inner_nodes = [(0, ⟨none, [], 0, 0⟩)] := by
  constructor <;> rfl

/-- The three-node chain `0 → [1 → [2]]` (values 100, 101, 102). -/
def chainTree : Tree Nat :=
  ⟨some 0,
    [(0, ⟨none, [1], 100, 0⟩), (1, ⟨some 0, [2], 101, 1⟩), (2, ⟨some 1, [], 102, 2⟩)],
    3⟩

/-- The three-node fork `0 → [1, 2]` (values 100, 101, 102). -/
def sibTree : Tree Nat :=
  ⟨some 0,
    [(0, ⟨none, [1, 2], 100, 0⟩), (1, ⟨some 0, [], 101, 1⟩), (2, ⟨some 0, [], 102, 1⟩)],
    3⟩

/-- `chainTree` is built by the public API, so it is a reachable tree. -/
theorem chainTree_built :
    ((insert ((insertRoot emptyTree 100).1) 101 0).bind fun p => insert p.2 102 1).map (·.2) =
      some chainTree := by
  decide

/-- **C1** (code bug): on the tree `0→[1→[2]]`, key `2` is a strict
descendant of key `0` (witnessed by `get_relationship`), and the claim says
`rebase(0, 2, hint)` returns `true` after rotating the tree to
`2→[0→[1]]`.  The code instead reaches `rebase_onto_descendent`, whose
body is `todo!()`: the call panics and produces no result at all. -/
theorem C1_rebase_onto_descendent_panics :
    getRelationship chainTree 0 2 = some (some (.ancestral 0 2)) ∧
      rebase chainTree 0 2 none = none := by
  decide

/-- **C2** (code bug): rebasing key `2` onto the root `0` in `0→[1→[2]]`
succeeds (`true`) and re-parents `2` under `0`, but leaves `2`'s `depth`
field at `2` while its new parent `0` has depth `0` — violating
`depth(node) = depth(parent(node)) + 1`.  `rebase_generic` compares the
*old parent's* depth with the new child depth, so it skips the re-stamp
exactly when the depth changed by one level. -/
theorem C2_depth_invariant_broken_by_rebase :
    (rebase chainTree 2 0 none).map (fun p =>
        ((lookupKey 2 p.1.inner_nodes).map (fun n => (n.parent_key, n.depth)),
          (lookupKey 0 p.1.inner_nodes).map (fun n => n.depth), p.2)) =
      some (some (some 0, 2), some 0, true) := by
  decide

/-- **C3** (counterexample): the claim says `rebase(k, k, hint)` and
`rebase(k, parent(k), hint)` return `false`.  On `0→[1→[2]]` both
`rebase(0, 0)` and `rebase(1, 0)` (where `0` is already `1`'s parent)
leave the tree unchanged yet return `true`. -/
theorem C3_rebase_noop_returns_true_cex :
    rebase chainTree 0 0 none = some (chainTree, true) ∧
      rebase chainTree 1 0 none = some (chainTree, true) := by
  decide

-- ### Association-map lemmas

theorem lookupKey_eq_none_iff {k : Nat} {l : List (Nat × InnerNode V)} :
    lookupKey k l = none ↔ k ∉ keysOf l := by
  induction l with
  | nil => simp [lookupKey, keysOf]
  | cons e rest ih =>
    obtain ⟨k', n⟩ := e
    by_cases h : k' = k
    · subst h
      simp [lookupKey, keysOf]
    · simp only [lookupKey, if_neg h, keysOf, List.map_cons, List.mem_cons]
      rw [ih]
      simp only [keysOf]
      constructor
      · rintro h1 (rfl | h2)
        · exact h rfl
        · exact h1 h2
      · intro h1 h2
        exact h1 (Or.inr h2)

theorem mem_keysOf_of_lookupKey {k : Nat} {l : List (Nat × InnerNode V)} {n : InnerNode V}
    (h : lookupKey k l = some n) : k ∈ keysOf l := by
  by_contra hk
  rw [← lookupKey_eq_none_iff] at hk
  simp [hk] at h

theorem lookupKey_isSome_iff {k : Nat} {l : List (Nat × InnerNode V)} :
    (lookupKey k l).isSome = true ↔ k ∈ keysOf l := by
  cases h : lookupKey k l with
  | none => simpa using lookupKey_eq_none_iff.mp h
  | some n => simpa using mem_keysOf_of_lookupKey h

theorem lookupKey_mem {k : Nat} {l : List (Nat × InnerNode V)} {n : InnerNode V}
    (h : lookupKey k l = some n) : (k, n) ∈ l := by
  induction l with
  | nil => simp [lookupKey] at h
  | cons e rest ih =>
    obtain ⟨k', m⟩ := e
    by_cases hk : k' = k
    · subst hk
      simp [lookupKey] at h
      simp [h]
    · simp [lookupKey, hk] at h
      exact List.mem_cons_of_mem _ (ih h)

theorem lookupKey_of_mem_nodup {k : Nat} {l : List (Nat × InnerNode V)} {n : InnerNode V}
    (hnd : (keysOf l).Nodup) (h : (k, n) ∈ l) : lookupKey k l = some n := by
  induction l with
  | nil => simp at h
  | cons e rest ih =>
    obtain ⟨k', m⟩ := e
    simp only [keysOf, List.map_cons, List.nodup_cons] at hnd
    rcases List.mem_cons.mp h with h1 | h1
    · obtain ⟨h2, h3⟩ := Prod.mk.injEq .. ▸ h1
      simp_all [lookupKey]
    · have hk : k' ≠ k := by
        rintro rfl
        exact hnd.1 (by simpa [keysOf] using List.mem_map_of_mem Prod.fst h1)
      simp [lookupKey, hk]
      exact ih hnd.2 h1

theorem lookupKey_append_of_some {k : Nat} {l1 l2 : List (Nat × InnerNode V)} {n : InnerNode V}
    (h : lookupKey k l1 = some n) : lookupKey k (l1 ++ l2) = some n := by
  induction l1 with
  | nil => simp [lookupKey] at h
  | cons e rest ih =>
    obtain ⟨k', m⟩ := e
    by_cases hk : k' = k <;> simp_all [lookupKey, hk]

theorem lookupKey_append_of_none {k : Nat} {l1 l2 : List (Nat × InnerNode V)}
    (h : lookupKey k l1 = none) : lookupKey k (l1 ++ l2) = lookupKey k l2 := by
  induction l1 with
  | nil => simp
  | cons e rest ih =>
    obtain ⟨k', m⟩ := e
    by_cases hk : k' = k <;> simp_all [lookupKey, hk]

theorem lookupKey_setKey_ne {x k : Nat} {n : InnerNode V} {l : List (Nat × InnerNode V)}
    (h : x ≠ k) : lookupKey x (setKey k n l) = lookupKey x l := by
  induction l with
  | nil => simp [setKey]
  | cons e rest ih =>
    obtain ⟨k', m⟩ := e
    by_cases hk : k' = k
    · have hkx : k' ≠ x := by
        rw [hk]
        exact fun hh => h hh.symm
      simp [setKey, lookupKey, hk, hkx, Ne.symm h]
    · simp only [setKey, if_neg hk, lookupKey]
      by_cases hx : k' = x <;> simp [hx, ih]

theorem lookupKey_setKey_self {k : Nat} {n : InnerNode V} {l : List (Nat × InnerNode V)} :
    lookupKey k (setKey k n l) = (lookupKey k l).map (fun _ => n) := by
  induction l with
  | nil => simp [setKey, lookupKey]
  | cons e rest ih =>
    obtain ⟨k', m⟩ := e
    by_cases hk : k' = k <;> simp [setKey, lookupKey, hk, ih]

theorem setKey_of_lookup_none {k : Nat} {n : InnerNode V} {l : List (Nat × InnerNode V)}
    (h : lookupKey k l = none) : setKey k n l = l := by
  induction l with
  | nil => simp [setKey]
  | cons e rest ih =>
    obtain ⟨k', m⟩ := e
    by_cases hk : k' = k <;> simp_all [setKey, lookupKey, hk]

theorem keysOf_setKey {k : Nat} {n : InnerNode V} {l : List (Nat × InnerNode V)} :
    keysOf (setKey k n l) = keysOf l := by
  induction l with
  | nil => simp [setKey]
  | cons e rest ih =>
    obtain ⟨k', m⟩ := e
    by_cases hk : k' = k <;> simp [setKey, keysOf, hk] <;> simpa [keysOf] using ih

theorem length_setKey {k : Nat} {n : InnerNode V} {l : List (Nat × InnerNode V)} :
    (setKey k n l).length = l.length := by
  induction l with
  | nil => simp [setKey]
  | cons e rest ih =>
    obtain ⟨k', m⟩ := e
    by_cases hk : k' = k <;> simp [setKey, hk, ih]

theorem lookupKey_eraseKey_ne {x k : Nat} {l : List (Nat × InnerNode V)}
    (h : x ≠ k) : lookupKey x (eraseKey k l) = lookupKey x l := by
  induction l with
  | nil => simp [eraseKey]
  | cons e rest ih =>
    obtain ⟨k', m⟩ := e
    by_cases hk : k' = k
    · have hkx : k' ≠ x := by
        rw [hk]
        exact fun hh => h hh.symm
      simp [eraseKey, lookupKey, hk, hkx, Ne.symm h]
    · simp only [eraseKey, if_neg hk, lookupKey]
      by_cases hx : k' = x <;> simp [hx, ih]

theorem eraseKey_sublist (k : Nat) (l : List (Nat × InnerNode V)) :
    (eraseKey k l).Sublist l := by
  induction l with
  | nil => simp [eraseKey]
  | cons e rest ih =>
    obtain ⟨k', m⟩ := e
    by_cases hk : k' = k
    · simpa [eraseKey, hk] using List.sublist_cons_self _ _
    · simpa [eraseKey, hk] using List.Sublist.cons₂ (k', m) ih

theorem keysOf_sublist_of_sublist {l l' : List (Nat × InnerNode V)}
    (h : l'.Sublist l) : (keysOf l').Sublist (keysOf l) :=
  h.map Prod.fst

theorem lookupKey_eraseKey_self {k : Nat} {l : List (Nat × InnerNode V)}
    (hnd : (keysOf l).Nodup) : lookupKey k (eraseKey k l) = none := by
  induction l with
  | nil => simp [eraseKey, lookupKey]
  | cons e rest ih =>
    obtain ⟨k', m⟩ := e
    simp only [keysOf, List.map_cons, List.nodup_cons] at hnd
    by_cases hk : k' = k
    · subst hk
      simp [eraseKey, lookupKey_eq_none_iff]
      exact hnd.1
    · simp [eraseKey, lookupKey, hk]
      exact ih hnd.2

theorem length_eraseKey_of_lookup {k : Nat} {l : List (Nat × InnerNode V)} {n : InnerNode V}
    (h : lookupKey k l = some n) : (eraseKey k l).length + 1 = l.length := by
  induction l with
  | nil => simp [lookupKey] at h
  | cons e rest ih =>
    obtain ⟨k', m⟩ := e
    by_cases hk : k' = k
    · simp [eraseKey, hk]
    · simp [lookupKey, hk] at h
      simp [eraseKey, hk, ih h]

theorem mem_indexSetInsert {x k : Nat} {l : List Nat} :
    x ∈ indexSetInsert l k ↔ x ∈ l ∨ x = k := by
  by_cases h : k ∈ l
  · simp only [indexSetInsert, if_pos h]
    constructor
    · exact Or.inl
    · rintro (h1 | rfl) <;> assumption
  · simp [indexSetInsert, if_neg h]

theorem indexSetInsert_of_not_mem {k : Nat} {l : List Nat} (h : k ∉ l) :
    indexSetInsert l k = l ++ [k] := by
  simp [indexSetInsert, h]

theorem nodup_indexSetInsert {k : Nat} {l : List Nat} (h : l.Nodup) :
    (indexSetInsert l k).Nodup := by
  by_cases hk : k ∈ l
  · simpa [indexSetInsert, hk] using h
  · simp only [indexSetInsert, if_neg hk]
    rw [List.nodup_append]
    refine ⟨h, List.nodup_singleton k, ?_⟩
    intro a ha
    simp only [List.mem_singleton]
    rintro rfl
    exact hk ha

-- ### Parent-chain lemmas

theorem pchain_lookup {nodes : List (Nat × InnerNode V)} {f k : Nat} {l : List Nat}
    (h : pchain nodes f k = some l) : ∃ n, lookupKey k nodes = some n := by
  cases f with
  | zero => simp [pchain] at h
  | succ f =>
    cases hk : lookupKey k nodes with
    | none => simp [pchain, hk] at h
    | some n => exact ⟨n, rfl⟩

theorem pchain_nil_of_parent_none {nodes : List (Nat × InnerNode V)} {f k : Nat}
    {n : InnerNode V} (hk : lookupKey k nodes = some n) (hp : n.parent_key = none) :
    pchain nodes (f + 1) k = some [] := by
  simp [pchain, hk, hp]

theorem pchain_cons_of_parent {nodes : List (Nat × InnerNode V)} {f k p : Nat}
    {n : InnerNode V} (hk : lookupKey k nodes = some n) (hp : n.parent_key = some p) :
    pchain nodes (f + 1) k = (pchain nodes f p).map (fun l => p :: l) := by
  simp [pchain, hk, hp]

theorem pchain_mono {nodes : List (Nat × InnerNode V)} {f g k : Nat} {l : List Nat}
    (hfg : f ≤ g) (h : pchain nodes f k = some l) : pchain nodes g k = some l := by
  induction f generalizing g k l with
  | zero => simp [pchain] at h
  | succ f ih =>
    obtain ⟨g, rfl⟩ : ∃ g', g = g' + 1 := ⟨g - 1, by omega⟩
    cases hk : lookupKey k nodes with
    | none => simp [pchain, hk] at h
    | some n =>
      cases hp : n.parent_key with
      | none =>
        rw [pchain_nil_of_parent_none hk hp] at h ⊢
        exact h
      | some p =>
        rw [pchain_cons_of_parent hk hp] at h ⊢
        cases hc : pchain nodes f p with
        | none => simp [hc] at h
        | some l' =>
          simp only [hc, Option.map_some] at h
          rw [ih (by omega) hc]
          exact h

theorem pchain_unique {nodes : List (Nat × InnerNode V)} {f g k : Nat} {l l' : List Nat}
    (h : pchain nodes f k = some l) (h' : pchain nodes g k = some l') : l = l' := by
  rcases le_total f g with hle | hle
  · have := pchain_mono hle h
    rw [this] at h'
    exact Option.some.inj h'
  · have := pchain_mono hle h'
    rw [this] at h
    exact (Option.some.inj h).symm

theorem pchain_mem_decomp {nodes : List (Nat × InnerNode V)} {f k : Nat} {l : List Nat}
    (h : pchain nodes f k = some l) :
    ∀ x ∈ l, ∃ l₁ l₂ f', l = l₁ ++ x :: l₂ ∧ f' < f ∧ pchain nodes f' x = some l₂ := by
  induction f generalizing k l with
  | zero => simp [pchain] at h
  | succ f ih =>
    intro x hx
    obtain ⟨n, hk⟩ := pchain_lookup h
    cases hp : n.parent_key with
    | none =>
      rw [pchain_nil_of_parent_none hk hp] at h
      obtain rfl := Option.some.inj h
      simp at hx
    | some p =>
      rw [pchain_cons_of_parent hk hp] at h
      cases hc : pchain nodes f p with
      | none => simp [hc] at h
      | some lp =>
        simp only [hc, Option.map_some] at h
        obtain rfl := Option.some.inj h
        rcases List.mem_cons.mp hx with rfl | hx'
        · exact ⟨[], lp, f, rfl, by omega, hc⟩
        · obtain ⟨l₁, l₂, f', heq, hf, hc'⟩ := ih hc x hx'
          exact ⟨p :: l₁, l₂, f', by simp [heq], by omega, hc'⟩

theorem pchain_nodup {nodes : List (Nat × InnerNode V)} {f k : Nat} {l : List Nat}
    (h : pchain nodes f k = some l) : l.Nodup := by
  induction f generalizing k l with
  | zero => simp [pchain] at h
  | succ f ih =>
    obtain ⟨n, hk⟩ := pchain_lookup h
    cases hp : n.parent_key with
    | none =>
      rw [pchain_nil_of_parent_none hk hp] at h
      obtain rfl := Option.some.inj h
      simp
    | some p =>
      rw [pchain_cons_of_parent hk hp] at h
      cases hc : pchain nodes f p with
      | none => simp [hc] at h
      | some lp =>
        simp only [hc, Option.map_some] at h
        obtain rfl := Option.some.inj h
        refine List.nodup_cons.mpr ⟨?_, ih hc⟩
        intro hmem
        obtain ⟨l₁, l₂, f', heq, hf, hc'⟩ := pchain_mem_decomp hc p hmem
        have h2 : l₂ = lp := pchain_unique hc' hc
        subst h2
        have hlen : l₂.length = l₁.length + 1 + l₂.length := by
          conv_lhs => rw [heq]
          simp
          omega
        omega

-- ### Ancestor-chain lemmas under structural well-formedness

theorem live_of_mem_ancChain {nodes : List (Nat × InnerNode V)} {x y : Nat}
    (h : y ∈ ancChain nodes x) :
    (∃ n, lookupKey x nodes = some n) ∧
      pchain nodes (nodes.length + 1) x = some (ancChain nodes x) := by
  cases hc : pchain nodes (nodes.length + 1) x with
  | none => simp [ancChain, hc] at h
  | some l =>
    have hl : ancChain nodes x = l := by simp [ancChain, hc]
    exact ⟨pchain_lookup hc, by rw [hl]⟩

theorem WFm.ancChain_spec {nodes : List (Nat × InnerNode V)} (w : WFm nodes) {k : Nat}
    {n : InnerNode V} (hk : lookupKey k nodes = some n) :
    pchain nodes (nodes.length + 1) k = some (ancChain nodes k) := by
  have hr := w.reach k n hk
  cases hc : pchain nodes (nodes.length + 1) k with
  | none => rw [hc] at hr; simp at hr
  | some l => simp [ancChain, hc]

theorem ancChain_parent {nodes : List (Nat × InnerNode V)} (w : WFm nodes) {k p : Nat}
    {n : InnerNode V} (hk : lookupKey k nodes = some n) (hp : n.parent_key = some p) :
    ancChain nodes k = p :: ancChain nodes p := by
  have hs := w.ancChain_spec hk
  rw [pchain_cons_of_parent hk hp] at hs
  cases hc : pchain nodes nodes.length p with
  | none => simp [hc] at hs
  | some l =>
    simp only [hc, Option.map_some'] at hs
    have hl : ancChain nodes p = l := by
      have hm := pchain_mono (Nat.le_succ _) hc
      simp [ancChain, hm]
    rw [hl]
    exact (Option.some.inj hs).symm

theorem ancChain_parent_none {nodes : List (Nat × InnerNode V)} {k : Nat}
    {n : InnerNode V} (hk : lookupKey k nodes = some n) (hp : n.parent_key = none) :
    ancChain nodes k = [] := by
  have hn := pchain_nil_of_parent_none (f := nodes.length) hk hp
  simp [ancChain, hn]

theorem mem_ancChain_live {nodes : List (Nat × InnerNode V)} {k x : Nat}
    (hx : x ∈ ancChain nodes k) : ∃ m, lookupKey x nodes = some m := by
  obtain ⟨_, hs⟩ := live_of_mem_ancChain hx
  obtain ⟨l₁, l₂, f', _, _, hc'⟩ := pchain_mem_decomp hs x hx
  exact pchain_lookup hc'

theorem ancChain_suffix {nodes : List (Nat × InnerNode V)} {k x : Nat}
    (hx : x ∈ ancChain nodes k) :
    ∃ l₁, ancChain nodes k = l₁ ++ x :: ancChain nodes x := by
  obtain ⟨_, hs⟩ := live_of_mem_ancChain hx
  obtain ⟨l₁, l₂, f', heq, hf, hc'⟩ := pchain_mem_decomp hs x hx
  have hc2 : pchain nodes (nodes.length + 1) x = some l₂ := pchain_mono (by omega) hc'
  have hl : ancChain nodes x = l₂ := by simp [ancChain, hc2]
  exact ⟨l₁, by rw [heq, hl]⟩

theorem ancChain_length_lt {nodes : List (Nat × InnerNode V)} {k x : Nat}
    (hx : x ∈ ancChain nodes k) :
    (ancChain nodes x).length < (ancChain nodes k).length := by
  obtain ⟨l₁, heq⟩ := ancChain_suffix hx
  rw [heq]
  simp only [List.length_append, List.length_cons]
  omega

theorem not_mem_ancChain_self {nodes : List (Nat × InnerNode V)} (k : Nat) :
    k ∉ ancChain nodes k := by
  intro h
  exact absurd (ancChain_length_lt h) (lt_irrefl _)

theorem ancChain_antisym {nodes : List (Nat × InnerNode V)} {x y : Nat}
    (hx : x ∈ ancChain nodes y) (hy : y ∈ ancChain nodes x) : False := by
  have h1 := ancChain_length_lt hx
  have h2 := ancChain_length_lt hy
  omega

theorem ancChain_trans {nodes : List (Nat × InnerNode V)} {x y k : Nat}
    (hx : x ∈ ancChain nodes y) (hy : y ∈ ancChain nodes k) : x ∈ ancChain nodes k := by
  obtain ⟨l₁, heq⟩ := ancChain_suffix hy
  rw [heq]
  simp [hx]

theorem ancChain_nodup {nodes : List (Nat × InnerNode V)} (w : WFm nodes) {k : Nat}
    {n : InnerNode V} (hk : lookupKey k nodes = some n) : (ancChain nodes k).Nodup :=
  pchain_nodup (w.ancChain_spec hk)

theorem nodup_middle_eq {α : Type} {s t s' t' : List α} {a : α}
    (h : (s ++ a :: t).Nodup) (heq : s ++ a :: t = s' ++ a :: t') : t = t' := by
  induction s generalizing s' with
  | nil =>
    cases s' with
    | nil => simpa using heq
    | cons b s'' =>
      simp only [List.nil_append, List.cons_append] at heq
      obtain ⟨rfl, h2⟩ := List.cons.inj heq
      simp only [List.nil_append, List.nodup_cons] at h
      exact absurd (h2 ▸ (by simp : a ∈ s'' ++ a :: t')) h.1
  | cons b s₂ ih =>
    cases s' with
    | nil =>
      simp only [List.cons_append, List.nil_append] at heq
      obtain ⟨rfl, h2⟩ := List.cons.inj heq
      simp only [List.cons_append, List.nodup_cons] at h
      exact absurd (by simp : b ∈ s₂ ++ b :: t) h.1
    | cons b' s₃ =>
      simp only [List.cons_append] at heq
      obtain ⟨rfl, h2⟩ := List.cons.inj heq
      simp only [List.cons_append, List.nodup_cons] at h
      exact ih h.2 h2

theorem ancChain_linear {nodes : List (Nat × InnerNode V)} (w : WFm nodes) {k x y : Nat}
    (hx : x ∈ ancChain nodes k) (hy : y ∈ ancChain nodes k) :
    x = y ∨ x ∈ ancChain nodes y ∨ y ∈ ancChain nodes x := by
  obtain ⟨l₁, heq⟩ := ancChain_suffix hx
  rw [heq] at hy
  rcases List.mem_append.mp hy with hy1 | hy1
  · obtain ⟨a, b, rfl⟩ := List.append_of_mem hy1
    obtain ⟨m, hkk⟩ : ∃ m, lookupKey k nodes = some m := (live_of_mem_ancChain hx).1
    have hnd : (ancChain nodes k).Nodup := ancChain_nodup w hkk
    obtain ⟨l₂, heq2⟩ := ancChain_suffix (heq ▸ hy : y ∈ ancChain nodes k)
    rw [heq] at heq2 hnd
    have hassoc : ((a ++ y :: b) ++ x :: ancChain nodes x : List Nat) =
        a ++ y :: (b ++ x :: ancChain nodes x) := by simp
    rw [hassoc] at heq2 hnd
    have hmid := nodup_middle_eq hnd heq2
    refine Or.inr (Or.inl ?_)
    rw [← hmid]
    simp
  · rcases List.mem_cons.mp hy1 with rfl | hy2
    · exact Or.inl rfl
    · exact Or.inr (Or.inr hy2)

theorem child_chain {nodes : List (Nat × InnerNode V)} (w : WFm nodes) {k c : Nat}
    {n : InnerNode V} (hk : lookupKey k nodes = some n) (hc : c ∈ n.child_keys) :
    ancChain nodes c = k :: ancChain nodes k := by
  obtain ⟨m, hm, hp⟩ := w.children_live k n hk c hc
  exact ancChain_parent w hm hp

theorem child_ne {nodes : List (Nat × InnerNode V)} (w : WFm nodes) {k c : Nat}
    {n : InnerNode V} (hk : lookupKey k nodes = some n) (hc : c ∈ n.child_keys) : c ≠ k := by
  intro h
  subst h
  have hh := child_chain w hk hc
  exact not_mem_ancChain_self c (hh ▸ List.mem_cons_self c _)

theorem InSub_trans {nodes : List (Nat × InnerNode V)} {s m x : Nat}
    (h1 : InSub nodes s m) (h2 : InSub nodes m x) : InSub nodes s x := by
  rcases h1 with rfl | h1
  · exact h2
  · rcases h2 with rfl | h2
    · exact Or.inr h1
    · exact Or.inr (ancChain_trans h1 h2)

theorem strict_desc_through_child {nodes : List (Nat × InnerNode V)} (w : WFm nodes)
    {s x : Nat} {n : InnerNode V} (hs : lookupKey s nodes = some n)
    (hx : s ∈ ancChain nodes x) : ∃ c ∈ n.child_keys, InSub nodes c x := by
  obtain ⟨⟨m, hm⟩, h2⟩ := live_of_mem_ancChain hx
  cases hp : m.parent_key with
  | none =>
    rw [ancChain_parent_none hm hp] at hx
    simp at hx
  | some p =>
    have hchain := ancChain_parent w hm hp
    rw [hchain] at hx
    rcases List.mem_cons.mp hx with rfl | hx'
    · obtain ⟨pm, hpm, hcm⟩ := w.parent_back x m s hm hp
      rw [hpm] at hs
      obtain rfl := Option.some.inj hs
      exact ⟨x, hcm, Or.inl rfl⟩
    · obtain ⟨c, hc, hcp⟩ := strict_desc_through_child w hs hx'
      refine ⟨c, hc, InSub_trans hcp (Or.inr ?_)⟩
      rw [hchain]
      exact List.mem_cons_self p _
termination_by (ancChain nodes x).length
decreasing_by
  rw [hchain]
  simp

theorem desc_of_child {nodes : List (Nat × InnerNode V)} (w : WFm nodes) {s c x : Nat}
    {n : InnerNode V} (hs : lookupKey s nodes = some n) (hc : c ∈ n.child_keys)
    (hcx : InSub nodes c x) : s ∈ ancChain nodes x ∧ x ≠ s := by
  have hchain := child_chain w hs hc
  have hmem : s ∈ ancChain nodes x := by
    rcases hcx with heq1 | hcx
    · rw [← heq1, hchain]
      exact List.mem_cons_self _ _
    · obtain ⟨l₁, heq⟩ := ancChain_suffix hcx
      rw [heq, hchain]
      simp
  refine ⟨hmem, ?_⟩
  intro h
  rw [h] at hmem
  exact not_mem_ancChain_self s hmem

-- ### Characterising the two loops of get_relationship

theorem foldl_indexSetInsert_of_disjoint {path l : List Nat} (hnd : l.Nodup)
    (hdisj : ∀ a ∈ l, a ∉ path) : List.foldl indexSetInsert path l = path ++ l := by
  induction l generalizing path with
  | nil => simp
  | cons a l ih =>
    have ha : a ∉ path := hdisj a (List.mem_cons_self a l)
    simp only [List.foldl_cons, indexSetInsert_of_not_mem ha]
    rw [ih (List.nodup_cons.mp hnd).2]
    · simp
    · intro b hb
      simp only [List.mem_append, List.mem_singleton]
      rintro (hbp | rfl)
      · exact hdisj b (List.mem_cons_of_mem a hb) hbp
      · exact (List.nodup_cons.mp hnd).1 hb

theorem ancChain_subset_keys {nodes : List (Nat × InnerNode V)} {k : Nat} :
    ∀ x ∈ ancChain nodes k, x ∈ keysOf nodes := by
  intro x hx
  obtain ⟨m, hm⟩ := mem_ancChain_live hx
  exact mem_keysOf_of_lookupKey hm

theorem ancChain_length_le {nodes : List (Nat × InnerNode V)} (w : WFm nodes) {k : Nat}
    {n : InnerNode V} (hk : lookupKey k nodes = some n) :
    (ancChain nodes k).length ≤ nodes.length := by
  have hnd := ancChain_nodup w hk
  have hsub : ancChain nodes k ⊆ keysOf nodes := fun x hx => ancChain_subset_keys x hx
  have hle := (hnd.subperm hsub).length_le
  simpa [keysOf] using hle

theorem walk1_spec {nodes : List (Nat × InnerNode V)} (w : WFm nodes) (k1 k2 : Nat) :
    ∀ fuel x nx path, lookupKey x nodes = some nx → (ancChain nodes x).length < fuel →
      walk1 nodes k1 k2 fuel nx.parent_key path =
        (if k2 ∈ ancChain nodes x then some (Sum.inr (.ancestral k2 k1))
         else some (Sum.inl (List.foldl indexSetInsert path (ancChain nodes x)))) := by
  intro fuel
  induction fuel with
  | zero => intro x nx path _ hf; omega
  | succ fuel ih =>
    intro x nx path hx hf
    cases hp : nx.parent_key with
    | none =>
      rw [ancChain_parent_none hx hp]
      simp [walk1]
    | some p =>
      have hchain := ancChain_parent w hx hp
      by_cases hpk2 : p = k2
      · subst hpk2
        rw [hchain]
        simp [walk1]
      · obtain ⟨np, hnp⟩ : ∃ np, lookupKey p nodes = some np :=
          mem_ancChain_live (hchain ▸ List.mem_cons_self p _)
        have hlen : (ancChain nodes p).length < fuel := by
          have : (ancChain nodes x).length = (ancChain nodes p).length + 1 := by
            rw [hchain]; simp
          omega
        have hrec := ih p np (indexSetInsert path p) hnp hlen
        rw [hchain]
        have hstep : walk1 nodes k1 k2 (fuel + 1) (some p) path =
            walk1 nodes k1 k2 fuel np.parent_key (indexSetInsert path p) := by
          simp [walk1, hpk2, hnp]
        rw [hstep, hrec]
        by_cases hk2 : k2 ∈ ancChain nodes p
        · rw [if_pos hk2, if_pos (List.mem_cons_of_mem _ hk2)]
        · have hcond : k2 ∉ p :: ancChain nodes p := by
            rw [List.mem_cons]
            rintro (h1 | hmem)
            · exact hpk2 h1.symm
            · exact hk2 hmem
          rw [if_neg hk2, if_neg hcond]
          simp

theorem walk2_spec {nodes : List (Nat × InnerNode V)} (w : WFm nodes) (k1 k2 : Nat)
    (path : List Nat) :
    ∀ fuel x nx, lookupKey x nodes = some nx → (ancChain nodes x).length < fuel →
      walk2 nodes k1 k2 path fuel nx.parent_key =
        (hitResult k1 k2 path (ancChain nodes x)).map some := by
  intro fuel
  induction fuel with
  | zero => intro x nx _ hf; omega
  | succ fuel ih =>
    intro x nx hx hf
    cases hp : nx.parent_key with
    | none =>
      rw [ancChain_parent_none hx hp]
      simp [walk2, hitResult]
    | some p =>
      have hchain := ancChain_parent w hx hp
      rw [hchain]
      by_cases hpk1 : p = k1
      · subst hpk1
        simp [walk2, hitResult]
      · by_cases hppath : p ∈ path
        · simp [walk2, hitResult, hpk1, hppath]
        · obtain ⟨np, hnp⟩ : ∃ np, lookupKey p nodes = some np :=
            mem_ancChain_live (hchain ▸ List.mem_cons_self p _)
          have hlen : (ancChain nodes p).length < fuel := by
            have : (ancChain nodes x).length = (ancChain nodes p).length + 1 := by
              rw [hchain]; simp
            omega
          have hrec := ih p np hnp hlen
          simp [walk2, hitResult, hpk1, hppath, hnp, hrec]

theorem WF.toWFm {t : Tree V} (w : WF t) : WFm t.inner_nodes :=
  ⟨w.keys_nodup, w.children_live, w.parent_back, w.child_nodup, w.reach⟩

theorem hitResult_append_no_hit {k1 k2 : Nat} {path : List Nat} {l₁ rest : List Nat}
    (h : ∀ e ∈ l₁, e ≠ k1 ∧ e ∉ path) :
    hitResult k1 k2 path (l₁ ++ rest) = hitResult k1 k2 path rest := by
  induction l₁ with
  | nil => simp
  | cons a l ih =>
    obtain ⟨ha1, ha2⟩ := h a (List.mem_cons_self a l)
    simp only [List.cons_append, hitResult, if_neg ha1, if_neg ha2]
    exact ih (fun e he => h e (List.mem_cons_of_mem _ he))

theorem hitResult_ancestral {nodes : List (Nat × InnerNode V)} (w : WFm nodes) {k1 k2 : Nat}
    {n2 : InnerNode V} (h2 : lookupKey k2 nodes = some n2) (h : k1 ∈ ancChain nodes k2) :
    hitResult k1 k2 (ancChain nodes k1) (ancChain nodes k2) = some (.ancestral k1 k2) := by
  obtain ⟨l₁, heq⟩ := ancChain_suffix h
  have hnd : (ancChain nodes k2).Nodup := ancChain_nodup w h2
  have hk1l : k1 ∉ l₁ := by
    rw [heq] at hnd
    have hd := (List.nodup_append.mp hnd).2.2
    intro hin
    exact hd hin (List.mem_cons_self _ _)
  have hno : ∀ e ∈ l₁, e ≠ k1 ∧ e ∉ ancChain nodes k1 := by
    intro e he
    refine ⟨?_, ?_⟩
    · rintro rfl
      exact hk1l he
    · intro hek1
      obtain ⟨a, b, rfl⟩ := List.append_of_mem he
      have heq2 : ancChain nodes k2 = a ++ e :: (b ++ k1 :: ancChain nodes k1) := by
        rw [heq]
        simp
      have hemem : e ∈ ancChain nodes k2 := by
        rw [heq2]
        simp
      obtain ⟨a', heq3⟩ := ancChain_suffix hemem
      have hnd2 := hnd
      rw [heq2] at hnd2
      have hmid := nodup_middle_eq hnd2 (heq2.symm.trans heq3)
      have hk1e : k1 ∈ ancChain nodes e := by
        rw [← hmid]
        simp
      exact ancChain_antisym hk1e hek1
  rw [heq, hitResult_append_no_hit hno]
  simp [hitResult]

theorem hitResult_split {k1 k2 e₀ : Nat} {path chain : List Nat}
    (hk1 : k1 ∉ chain) (he : e₀ ∈ chain) (hep : e₀ ∈ path) :
    ∃ c l₁ l₂, chain = l₁ ++ c :: l₂ ∧ c ∈ path ∧ (∀ e ∈ l₁, e ∉ path) ∧
      hitResult k1 k2 path chain = some (.siblings c) := by
  induction chain with
  | nil => simp at he
  | cons p rest ih =>
    have hpk1 : p ≠ k1 := by
      rintro rfl
      exact hk1 (List.mem_cons_self _ _)
    by_cases hpp : p ∈ path
    · exact ⟨p, [], rest, rfl, hpp, by simp, by simp [hitResult, hpk1, hpp]⟩
    · have he' : e₀ ∈ rest := by
        rcases List.mem_cons.mp he with rfl | hmem
        · exact absurd hep hpp
        · exact hmem
      obtain ⟨c, l₁, l₂, heq, hc, hl₁, hres⟩ :=
        ih (fun hmem => hk1 (List.mem_cons_of_mem _ hmem)) he'
      refine ⟨c, p :: l₁, l₂, by simp [heq], hc, ?_, ?_⟩
      · intro e hel
        rcases List.mem_cons.mp hel with rfl | hmem
        · exact hpp
        · exact hl₁ e hmem
      · simp [hitResult, hpk1, hpp, hres]

theorem hitResult_siblings {nodes : List (Nat × InnerNode V)} (w : WFm nodes) {k1 k2 e₀ : Nat}
    {n2 : InnerNode V} (h2 : lookupKey k2 nodes = some n2)
    (hn1 : k1 ∉ ancChain nodes k2)
    (he1 : e₀ ∈ ancChain nodes k1) (he2 : e₀ ∈ ancChain nodes k2) :
    ∃ c, hitResult k1 k2 (ancChain nodes k1) (ancChain nodes k2) = some (.siblings c) ∧
      IsLCA nodes k1 k2 c := by
  obtain ⟨c, l₁, l₂, heq, hc, hl₁, hres⟩ := hitResult_split hn1 he2 he1
  have hcmem : c ∈ ancChain nodes k2 := by
    rw [heq]
    simp
  have hl₂ : l₂ = ancChain nodes c := by
    obtain ⟨a', heq3⟩ := ancChain_suffix hcmem
    have hnd := ancChain_nodup w h2
    rw [heq] at hnd
    exact nodup_middle_eq hnd (heq.symm.trans heq3)
  refine ⟨c, hres, hc, hcmem, ?_⟩
  intro d hd1 hd2
  rw [heq] at hd2
  rcases List.mem_append.mp hd2 with hd | hd
  · exact absurd hd1 (by simpa using hl₁ d hd)
  · rcases List.mem_cons.mp hd with rfl | hd'
    · exact Or.inl rfl
    · exact Or.inr (hl₂ ▸ hd')

theorem IsLCA_symm {nodes : List (Nat × InnerNode V)} {a b c : Nat}
    (h : IsLCA nodes a b c) : IsLCA nodes b a c :=
  ⟨h.2.1, h.1, fun d hd1 hd2 => h.2.2 d hd2 hd1⟩

theorem IsLCA_unique {nodes : List (Nat × InnerNode V)} {a b c c' : Nat}
    (h : IsLCA nodes a b c) (h' : IsLCA nodes a b c') : c = c' := by
  rcases h.2.2 c' h'.1 h'.2.1 with heq | h1
  · exact heq.symm
  rcases h'.2.2 c h.1 h.2.1 with heq | h2
  · exact heq
  exact (ancChain_antisym h1 h2).elim

theorem root_mem_ancChain {t : Tree V} (w : WF t) {r k : Nat} {n : InnerNode V}
    (hroot : t.root_key = some r) (hk : lookupKey k t.inner_nodes = some n) (hne : k ≠ r) :
    r ∈ ancChain t.inner_nodes k := by
  cases hp : n.parent_key with
  | none =>
    have hiff := (w.parent_none_iff k n hk).mp hp
    rw [hroot] at hiff
    exact absurd (Option.some.inj hiff).symm hne
  | some p =>
    have hchain := ancChain_parent w.toWFm hk hp
    by_cases hpr : p = r
    · rw [hchain, hpr]
      exact List.mem_cons_self _ _
    · obtain ⟨np, hnp⟩ : ∃ np, lookupKey p t.inner_nodes = some np :=
        mem_ancChain_live (hchain ▸ List.mem_cons_self p _)
      have hrec := root_mem_ancChain w hroot hnp hpr
      rw [hchain]
      exact List.mem_cons_of_mem _ hrec
termination_by (ancChain t.inner_nodes k).length
decreasing_by
  rw [hchain]
  simp

theorem getRelationship_spec {t : Tree V} (w : WF t) {k1 k2 : Nat} {n1 n2 : InnerNode V}
    (h1 : lookupKey k1 t.inner_nodes = some n1) (h2 : lookupKey k2 t.inner_nodes = some n2)
    (hne : k1 ≠ k2) :
    getRelationship t k1 k2 =
      (if k2 ∈ ancChain t.inner_nodes k1 then some (some (.ancestral k2 k1))
       else (hitResult k1 k2 (ancChain t.inner_nodes k1)
          (ancChain t.inner_nodes k2)).map some) := by
  have hw1 := walk1_spec w.toWFm k1 k2 (t.inner_nodes.length + 1) k1 n1 [] h1
    (by have := ancChain_length_le w.toWFm h1; omega)
  have hfold : List.foldl indexSetInsert [] (ancChain t.inner_nodes k1) =
      ancChain t.inner_nodes k1 := by
    have hfd := foldl_indexSetInsert_of_disjoint (ancChain_nodup w.toWFm h1)
      (fun a _ => List.not_mem_nil a)
    simpa using hfd
  have hw2 := walk2_spec w.toWFm k1 k2 (ancChain t.inner_nodes k1)
    (t.inner_nodes.length + 1) k2 n2 h2
    (by have := ancChain_length_le w.toWFm h2; omega)
  rw [hfold] at hw1
  unfold getRelationship
  simp only [contains, h1, h2, Option.isSome_some, Bool.and_self, if_true, if_neg hne]
  by_cases hmem : k2 ∈ ancChain t.inner_nodes k1
  · rw [if_pos hmem] at hw1
    simp [hw1, if_pos hmem]
  · rw [if_neg hmem] at hw1
    simp [hw1, if_neg hmem, hw2]

theorem getRelationship_comm {t : Tree V} (w : WF t) (a b : Nat) :
    getRelationship t b a = getRelationship t a b := by
  by_cases hab : a = b
  · rw [hab]
  cases ha : lookupKey a t.inner_nodes with
  | none =>
    simp [getRelationship, contains, ha]
  | some na =>
    cases hb : lookupKey b t.inner_nodes with
    | none => simp [getRelationship, contains, hb]
    | some nb =>
      have hspec1 := getRelationship_spec w ha hb hab
      have hspec2 := getRelationship_spec w hb ha (fun h => hab h.symm)
      by_cases hba : b ∈ ancChain t.inner_nodes a
      · have hnab : a ∉ ancChain t.inner_nodes b := fun h => ancChain_antisym h hba
        rw [hspec1, hspec2, if_pos hba, if_neg hnab,
          hitResult_ancestral w.toWFm ha hba]
        rfl
      · by_cases hanb : a ∈ ancChain t.inner_nodes b
        · rw [hspec1, hspec2, if_neg hba, if_pos hanb,
            hitResult_ancestral w.toWFm hb hanb]
          rfl
        · obtain ⟨r, hroot⟩ : ∃ r, t.root_key = some r := by
            cases hroot : t.root_key with
            | none =>
              have := w.root_none hroot
              rw [this] at ha
              simp [lookupKey] at ha
            | some r => exact ⟨r, rfl⟩
          have har : a ≠ r := by
            rintro rfl
            exact hanb (root_mem_ancChain w hroot hb (fun h => hab h.symm))
          have hbr : b ≠ r := by
            rintro rfl
            exact hba (root_mem_ancChain w hroot ha hab)
          have hra := root_mem_ancChain w hroot ha har
          have hrb := root_mem_ancChain w hroot hb hbr
          obtain ⟨c, hcres, hclca⟩ := hitResult_siblings w.toWFm hb hanb hra hrb
          obtain ⟨c', hcres', hclca'⟩ := hitResult_siblings w.toWFm ha hba hrb hra
          have hcc : c = c' := IsLCA_unique hclca (IsLCA_symm hclca')
          rw [hspec1, hspec2, if_neg hba, if_neg hanb, hcres, hcres', hcc]

theorem getRelationship_siblings_lca {t : Tree V} (w : WF t) {a b c : Nat}
    (h : getRelationship t a b = some (some (.siblings c))) :
    IsLCA t.inner_nodes a b c := by
  by_cases hab : a = b
  · rw [hab] at h
    simp only [getRelationship] at h
    by_cases hcb : contains t b
    · simp [hcb] at h
    · simp [hcb] at h
  cases ha : lookupKey a t.inner_nodes with
  | none => simp [getRelationship, contains, ha] at h
  | some na =>
    cases hb : lookupKey b t.inner_nodes with
    | none => simp [getRelationship, contains, hb] at h
    | some nb =>
      rw [getRelationship_spec w ha hb hab] at h
      by_cases hba : b ∈ ancChain t.inner_nodes a
      · rw [if_pos hba] at h
        simp at h
      · rw [if_neg hba] at h
        by_cases hanb : a ∈ ancChain t.inner_nodes b
        · rw [hitResult_ancestral w.toWFm hb hanb] at h
          simp at h
        · obtain ⟨r, hroot⟩ : ∃ r, t.root_key = some r := by
            cases hroot : t.root_key with
            | none =>
              have := w.root_none hroot
              rw [this] at ha
              simp [lookupKey] at ha
            | some r => exact ⟨r, rfl⟩
          have har : a ≠ r := by
            rintro rfl
            exact hanb (root_mem_ancChain w hroot hb (fun hx => hab hx.symm))
          have hbr : b ≠ r := by
            rintro rfl
            exact hba (root_mem_ancChain w hroot ha hab)
          have hra := root_mem_ancChain w hroot ha har
          have hrb := root_mem_ancChain w hroot hb hbr
          obtain ⟨c₀, hcres, hclca⟩ := hitResult_siblings w.toWFm hb hanb hra hrb
          rw [hcres] at h
          simp only [Option.map_some', Option.some.injEq, Relationship.siblings.injEq] at h
          rw [← h]
          exact hclca

theorem getRelationship_total {t : Tree V} (w : WF t) {a b : Nat} {na nb : InnerNode V}
    (ha : lookupKey a t.inner_nodes = some na) (hb : lookupKey b t.inner_nodes = some nb) :
    ∃ r, getRelationship t a b = some r := by
  by_cases hab : a = b
  · refine ⟨some .same, ?_⟩
    rw [hab]
    simp [getRelationship, contains, hb]
  rw [getRelationship_spec w ha hb hab]
  by_cases hba : b ∈ ancChain t.inner_nodes a
  · exact ⟨some (.ancestral b a), by rw [if_pos hba]⟩
  rw [if_neg hba]
  by_cases hanb : a ∈ ancChain t.inner_nodes b
  · exact ⟨some (.ancestral a b), by rw [hitResult_ancestral w.toWFm hb hanb]; rfl⟩
  · obtain ⟨r, hroot⟩ : ∃ r, t.root_key = some r := by
      cases hroot : t.root_key with
      | none =>
        have := w.root_none hroot
        rw [this] at ha
        simp [lookupKey] at ha
      | some r => exact ⟨r, rfl⟩
    have har : a ≠ r := by
      rintro rfl
      exact hanb (root_mem_ancChain w hroot hb (fun hx => hab hx.symm))
    have hbr : b ≠ r := by
      rintro rfl
      exact hba (root_mem_ancChain w hroot ha hab)
    obtain ⟨c₀, hcres, _⟩ := hitResult_siblings w.toWFm hb hanb
      (root_mem_ancChain w hroot ha har) (root_mem_ancChain w hroot hb hbr)
    exact ⟨some (.siblings c₀), by rw [hcres]; rfl⟩

theorem wf_of_wfB {t : Tree V} (h : wfB t = true) : WF t := by
  simp only [wfB, Bool.and_eq_true] at h
  obtain ⟨⟨⟨hnd, hlt⟩, hroot⟩, hall⟩ := h
  have hnd' : (keysOf t.inner_nodes).Nodup := of_decide_eq_true hnd
  refine ⟨hnd', ?_, ?_, ?_, ?_, ?_, ?_, ?_, ?_⟩
  · intro k hk
    exact of_decide_eq_true (List.all_eq_true.mp hlt k hk)
  · intro hr
    rw [hr] at hroot
    simpa [List.isEmpty_iff] using hroot
  · intro r hr
    rw [hr] at hroot
    have : r ∈ keysOf t.inner_nodes := by simpa using hroot
    rw [← lookupKey_isSome_iff] at this
    exact Option.isSome_iff_exists.mp this
  · intro k n hk
    have he := List.all_eq_true.mp hall (k, n) (lookupKey_mem hk)
    simp only [Bool.and_eq_true] at he
    obtain ⟨⟨⟨hpar, _⟩, _⟩, _⟩ := he
    constructor
    · intro hp
      rw [hp] at hpar
      simpa using hpar
    · intro hp
      cases hpq : n.parent_key with
      | none => rfl
      | some p =>
        rw [hpq] at hpar
        simp only [Bool.and_eq_true, Bool.not_eq_true'] at hpar
        rw [hp] at hpar
        simp at hpar
  · intro k n hk c hc
    have he := List.all_eq_true.mp hall (k, n) (lookupKey_mem hk)
    simp only [Bool.and_eq_true] at he
    obtain ⟨⟨⟨_, hch⟩, _⟩, _⟩ := he
    have hcb := List.all_eq_true.mp hch c hc
    simp only [parentIs] at hcb
    cases hlc : lookupKey c t.inner_nodes with
    | none => rw [hlc] at hcb; simp at hcb
    | some m =>
      rw [hlc] at hcb
      simp only [beq_iff_eq] at hcb
      exact ⟨m, rfl, hcb⟩
  · intro k n p hk hp
    have he := List.all_eq_true.mp hall (k, n) (lookupKey_mem hk)
    simp only [Bool.and_eq_true] at he
    obtain ⟨⟨⟨hpar, _⟩, _⟩, _⟩ := he
    rw [hp] at hpar
    simp only [Bool.and_eq_true] at hpar
    have hhc := hpar.2
    simp only [hasChild] at hhc
    cases hlp : lookupKey p t.inner_nodes with
    | none => rw [hlp] at hhc; simp at hhc
    | some m =>
      rw [hlp] at hhc
      exact ⟨m, rfl, by simpa using hhc⟩
  · intro k n hk
    have he := List.all_eq_true.mp hall (k, n) (lookupKey_mem hk)
    simp only [Bool.and_eq_true] at he
    obtain ⟨⟨⟨_, _⟩, hcn⟩, _⟩ := he
    exact of_decide_eq_true hcn
  · intro k n hk
    have he := List.all_eq_true.mp hall (k, n) (lookupKey_mem hk)
    simp only [Bool.and_eq_true] at he
    exact he.2

/-- **C7**: on a well-formed tree, `get_relationship(a, b)` and
`get_relationship(b, a)` return identical results — the same `Ancestral`
pair with the same role assignment and the same `Siblings` common ancestor
— and a reported `Siblings` common ancestor is the lowest (deepest) common
ancestor of the two keys. -/
theorem C7_get_relationship_symmetric (t : Tree V) (w : WF t) (a b : Nat) :
    getRelationship t a b = getRelationship t b a ∧
      ∀ c, getRelationship t a b = some (some (.siblings c)) → IsLCA t.inner_nodes a b c :=
  ⟨(getRelationship_comm w a b).symm, fun _ h => getRelationship_siblings_lca w h⟩

/-- Witness for C7 on the fork `0 → [1, 2]`: keys 1 and 2 are siblings with
common ancestor 0. -/
theorem C7_get_relationship_symmetric_witness :
    (getRelationship sibTree 1 2 = getRelationship sibTree 2 1 ∧
      ∀ c, getRelationship sibTree 1 2 = some (some (.siblings c)) →
        IsLCA sibTree.inner_nodes 1 2 c) ∧
    getRelationship sibTree 1 2 = some (some (.siblings 0)) :=
  ⟨C7_get_relationship_symmetric sibTree (wf_of_wfB (by decide)) 1 2, by decide⟩

/-- **C6**: `insert(v, p)` returns `none` iff `p` is not a live handle (and
then nothing changes, since no tree is produced); otherwise it returns a
fresh handle `k` whose node has `parent = p`, `depth = depth(p) + 1`, no
children, value `v`, and `k` is appended as the last element of `p`'s
child order. -/
theorem C6_insert_spec (t : Tree V) (w : WF t) (v : V) (p : Nat) :
    (insert t v p = none ↔ lookupKey p t.inner_nodes = none) ∧
    (∀ pn, lookupKey p t.inner_nodes = some pn →
      ∃ k t', insert t v p = some (k, t') ∧
        lookupKey k t.inner_nodes = none ∧
        lookupKey k t'.inner_nodes = some ⟨some p, [], v, pn.depth + 1⟩ ∧
        lookupKey p t'.inner_nodes = some { pn with child_keys := pn.child_keys ++ [k] }) := by
  have hfresh : lookupKey t.next_key t.inner_nodes = none := by
    rw [lookupKey_eq_none_iff]
    intro hmem
    exact absurd (w.keys_lt _ hmem) (lt_irrefl _)
  constructor
  · constructor
    · intro hi
      cases hp : lookupKey p t.inner_nodes with
      | none => rfl
      | some pn => simp [insert, hp] at hi
    · intro hp
      simp [insert, hp]
  · intro pn hp
    have hkp : t.next_key ≠ p := by
      intro heq
      rw [heq] at hfresh
      rw [hfresh] at hp
      exact Option.noConfusion hp
    have hknotchild : t.next_key ∉ pn.child_keys := by
      intro hmem
      obtain ⟨m, hm, _⟩ := w.children_live p pn hp _ hmem
      rw [hfresh] at hm
      exact Option.noConfusion hm
    refine ⟨t.next_key,
      ⟨t.root_key,
        setKey p { pn with child_keys := indexSetInsert pn.child_keys t.next_key }
          (t.inner_nodes ++ [(t.next_key, ⟨some p, [], v, pn.depth + 1⟩)]),
        t.next_key + 1⟩, ?_, hfresh, ?_, ?_⟩
    · simp [insert, hp]
    · rw [lookupKey_setKey_ne hkp, lookupKey_append_of_none hfresh]
      simp [lookupKey]
    · rw [lookupKey_setKey_self, lookupKey_append_of_some hp]
      simp [indexSetInsert_of_not_mem hknotchild]

/-- Witness for C6 on the chain `0 → [1 → [2]]`, inserting under parent 1. -/
theorem C6_insert_spec_witness :
    (insert chainTree 103 1 = none ↔ lookupKey 1 chainTree.inner_nodes = none) ∧
    (∀ pn, lookupKey 1 chainTree.inner_nodes = some pn →
      ∃ k t', insert chainTree 103 1 = some (k, t') ∧
        lookupKey k chainTree.inner_nodes = none ∧
        lookupKey k t'.inner_nodes = some ⟨some 1, [], 103, pn.depth + 1⟩ ∧
        lookupKey 1 t'.inner_nodes = some { pn with child_keys := pn.child_keys ++ [k] }) :=
  C6_insert_spec chainTree (wf_of_wfB (by decide)) 103 1

/-- **C8**: whenever `remove` reports `none`, or `rebase` or
`reorder_children` report `false`, the tree produced is exactly the input
tree — no observable mutation (values, parents, child orders, depths and
the live-handle set all agree, since the whole state is compared). -/
theorem C8_failure_is_atomic (t : Tree V) (k p : Nat) (h : Option Nat)
    (f : List Nat → List Nat) :
    (∀ t', remove t k h = some (none, t') → t' = t) ∧
    (∀ t', rebase t k p h = some (t', false) → t' = t) ∧
    (∀ t', reorderChildren t k f = some (t', false) → t' = t) := by
  refine ⟨?_, ?_, ?_⟩
  · intro t' hr
    cases hroot : t.root_key with
    | none =>
      simp only [remove, hroot] at hr
      simp at hr
      exact hr.symm
    | some rk =>
      simp only [remove, hroot] at hr
      by_cases hk : k = rk
      · rw [if_pos hk] at hr
        cases hl : lookupKey rk t.inner_nodes with
        | none => exact Option.noConfusion (hl ▸ hr)
        | some n => simp only [hl] at hr; simp at hr
      · rw [if_neg hk] at hr
        cases hl : lookupKey k t.inner_nodes with
        | none =>
          simp only [hl] at hr
          simp at hr
          exact hr.symm
        | some n =>
          simp only [hl] at hr
          cases hc : cascade ((eraseKey k t.inner_nodes).length + 1)
              n.child_keys.reverse (eraseKey k t.inner_nodes) with
          | none => exact Option.noConfusion (hc ▸ hr)
          | some nodes2 =>
            simp only [hc] at hr
            cases hp2 : n.parent_key with
            | none => exact Option.noConfusion (hp2 ▸ hr)
            | some pk =>
              simp only [hp2] at hr
              cases hl2 : lookupKey pk nodes2 with
              | none => exact Option.noConfusion (hl2 ▸ hr)
              | some pn => simp only [hl2] at hr; simp at hr
  · intro t' hr
    cases hg : getRelationship t k p with
    | none => rw [rebase, hg] at hr; exact Option.noConfusion hr
    | some o =>
      cases o with
      | none =>
        simp only [rebase, hg] at hr
        simp at hr
        exact hr.symm
      | some rel =>
        simp only [rebase, hg, Option.map_eq_some'] at hr
        obtain ⟨t'', _, heq⟩ := hr
        exact absurd (Prod.mk.injEq .. ▸ heq).2 (by simp)
  · intro t' hr
    cases hl : lookupKey k t.inner_nodes with
    | none =>
      simp only [reorderChildren, hl] at hr
      simp at hr
      exact hr.symm
    | some n =>
      simp only [reorderChildren, hl] at hr
      by_cases hall : ((f n.child_keys).all fun x => decide (x ∈ n.child_keys)) = true
      · rw [if_pos hall] at hr
        cases hc : cascade (t.inner_nodes.length + 1)
            (n.child_keys.filter (fun c => decide (c ∉ f n.child_keys))).reverse
            t.inner_nodes with
        | none => exact Option.noConfusion (hc ▸ hr)
        | some nodes2 =>
          simp only [hc] at hr
          cases hl2 : lookupKey k nodes2 with
          | none => exact Option.noConfusion (hl2 ▸ hr)
          | some n2 => simp only [hl2] at hr; simp at hr
      · rw [if_neg hall] at hr
        simp at hr
        exact hr.symm

/-- Witness for C8: a failing `remove` (dead handle 5), a failing `rebase`
(dead handle 5) and a failing `reorder_children` (non-child handle 5) on
`0 → [1 → [2]]` all leave the tree untouched. -/
theorem C8_failure_is_atomic_witness :
    remove chainTree 5 none = some (none, chainTree) ∧
      rebase chainTree 5 0 none = some (chainTree, false) ∧
      reorderChildren chainTree 0 (fun _ => [5]) = some (chainTree, false) ∧
      chainTree = chainTree :=
  ⟨by decide, by decide, by decide,
    (C8_failure_is_atomic chainTree 5 0 none (fun _ => [5])).1 chainTree (by decide)⟩

theorem walk2_ne_some_none {nodes : List (Nat × InnerNode V)} {k1 k2 : Nat}
    {path : List Nat} : ∀ fuel cur, walk2 nodes k1 k2 path fuel cur ≠ some none := by
  intro fuel
  induction fuel with
  | zero => intro cur; simp [walk2]
  | succ fuel ih =>
    intro cur
    cases cur with
    | none => simp [walk2]
    | some p =>
      by_cases h1 : p = k1
      · simp [walk2, h1]
      · by_cases h2 : p ∈ path
        · simp [walk2, h1, h2]
        · cases hl : lookupKey p nodes with
          | none => simp [walk2, h1, h2, hl]
          | some n => simpa [walk2, h1, h2, hl] using ih n.parent_key

theorem getRelationship_eq_some_none_iff {t : Tree V} {k p : Nat} :
    getRelationship t k p = some none ↔
      ¬(contains t k = true ∧ contains t p = true) := by
  by_cases hc : (contains t k && contains t p) = true
  · rw [Bool.and_eq_true] at hc
    have hne : getRelationship t k p ≠ some none := by
      intro hcase
      simp only [getRelationship, hc.1, hc.2, Bool.and_self, if_true] at hcase
      by_cases hkp : k = p
      · rw [if_pos hkp] at hcase
        exact Option.noConfusion (Option.some.inj hcase)
      · rw [if_neg hkp] at hcase
        cases hl : lookupKey k t.inner_nodes with
        | none =>
          simp only [contains, hl] at hc
          exact absurd hc.1 (by simp)
        | some n1 =>
          simp only [hl] at hcase
          cases hw : walk1 t.inner_nodes k p (t.inner_nodes.length + 1) n1.parent_key [] with
          | none =>
            simp only [hw] at hcase
            exact Option.noConfusion hcase
          | some s =>
            cases s with
            | inr r =>
              simp only [hw] at hcase
              exact Option.noConfusion (Option.some.inj hcase)
            | inl path =>
              simp only [hw] at hcase
              cases hl2 : lookupKey p t.inner_nodes with
              | none =>
                simp only [contains, hl2] at hc
                exact absurd hc.2 (by simp)
              | some n2 =>
                simp only [hl2] at hcase
                exact walk2_ne_some_none _ _ hcase
    constructor
    · intro hcase
      exact absurd hcase hne
    · intro hcontra
      exact absurd ⟨hc.1, hc.2⟩ hcontra
  · constructor
    · intro _
      intro hcontra
      exact hc (by rw [hcontra.1, hcontra.2]; rfl)
    · intro _
      simp only [getRelationship]
      rw [if_neg hc]

theorem self_parent_absurd {t : Tree V} (w : WF t) {k : Nat} {n : InnerNode V}
    (hk : lookupKey k t.inner_nodes = some n) (hp : n.parent_key = some k) : False := by
  have hchain := ancChain_parent w.toWFm hk hp
  have : (k : Nat) ∈ ancChain t.inner_nodes k := by
    rw [hchain]
    exact List.mem_cons_self _ _
  exact not_mem_ancChain_self k this

/-- **C3** (amended): `rebase(key, new_parent, hint)` reports `false` iff
`key` or `new_parent` is absent (and then the tree is unchanged); when the
call completes it returns `true` whenever both handles are live, even when
no structural change occurs: both `rebase(k, k)` and `rebase(k, parent(k))`
leave the tree unchanged yet return `true`. -/
theorem C3_rebase_amended (t : Tree V) (w : WF t) (k p : Nat) (h : Option Nat) :
    ((∃ t', rebase t k p h = some (t', false)) ↔
      ¬(contains t k = true ∧ contains t p = true)) ∧
    (∀ t', rebase t k p h = some (t', false) → t' = t) ∧
    (contains t k = true → rebase t k k h = some (t, true)) ∧
    (∀ n, lookupKey k t.inner_nodes = some n → n.parent_key = some p →
      rebase t k p h = some (t, true)) := by
  refine ⟨⟨?_, ?_⟩, fun t' ht' => (C8_failure_is_atomic t k p h id).2.1 t' ht', ?_, ?_⟩
  · rintro ⟨t', ht'⟩
    rw [← getRelationship_eq_some_none_iff (t := t) (k := k) (p := p)]
    cases hg : getRelationship t k p with
    | none => rw [rebase, hg] at ht'; exact Option.noConfusion ht'
    | some o =>
      cases o with
      | none => rfl
      | some rel =>
        simp only [rebase, hg, Option.map_eq_some'] at ht'
        obtain ⟨t'', _, heq⟩ := ht'
        exact absurd (Prod.mk.injEq .. ▸ heq).2 (by simp)
  · intro habs
    refine ⟨t, ?_⟩
    have hg : getRelationship t k p = some none :=
      getRelationship_eq_some_none_iff.mpr habs
    rw [rebase, hg]
  · intro hck
    have hg : getRelationship t k k = some (some .same) := by
      simp [getRelationship, hck]
    rw [rebase, hg]
    simp [rebaseInner]
  · intro n hk hp
    have hck : contains t k = true := by simp [contains, hk]
    obtain ⟨pn, hpn, _⟩ := w.parent_back k n p hk hp
    have hcp : contains t p = true := by simp [contains, hpn]
    have hkp : k ≠ p := by
      rintro rfl
      exact self_parent_absurd w hk hp
    have hg : getRelationship t k p = some (some (.ancestral p k)) := by
      simp only [getRelationship, hck, hcp, Bool.and_self, if_true, if_neg hkp, hk]
      have hfuel : t.inner_nodes.length + 1 = t.inner_nodes.length + 1 := rfl
      rw [hp]
      simp [walk1]
    rw [rebase, hg]
    simp only [rebaseInner, Option.map_eq_some']
    have hgen : rebaseGeneric t k p = some t := by
      simp [rebaseGeneric, hk, hp]
    by_cases hpp : p = p
    · simp [if_pos hpp, hgen]
    · exact absurd rfl hpp

/-- Witness for the amended C3 on `0 → [1 → [2]]`: `rebase(2, 1)` — where
`1` is already `2`'s parent — returns `true` and leaves the tree
unchanged, and a rebase with a dead handle returns `false`. -/
theorem C3_rebase_amended_witness :
    (((∃ t', rebase chainTree 2 5 none = some (t', false)) ↔
        ¬(contains chainTree 2 = true ∧ contains chainTree 5 = true)) ∧
      (∀ t', rebase chainTree 2 5 none = some (t', false) → t' = chainTree) ∧
      (contains chainTree 2 = true → rebase chainTree 2 2 none = some (chainTree, true)) ∧
      (∀ n, lookupKey 2 chainTree.inner_nodes = some n → n.parent_key = some 5 →
        rebase chainTree 2 5 none = some (chainTree, true))) ∧
    rebase chainTree 2 1 none = some (chainTree, true) :=
  ⟨C3_rebase_amended chainTree (wf_of_wfB (by decide)) 2 5 none, by decide⟩

-- ### Helper lemmas for the cascading removal loop

theorem inSubtree_iff {M : List (Nat × InnerNode V)} {s x : Nat} :
    inSubtree M s x = true ↔ InSub M s x := by
  simp [inSubtree, InSub]

theorem any_inSubtree_iff {M : List (Nat × InnerNode V)} {stack : List Nat} {x : Nat} :
    (stack.any fun s => inSubtree M s x) = true ↔ ∃ s ∈ stack, InSub M s x := by
  rw [List.any_eq_true]
  constructor
  · rintro ⟨s, hs, hin⟩
    exact ⟨s, hs, inSubtree_iff.mp hin⟩
  · rintro ⟨s, hs, hin⟩
    exact ⟨s, hs, inSubtree_iff.mpr hin⟩

theorem lookup_of_sublist {nodes M : List (Nat × InnerNode V)} {x : Nat} {n : InnerNode V}
    (hsub : nodes.Sublist M) (hnd : (keysOf M).Nodup)
    (h : lookupKey x nodes = some n) : lookupKey x M = some n :=
  lookupKey_of_mem_nodup hnd (hsub.subset (lookupKey_mem h))

theorem lookup_none_of_sublist {nodes M : List (Nat × InnerNode V)} {x : Nat}
    (hsub : nodes.Sublist M) (hnd : (keysOf M).Nodup)
    (h : lookupKey x M = none) : lookupKey x nodes = none := by
  cases hx : lookupKey x nodes with
  | none => rfl
  | some n =>
    rw [lookup_of_sublist hsub hnd hx] at h
    exact Option.noConfusion h

theorem keysOf_nodup_of_sublist {nodes M : List (Nat × InnerNode V)}
    (hsub : nodes.Sublist M) (hnd : (keysOf M).Nodup) : (keysOf nodes).Nodup :=
  hnd.sublist (keysOf_sublist_of_sublist hsub)

theorem keysOf_eraseKey {k : Nat} {l : List (Nat × InnerNode V)} :
    keysOf (eraseKey k l) = (keysOf l).erase k := by
  induction l with
  | nil => simp [eraseKey, keysOf]
  | cons e rest ih =>
    obtain ⟨k', n⟩ := e
    by_cases hk : k' = k
    · subst hk
      simp [eraseKey, keysOf, List.erase_cons_head]
    · have hbeq : ¬(k' == k) = true := by simpa using hk
      simp only [eraseKey, if_neg hk, keysOf, List.map_cons, List.erase_cons_tail hbeq]
      rw [List.cons.injEq]
      exact ⟨rfl, by simpa [keysOf] using ih⟩

theorem mem_keysOf_eraseKey {x k : Nat} {l : List (Nat × InnerNode V)}
    (hnd : (keysOf l).Nodup) : x ∈ keysOf (eraseKey k l) ↔ x ∈ keysOf l ∧ x ≠ k := by
  by_cases hx : x = k
  · subst hx
    rw [← lookupKey_isSome_iff, lookupKey_eraseKey_self hnd]
    simp
  · rw [← lookupKey_isSome_iff, lookupKey_eraseKey_ne hx, lookupKey_isSome_iff]
    simp [hx]

theorem filter_length_erase {l : List Nat} {p q : Nat → Bool} {s : Nat}
    (hnd : l.Nodup) (hs : s ∈ l) (hps : p s = true)
    (hagree : ∀ x ∈ l, x ≠ s → p x = q x) :
    (l.filter p).length = ((l.erase s).filter q).length + 1 := by
  induction l with
  | nil => simp at hs
  | cons a l ih =>
    obtain ⟨hal, hlnd⟩ := List.nodup_cons.mp hnd
    by_cases has : a = s
    · subst has
      rw [List.erase_cons_head]
      have hcong : l.filter q = l.filter p := by
        apply List.filter_congr
        intro x hx
        exact (hagree x (List.mem_cons_of_mem _ hx) (fun hxa => hal (hxa ▸ hx))).symm
      rw [hcong, List.filter_cons, if_pos hps]
      simp
    · have hbeq : ¬(a == s) = true := by simpa using has
      rw [List.erase_cons_tail hbeq]
      have hsl : s ∈ l := by
        rcases List.mem_cons.mp hs with rfl | hmem
        · exact absurd rfl has
        · exact hmem
      have hpa : p a = q a := hagree a (List.mem_cons_self _ _) has
      rw [List.filter_cons, List.filter_cons, ← hpa]
      cases hpab : p a with
      | false => simpa using ih hlnd hsl (fun x hx hxs => hagree x (List.mem_cons_of_mem _ hx) hxs)
      | true => simpa using ih hlnd hsl (fun x hx hxs => hagree x (List.mem_cons_of_mem _ hx) hxs)

/-- Full characterisation of the shared removal loop: starting from a
submap `nodes` of a well-formed map `M` and a duplicate-free stack of
pairwise-incomparable live keys whose pending subtrees are still present,
the loop succeeds and removes exactly the subtrees of the stack keys
(leaving every other entry untouched, in order), and the size drops by
exactly the number of pending keys. -/
theorem cascade_spec {M : List (Nat × InnerNode V)} (w : WFm M) :
    ∀ fuel nodes stack,
      nodes.Sublist M →
      (∀ s ∈ stack, s ∈ keysOf nodes) →
      stack.Nodup →
      (∀ s ∈ stack, ∀ s' ∈ stack, s ≠ s' → ¬ InSub M s s') →
      (∀ x, (∃ s ∈ stack, InSub M s x) → x ∈ keysOf nodes) →
      nodes.length < fuel →
      ∃ final, cascade fuel stack nodes = some final ∧ final.Sublist nodes ∧
        (∀ x, (∃ s ∈ stack, InSub M s x) → lookupKey x final = none) ∧
        (∀ x, ¬(∃ s ∈ stack, InSub M s x) → lookupKey x final = lookupKey x nodes) ∧
        final.length +
            ((keysOf nodes).filter (fun x => stack.any fun s => inSubtree M s x)).length =
          nodes.length := by
  intro fuel
  induction fuel with
  | zero =>
    intro nodes stack _ _ _ _ _ hf
    omega
  | succ fuel ih =>
    intro nodes stack hsubl hlive hnd hanti hpend hf
    cases stack with
    | nil =>
      refine ⟨nodes, by simp [cascade], List.Sublist.refl _, ?_, ?_, ?_⟩
      · rintro x ⟨s, hs, _⟩
        simp at hs
      · intro x _
        rfl
      · simp
    | cons s rest =>
      have hsmem : s ∈ keysOf nodes := hlive s (List.mem_cons_self _ _)
      obtain ⟨n, hsn⟩ : ∃ n, lookupKey s nodes = some n := by
        rw [← lookupKey_isSome_iff] at hsmem
        exact Option.isSome_iff_exists.mp hsmem
      have hndM : (keysOf M).Nodup := w.keys_nodup
      have hndN : (keysOf nodes).Nodup := keysOf_nodup_of_sublist hsubl hndM
      have hsM : lookupKey s M = some n := lookup_of_sublist hsubl hndM hsn
      have hsnotrest : s ∉ rest := (List.nodup_cons.mp hnd).1
      have hndrest : rest.Nodup := (List.nodup_cons.mp hnd).2
      have hstep : cascade (fuel + 1) (s :: rest) nodes =
          cascade fuel (n.child_keys.reverse ++ rest) (eraseKey s nodes) := by
        simp [cascade, hsn]
      have hchild_in : ∀ c ∈ n.child_keys, InSub M s c ∧ c ≠ s := by
        intro c hc
        have hchain := child_chain w hsM hc
        refine ⟨Or.inr ?_, child_ne w hsM hc⟩
        rw [hchain]
        exact List.mem_cons_self _ _
      have hmem_stack' : ∀ a, a ∈ n.child_keys.reverse ++ rest ↔
          (a ∈ n.child_keys ∨ a ∈ rest) := by
        intro a
        simp
      -- IH preconditions for the stepped state
      have hsubl' : (eraseKey s nodes).Sublist M := (eraseKey_sublist s nodes).trans hsubl
      have hlive' : ∀ a ∈ n.child_keys.reverse ++ rest, a ∈ keysOf (eraseKey s nodes) := by
        intro a ha
        rcases (hmem_stack' a).mp ha with hc | hr
        · obtain ⟨hIn, hne⟩ := hchild_in a hc
          have hmem : a ∈ keysOf nodes := hpend a ⟨s, List.mem_cons_self _ _, hIn⟩
          exact (mem_keysOf_eraseKey hndN).mpr ⟨hmem, hne⟩
        · have hmem : a ∈ keysOf nodes := hlive a (List.mem_cons_of_mem _ hr)
          have hne : a ≠ s := by
            rintro rfl
            exact hsnotrest hr
          exact (mem_keysOf_eraseKey hndN).mpr ⟨hmem, hne⟩
      have hsib : ∀ a ∈ n.child_keys, ∀ b ∈ n.child_keys, a ≠ b → ¬ InSub M a b := by
        intro a ha b hb hne hIn
        have hchb := child_chain w hsM hb
        have hcha := child_chain w hsM ha
        rcases hIn with heq | hmem
        · exact hne heq
        · rw [hchb] at hmem
          rcases List.mem_cons.mp hmem with rfl | hmem2
          · exact (hchild_in a ha).2 rfl
          · have hsa : s ∈ ancChain M a := by
              rw [hcha]
              exact List.mem_cons_self _ _
            exact ancChain_antisym hmem2 hsa
      have hnd' : (n.child_keys.reverse ++ rest).Nodup := by
        rw [List.nodup_append]
        refine ⟨List.nodup_reverse.mpr (w.child_nodup s n hsM), hndrest, ?_⟩
        intro a ha hr
        rw [List.mem_reverse] at ha
        obtain ⟨hIn, hne⟩ := hchild_in a ha
        exact hanti s (List.mem_cons_self _ _) a (List.mem_cons_of_mem _ hr)
          (fun heq => hne heq.symm) hIn
      have hanti' : ∀ a ∈ n.child_keys.reverse ++ rest, ∀ b ∈ n.child_keys.reverse ++ rest,
          a ≠ b → ¬ InSub M a b := by
        intro a ha b hb hne
        rcases (hmem_stack' a).mp ha with hca | hra
        · rcases (hmem_stack' b).mp hb with hcb | hrb
          · exact hsib a hca b hcb hne
          · intro hIn
            have hsb : InSub M s b := InSub_trans (hchild_in a hca).1 hIn
            have hsnb : s ≠ b := by
              rintro rfl
              exact hsnotrest hrb
            exact hanti s (List.mem_cons_self _ _) b (List.mem_cons_of_mem _ hrb) hsnb hsb
        · rcases (hmem_stack' b).mp hb with hcb | hrb
          · intro hIn
            have hchb := child_chain w hsM hcb
            rcases hIn with heq | hmem
            · exact hne heq
            · rw [hchb] at hmem
              rcases List.mem_cons.mp hmem with rfl | hmem2
              · exact hsnotrest hra
              · have has : a ≠ s := by
                  rintro rfl
                  exact hsnotrest hra
                exact hanti a (List.mem_cons_of_mem _ hra) s (List.mem_cons_self _ _) has
                  (Or.inr hmem2)
          · exact hanti a (List.mem_cons_of_mem _ hra) b (List.mem_cons_of_mem _ hrb) hne
      have hstrict : ∀ x, x ≠ s → InSub M s x → ∃ c ∈ n.child_keys, InSub M c x := by
        intro x hx hIn
        rcases hIn with heq | hmem
        · exact absurd heq.symm hx
        · exact strict_desc_through_child w hsM hmem
      have hdecomp : ∀ x, x ≠ s →
          ((∃ s₀ ∈ s :: rest, InSub M s₀ x) ↔
            (∃ s' ∈ n.child_keys.reverse ++ rest, InSub M s' x)) := by
        intro x hx
        constructor
        · rintro ⟨s₀, hs₀, hIn⟩
          rcases List.mem_cons.mp hs₀ with rfl | hr
          · obtain ⟨c, hc, hcx⟩ := hstrict x hx hIn
            exact ⟨c, (hmem_stack' c).mpr (Or.inl hc), hcx⟩
          · exact ⟨s₀, (hmem_stack' s₀).mpr (Or.inr hr), hIn⟩
        · rintro ⟨s', hs', hIn⟩
          rcases (hmem_stack' s').mp hs' with hc | hr
          · exact ⟨s, List.mem_cons_self _ _, InSub_trans (hchild_in s' hc).1 hIn⟩
          · exact ⟨s', List.mem_cons_of_mem _ hr, hIn⟩
      have hs_not : ¬(∃ s' ∈ n.child_keys.reverse ++ rest, InSub M s' s) := by
        rintro ⟨s', hs', hIn⟩
        rcases (hmem_stack' s').mp hs' with hc | hr
        · rcases hIn with heq | hmem
          · exact (hchild_in s' hc).2 heq
          · have hss' : s ∈ ancChain M s' := by
              have hchain := child_chain w hsM hc
              rw [hchain]
              exact List.mem_cons_self _ _
            exact ancChain_antisym hmem hss'
        · have hs's : s' ≠ s := fun heq => hsnotrest (heq ▸ hr)
          rcases hIn with heq | hmem
          · exact hs's heq
          · exact hanti s' (List.mem_cons_of_mem _ hr) s (List.mem_cons_self _ _) hs's
              (Or.inr hmem)
      have hpend' : ∀ x, (∃ s' ∈ n.child_keys.reverse ++ rest, InSub M s' x) →
          x ∈ keysOf (eraseKey s nodes) := by
        intro x hex
        have hxs : x ≠ s := by
          intro heq
          exact hs_not (heq ▸ hex)
        have hmem : x ∈ keysOf nodes := hpend x ((hdecomp x hxs).mpr hex)
        exact (mem_keysOf_eraseKey hndN).mpr ⟨hmem, hxs⟩
      have hf' : (eraseKey s nodes).length < fuel := by
        have := length_eraseKey_of_lookup hsn
        omega
      obtain ⟨final, hfin, hsubf, hnone', hsame', hlen'⟩ :=
        ih (eraseKey s nodes) (n.child_keys.reverse ++ rest) hsubl' hlive' hnd' hanti'
          hpend' hf'
      have hndN' : (keysOf (eraseKey s nodes)).Nodup := keysOf_nodup_of_sublist hsubl' hndM
      refine ⟨final, by rw [hstep]; exact hfin, hsubf.trans (eraseKey_sublist s nodes),
        ?_, ?_, ?_⟩
      · rintro x ⟨s₀, hs₀, hIn⟩
        by_cases hxs : x = s
        · subst hxs
          exact lookup_none_of_sublist hsubf hndN' (lookupKey_eraseKey_self hndN)
        · exact hnone' x ((hdecomp x hxs).mp ⟨s₀, hs₀, hIn⟩)
      · intro x hnp
        have hxs : x ≠ s := by
          intro heq
          exact hnp ⟨s, List.mem_cons_self _ _, Or.inl heq.symm⟩
        have hnp' : ¬(∃ s' ∈ n.child_keys.reverse ++ rest, InSub M s' x) := by
          intro hex
          exact hnp ((hdecomp x hxs).mpr hex)
        rw [hsame' x hnp', lookupKey_eraseKey_ne hxs]
      · have hps : ((s :: rest).any fun s' => inSubtree M s' s) = true := by
          apply any_inSubtree_iff.mpr
          exact ⟨s, List.mem_cons_self _ _, Or.inl rfl⟩
        have hagree : ∀ x ∈ keysOf nodes, x ≠ s →
            ((s :: rest).any fun s' => inSubtree M s' x) =
              ((n.child_keys.reverse ++ rest).any fun s' => inSubtree M s' x) := by
          intro x _ hxs
          rw [Bool.eq_iff_iff, any_inSubtree_iff, any_inSubtree_iff]
          exact hdecomp x hxs
        have hcnt := filter_length_erase hndN hsmem hps hagree
        rw [← keysOf_eraseKey] at hcnt
        have hlen2 := length_eraseKey_of_lookup hsn
        omega

theorem siblings_incomp {M : List (Nat × InnerNode V)} (w : WFm M) {s : Nat}
    {n : InnerNode V} (hsM : lookupKey s M = some n) :
    ∀ a ∈ n.child_keys, ∀ b ∈ n.child_keys, a ≠ b → ¬ InSub M a b := by
  intro a ha b hb hne hIn
  have hchb := child_chain w hsM hb
  have hcha := child_chain w hsM ha
  rcases hIn with heq | hmem
  · exact hne heq
  · rw [hchb] at hmem
    rcases List.mem_cons.mp hmem with rfl | hmem2
    · exact child_ne w hsM ha rfl
    · have hsa : s ∈ ancChain M a := by
        rw [hcha]
        exact List.mem_cons_self _ _
      exact ancChain_antisym hmem2 hsa

theorem filter_erase_of_not_pred {l : List Nat} {p : Nat → Bool} {s : Nat}
    (hp : p s = false) : (l.erase s).filter p = l.filter p := by
  induction l with
  | nil => simp
  | cons a l ih =>
    by_cases has : a = s
    · subst has
      rw [List.erase_cons_head, List.filter_cons, hp]
      simp
    · have hbeq : ¬(a == s) = true := by simpa using has
      rw [List.erase_cons_tail hbeq, List.filter_cons, List.filter_cons, ih]

/-- Pending-subtree bridge for a non-root key `k` with node `n`: the keys
hit by cascading from `k`'s children are exactly `k`'s strict
descendants. -/
theorem children_pending_iff {M : List (Nat × InnerNode V)} (w : WFm M) {k x : Nat}
    {n : InnerNode V} (hkM : lookupKey k M = some n) (hxk : x ≠ k) :
    (∃ c ∈ n.child_keys.reverse, InSub M c x) ↔ k ∈ ancChain M x := by
  constructor
  · rintro ⟨c, hc, hIn⟩
    rw [List.mem_reverse] at hc
    exact (desc_of_child w hkM hc hIn).1
  · intro hmem
    obtain ⟨c, hc, hIn⟩ := strict_desc_through_child w hkM hmem
    exact ⟨c, List.mem_reverse.mpr hc, hIn⟩

/-- The combined success analysis of `remove` on a live non-root key:
the call succeeds, returns the stored value, removes exactly the key's
subtree, detaches the key from its parent's child order (preserving the
order of the remaining children), leaves every other node untouched, and
shrinks `len` by one plus the number of strict descendants. -/
theorem remove_nonroot_spec (t : Tree V) (w : WF t) {k r : Nat} {n : InnerNode V}
    (h : Option Nat) (hroot : t.root_key = some r) (hkr : k ≠ r)
    (hk : lookupKey k t.inner_nodes = some n) :
    ∃ pk pn t', n.parent_key = some pk ∧ lookupKey pk t.inner_nodes = some pn ∧
      remove t k h = some (some n.value, t') ∧
      t'.root_key = t.root_key ∧ t'.next_key = t.next_key ∧
      lookupKey pk t'.inner_nodes = some { pn with child_keys := pn.child_keys.erase k } ∧
      (∀ x, InSub t.inner_nodes k x → lookupKey x t'.inner_nodes = none) ∧
      (∀ x, x ≠ pk → ¬ InSub t.inner_nodes k x →
        lookupKey x t'.inner_nodes = lookupKey x t.inner_nodes) ∧
      (keysOf t'.inner_nodes).Nodup ∧
      (∀ y ∈ keysOf t'.inner_nodes, y ∈ keysOf t.inner_nodes) ∧
      len t' + 1 + descCount t k = len t := by
  set M := t.inner_nodes with hM
  have wm : WFm M := w.toWFm
  have hndM : (keysOf M).Nodup := wm.keys_nodup
  -- the parent key exists
  obtain ⟨pk, hpk⟩ : ∃ pk, n.parent_key = some pk := by
    cases hp : n.parent_key with
    | none =>
      have := (w.parent_none_iff k n hk).mp hp
      rw [hroot] at this
      exact absurd (Option.some.inj this).symm hkr
    | some pk => exact ⟨pk, rfl⟩
  obtain ⟨pn, hpn, hkinp⟩ := w.parent_back k n pk hk hpk
  have hpkk : pk ≠ k := by
    rintro rfl
    exact self_parent_absurd w hk hpk
  have hchaink : ancChain M k = pk :: ancChain M pk := ancChain_parent wm hk hpk
  have hpk_in_chain : pk ∈ ancChain M k := by
    rw [hchaink]
    exact List.mem_cons_self _ _
  -- set up the cascade
  have hsubl : (eraseKey k M).Sublist M := eraseKey_sublist k M
  have hndN : (keysOf (eraseKey k M)).Nodup := keysOf_nodup_of_sublist hsubl hndM
  have hlive : ∀ c ∈ n.child_keys.reverse, c ∈ keysOf (eraseKey k M) := by
    intro c hc
    rw [List.mem_reverse] at hc
    obtain ⟨m, hm, _⟩ := wm.children_live k n hk c hc
    exact (mem_keysOf_eraseKey hndM).mpr ⟨mem_keysOf_of_lookupKey hm, child_ne wm hk hc⟩
  have hnd : n.child_keys.reverse.Nodup := List.nodup_reverse.mpr (wm.child_nodup k n hk)
  have hanti : ∀ a ∈ n.child_keys.reverse, ∀ b ∈ n.child_keys.reverse, a ≠ b →
      ¬ InSub M a b := by
    intro a ha b hb
    rw [List.mem_reverse] at ha hb
    exact siblings_incomp wm hk a ha b hb
  have hpend : ∀ x, (∃ c ∈ n.child_keys.reverse, InSub M c x) → x ∈ keysOf (eraseKey k M) := by
    intro x hex
    obtain ⟨c, hc, hIn⟩ := hex
    rw [List.mem_reverse] at hc
    obtain ⟨hkx, hxk⟩ := desc_of_child wm hk hc hIn
    obtain ⟨⟨m, hm⟩, _⟩ := live_of_mem_ancChain hkx
    exact (mem_keysOf_eraseKey hndM).mpr ⟨mem_keysOf_of_lookupKey hm, hxk⟩
  obtain ⟨final, hfin, hsubf, hnone, hsame, hlen⟩ :=
    cascade_spec wm ((eraseKey k M).length + 1) (eraseKey k M) n.child_keys.reverse
      hsubl hlive hnd hanti hpend (by omega)
  have hpk_not_pend : ¬(∃ c ∈ n.child_keys.reverse, InSub M c pk) := by
    rintro ⟨c, hc, hIn⟩
    rw [List.mem_reverse] at hc
    exact ancChain_antisym (desc_of_child wm hk hc hIn).1 hpk_in_chain
  have hpkfinal : lookupKey pk final = some pn := by
    rw [hsame pk hpk_not_pend, lookupKey_eraseKey_ne hpkk]
    exact hpn
  have hrem : remove t k h = some (some n.value,
      ⟨t.root_key, setKey pk { pn with child_keys := pn.child_keys.erase k } final,
        t.next_key⟩) := by
    simp only [remove, hroot, if_neg hkr, ← hM, hk, hfin, hpk, hpkfinal]
  have hsubtot : final.Sublist M := hsubf.trans hsubl
  refine ⟨pk, pn,
    ⟨t.root_key, setKey pk { pn with child_keys := pn.child_keys.erase k } final,
      t.next_key⟩, hpk, hpn, hrem, rfl, rfl, ?_, ?_, ?_, ?_, ?_, ?_⟩
  · rw [lookupKey_setKey_self, hpkfinal]
    rfl
  · intro x hIn
    rcases hIn with heq | hmem
    · have hxpk : x ≠ pk := by
        rw [← heq]
        exact fun hh => hpkk hh.symm
      rw [lookupKey_setKey_ne hxpk, ← heq]
      exact lookup_none_of_sublist hsubf hndN (lookupKey_eraseKey_self hndM)
    · have hxpk : x ≠ pk := by
        rintro rfl
        exact ancChain_antisym hmem hpk_in_chain
      rw [lookupKey_setKey_ne hxpk]
      obtain ⟨c, hc, hcx⟩ := strict_desc_through_child wm hk hmem
      exact hnone x ⟨c, List.mem_reverse.mpr hc, hcx⟩
  · intro x hxpk hnin
    have hxk : x ≠ k := by
      rintro rfl
      exact hnin (Or.inl rfl)
    have hnp : ¬(∃ c ∈ n.child_keys.reverse, InSub M c x) := by
      rintro ⟨c, hc, hIn⟩
      rw [List.mem_reverse] at hc
      have hkc : InSub M k c := by
        refine Or.inr ?_
        rw [child_chain wm hk hc]
        exact List.mem_cons_self _ _
      exact hnin (InSub_trans hkc hIn)
    rw [lookupKey_setKey_ne hxpk, hsame x hnp, lookupKey_eraseKey_ne hxk]
  · show (keysOf (setKey pk { pn with child_keys := pn.child_keys.erase k } final)).Nodup
    rw [keysOf_setKey]
    exact keysOf_nodup_of_sublist hsubtot hndM
  · intro y hy
    show y ∈ keysOf M
    rw [show keysOf (setKey pk { pn with child_keys := pn.child_keys.erase k } final) =
      keysOf final from keysOf_setKey] at hy
    exact (keysOf_sublist_of_sublist hsubtot).subset hy
  · have hpcount : ((keysOf (eraseKey k M)).filter
        (fun x => n.child_keys.reverse.any fun s => inSubtree M s x)).length =
          descCount t k := by
      have hcongr : (keysOf (eraseKey k M)).filter
          (fun x => n.child_keys.reverse.any fun s => inSubtree M s x) =
          (keysOf (eraseKey k M)).filter (fun x => (ancChain M x).contains k) := by
        apply List.filter_congr
        intro x hx
        have hxk : x ≠ k := ((mem_keysOf_eraseKey hndM).mp hx).2
        rw [Bool.eq_iff_iff, any_inSubtree_iff]
        constructor
        · intro hex
          have := (children_pending_iff wm hk hxk).mp hex
          simpa using this
        · intro hcont
          exact (children_pending_iff wm hk hxk).mpr (by simpa using hcont)
      have hnotk : ((ancChain M k).contains k) = false := by
        have := @not_mem_ancChain_self V M k
        simpa using this
      rw [hcongr, keysOf_eraseKey,
        @filter_erase_of_not_pred (keysOf M) (fun x => (ancChain M x).contains k) k hnotk]
      rfl
    rw [hpcount] at hlen
    have hlen2 := length_eraseKey_of_lookup hk
    have hMlen : M.length = t.inner_nodes.length := rfl
    have hlent : len t = t.inner_nodes.length := rfl
    simp only [len, length_setKey]
    omega

/-- **C5**: `size_hint` never affects the result of `remove`; removing an
absent key returns `none` and changes nothing; removing the root empties
the tree and returns the root's value; removing a live non-root key with
`d` strict descendants returns its value, shrinks `len` by exactly
`1 + d`, and erases the key from its former parent's child order. -/
theorem C5_remove_spec (t : Tree V) (w : WF t) (k : Nat) (h h' : Option Nat) :
    remove t k h = remove t k h' ∧
    (lookupKey k t.inner_nodes = none → remove t k h = some (none, t)) ∧
    (∀ r n, t.root_key = some r → k = r → lookupKey k t.inner_nodes = some n →
      remove t k h = some (some n.value, clear t) ∧ len (clear t) = 0) ∧
    (∀ r n, t.root_key = some r → k ≠ r → lookupKey k t.inner_nodes = some n →
      ∃ t' pk pn pn', remove t k h = some (some n.value, t') ∧
        len t' + (1 + descCount t k) = len t ∧
        n.parent_key = some pk ∧ lookupKey pk t.inner_nodes = some pn ∧
        lookupKey pk t'.inner_nodes = some pn' ∧
        pn'.child_keys = pn.child_keys.erase k) := by
  refine ⟨rfl, ?_, ?_, ?_⟩
  · intro hnone
    cases hroot : t.root_key with
    | none => simp [remove, hroot]
    | some rk =>
      obtain ⟨nr, hnr⟩ := w.root_live rk hroot
      have hkrk : k ≠ rk := by
        rintro rfl
        rw [hnone] at hnr
        exact Option.noConfusion hnr
      simp [remove, hroot, hkrk, hnone]
  · intro r n hroot hkr hk
    subst hkr
    constructor
    · simp [remove, hroot, hk]
    · rfl
  · intro r n hroot hkr hk
    obtain ⟨pk, pn, t', hpk, hpn, hrem, _, _, hpk', _, _, _, _, hlen⟩ :=
      remove_nonroot_spec t w h hroot hkr hk
    exact ⟨t', pk, pn, { pn with child_keys := pn.child_keys.erase k }, hrem, by omega,
      hpk, hpn, hpk', rfl⟩

/-- Witness for C5: removing key 1 (one descendant) from `0 → [1 → [2]]`. -/
theorem C5_remove_spec_witness :
    (remove chainTree 1 none = remove chainTree 1 (some 7) ∧
      (lookupKey 1 chainTree.inner_nodes = none → remove chainTree 1 none = some (none, chainTree)) ∧
      (∀ r n, chainTree.root_key = some r → 1 = r →
        lookupKey 1 chainTree.inner_nodes = some n →
        remove chainTree 1 none = some (some n.value, clear chainTree) ∧
          len (clear chainTree) = 0) ∧
      (∀ r n, chainTree.root_key = some r → 1 ≠ r →
        lookupKey 1 chainTree.inner_nodes = some n →
        ∃ t' pk pn pn', remove chainTree 1 none = some (some n.value, t') ∧
          len t' + (1 + descCount chainTree 1) = len chainTree ∧
          n.parent_key = some pk ∧ lookupKey pk chainTree.inner_nodes = some pn ∧
          lookupKey pk t'.inner_nodes = some pn' ∧
          pn'.child_keys = pn.child_keys.erase 1)) ∧
    descCount chainTree 1 = 1 :=
  ⟨C5_remove_spec chainTree (wf_of_wfB (by decide)) 1 none (some 7), by decide⟩

/-- **C9**: after a successful `remove` of a live non-root key `k`, every
node outside `k`'s subtree keeps its entire record (value, parent, child
order, depth) unchanged, except that `k`'s former parent's record changes
only by losing the single entry `k` from its child order, with the
relative order of the remaining children preserved (`List.erase`). -/
theorem C9_remove_frame (t : Tree V) (w : WF t) (k r : Nat) (n : InnerNode V)
    (h : Option Nat) (hroot : t.root_key = some r) (hkr : k ≠ r)
    (hk : lookupKey k t.inner_nodes = some n) :
    ∃ t' pk pn, remove t k h = some (some n.value, t') ∧ n.parent_key = some pk ∧
      lookupKey pk t.inner_nodes = some pn ∧
      lookupKey pk t'.inner_nodes = some { pn with child_keys := pn.child_keys.erase k } ∧
      (∀ x, x ≠ pk → ¬ InSub t.inner_nodes k x →
        lookupKey x t'.inner_nodes = lookupKey x t.inner_nodes) ∧
      t'.root_key = t.root_key ∧ t'.next_key = t.next_key := by
  obtain ⟨pk, pn, t', hpk, hpn, hrem, hr, hn, hpk', _, hsame, _, _, _⟩ :=
    remove_nonroot_spec t w h hroot hkr hk
  exact ⟨t', pk, pn, hrem, hpk, hpn, hpk', hsame, hr, hn⟩

/-- Witness for C9: removing key 1 from `0 → [1 → [2]]`; key 0 survives
with its record intact apart from losing child 1. -/
theorem C9_remove_frame_witness :
    ∃ t' pk pn, remove chainTree 1 none = some (some 101, t') ∧
      (InnerNode.mk (V := Nat) (some 0) [2] 101 1).parent_key = some pk ∧
      lookupKey pk chainTree.inner_nodes = some pn ∧
      lookupKey pk t'.inner_nodes = some { pn with child_keys := pn.child_keys.erase 1 } ∧
      (∀ x, x ≠ pk → ¬ InSub chainTree.inner_nodes 1 x →
        lookupKey x t'.inner_nodes = lookupKey x chainTree.inner_nodes) ∧
      t'.root_key = chainTree.root_key ∧ t'.next_key = chainTree.next_key :=
  C9_remove_frame chainTree (wf_of_wfB (by decide)) 1 0 ⟨some 0, [2], 101, 1⟩ none
    (by decide) (by decide) (by decide)

/-- **C4**: if the sequence returned by the reorder function contains any
handle that is not currently a child of `key`, `reorder_children` returns
`false` with the tree completely unchanged; otherwise it returns `true`,
`key`'s child order afterwards is exactly the returned sequence, and every
current child omitted from the returned sequence is removed together with
its entire subtree. -/
theorem C4_reorder_children_spec (t : Tree V) (w : WF t) (key : Nat)
    (f : List Nat → List Nat) (n : InnerNode V)
    (hk : lookupKey key t.inner_nodes = some n) :
    ((∃ x ∈ f n.child_keys, x ∉ n.child_keys) →
      reorderChildren t key f = some (t, false)) ∧
    ((∀ x ∈ f n.child_keys, x ∈ n.child_keys) →
      ∃ t', reorderChildren t key f = some (t', true) ∧
        t'.root_key = t.root_key ∧ t'.next_key = t.next_key ∧
        (∃ n', lookupKey key t'.inner_nodes = some n' ∧
          n'.child_keys = f n.child_keys ∧ n'.value = n.value ∧
          n'.parent_key = n.parent_key ∧ n'.depth = n.depth) ∧
        (∀ c ∈ n.child_keys, c ∉ f n.child_keys →
          ∀ x, InSub t.inner_nodes c x → lookupKey x t'.inner_nodes = none)) := by
  set M := t.inner_nodes with hM
  have wm : WFm M := w.toWFm
  have hndM : (keysOf M).Nodup := wm.keys_nodup
  constructor
  · rintro ⟨x, hx, hnx⟩
    have hcond : ¬((f n.child_keys).all fun c => decide (c ∈ n.child_keys)) = true := by
      rw [List.all_eq_true]
      intro hall
      exact hnx (of_decide_eq_true (hall x hx))
    simp [reorderChildren, hk, hcond]
  · intro hall
    have hcond : ((f n.child_keys).all fun c => decide (c ∈ n.child_keys)) = true := by
      rw [List.all_eq_true]
      intro c hc
      exact decide_eq_true (hall c hc)
    -- the removal stack: omitted children, reversed
    have hstack_sub : ∀ d ∈ (n.child_keys.filter fun c => decide (c ∉ f n.child_keys)).reverse,
        d ∈ n.child_keys ∧ d ∉ f n.child_keys := by
      intro d hd
      rw [List.mem_reverse, List.mem_filter] at hd
      exact ⟨hd.1, of_decide_eq_true hd.2⟩
    have hlive : ∀ d ∈ (n.child_keys.filter fun c => decide (c ∉ f n.child_keys)).reverse,
        d ∈ keysOf M := by
      intro d hd
      obtain ⟨m, hm, _⟩ := wm.children_live key n hk d (hstack_sub d hd).1
      exact mem_keysOf_of_lookupKey hm
    have hnd : ((n.child_keys.filter fun c => decide (c ∉ f n.child_keys)).reverse).Nodup :=
      List.nodup_reverse.mpr ((wm.child_nodup key n hk).filter _)
    have hanti : ∀ a ∈ (n.child_keys.filter fun c => decide (c ∉ f n.child_keys)).reverse,
        ∀ b ∈ (n.child_keys.filter fun c => decide (c ∉ f n.child_keys)).reverse,
        a ≠ b → ¬ InSub M a b := by
      intro a ha b hb
      exact siblings_incomp wm hk a (hstack_sub a ha).1 b (hstack_sub b hb).1
    have hpend : ∀ x,
        (∃ d ∈ (n.child_keys.filter fun c => decide (c ∉ f n.child_keys)).reverse,
          InSub M d x) → x ∈ keysOf M := by
      rintro x ⟨d, hd, hIn⟩
      rcases hIn with heq | hmem
      · rw [← heq]
        exact hlive d hd
      · exact mem_keysOf_of_lookupKey (live_of_mem_ancChain hmem).1.choose_spec
    obtain ⟨final, hfin, hsubf, hnone, hsame, _⟩ :=
      cascade_spec wm (M.length + 1) M
        ((n.child_keys.filter fun c => decide (c ∉ f n.child_keys)).reverse)
        (List.Sublist.refl M) hlive hnd hanti hpend (by omega)
    have hkey_not_pend :
        ¬(∃ d ∈ (n.child_keys.filter fun c => decide (c ∉ f n.child_keys)).reverse,
          InSub M d key) := by
      rintro ⟨d, hd, hIn⟩
      exact (desc_of_child wm hk (hstack_sub d hd).1 hIn).2 rfl
    have hkeyfinal : lookupKey key final = some n := by
      rw [hsame key hkey_not_pend]
      exact hk
    have hre : reorderChildren t key f = some
        (⟨t.root_key, setKey key { n with child_keys := f n.child_keys } final, t.next_key⟩,
          true) := by
      simp only [reorderChildren, ← hM, hk, hcond, if_true, hfin, hkeyfinal]
    refine ⟨_, hre, rfl, rfl, ⟨{ n with child_keys := f n.child_keys }, ?_, rfl, rfl, rfl, rfl⟩,
      ?_⟩
    · rw [lookupKey_setKey_self, hkeyfinal]
      rfl
    · intro c hc hcf x hIn
      have hckey : c ≠ key := child_ne wm hk hc
      have hxkey : x ≠ key := by
        rintro rfl
        exact hkey_not_pend ⟨c, List.mem_reverse.mpr (List.mem_filter.mpr
          ⟨hc, decide_eq_true hcf⟩), hIn⟩
      rw [lookupKey_setKey_ne hxkey]
      exact hnone x ⟨c, List.mem_reverse.mpr (List.mem_filter.mpr
        ⟨hc, decide_eq_true hcf⟩), hIn⟩

/-- Witness for C4 on `0 → [1 → [2]]`: reordering `0`'s children to `[]`
removes child 1 with its subtree (key 2 included). -/
theorem C4_reorder_children_spec_witness :
    (((∃ x ∈ ([] : List Nat), x ∉ [1]) →
      reorderChildren chainTree 0 (fun _ => []) = some (chainTree, false)) ∧
    ((∀ x ∈ ([] : List Nat), x ∈ [1]) →
      ∃ t', reorderChildren chainTree 0 (fun _ => []) = some (t', true) ∧
        t'.root_key = chainTree.root_key ∧ t'.next_key = chainTree.next_key ∧
        (∃ n', lookupKey 0 t'.inner_nodes = some n' ∧
          n'.child_keys = [] ∧ n'.value = 100 ∧
          n'.parent_key = none ∧ n'.depth = 0) ∧
        (∀ c ∈ [1], c ∉ ([] : List Nat) →
          ∀ x, InSub chainTree.inner_nodes c x → lookupKey x t'.inner_nodes = none))) :=
  C4_reorder_children_spec chainTree (wf_of_wfB (by decide)) 0 (fun _ => [])
    ⟨none, [1], 100, 0⟩ (by decide)

-- ### Transfer lemmas for parent chains across map edits

theorem pchain_min {nodes : List (Nat × InnerNode V)} {f k : Nat} {l : List Nat}
    (h : pchain nodes f k = some l) : pchain nodes (l.length + 1) k = some l := by
  induction f generalizing k l with
  | zero => simp [pchain] at h
  | succ f ih =>
    obtain ⟨n, hk⟩ := pchain_lookup h
    cases hp : n.parent_key with
    | none =>
      rw [pchain_nil_of_parent_none hk hp] at h
      obtain rfl := Option.some.inj h
      exact pchain_nil_of_parent_none hk hp
    | some p =>
      rw [pchain_cons_of_parent hk hp] at h
      cases hc : pchain nodes f p with
      | none => simp [hc] at h
      | some lp =>
        simp only [hc, Option.map_some'] at h
        obtain rfl := Option.some.inj h
        rw [pchain_cons_of_parent hk hp, List.length_cons, ih hc]
        rfl

theorem pchain_transfer {N M : List (Nat × InnerNode V)} {f k : Nat} {l : List Nat}
    (h : pchain M f k = some l)
    (hagree : ∀ y, (y = k ∨ y ∈ l) →
      (lookupKey y N).map InnerNode.parent_key = (lookupKey y M).map InnerNode.parent_key) :
    pchain N f k = some l := by
  induction f generalizing k l with
  | zero => simp [pchain] at h
  | succ f ih =>
    obtain ⟨n, hk⟩ := pchain_lookup h
    have hk' := hagree k (Or.inl rfl)
    rw [hk] at hk'
    cases hkN : lookupKey k N with
    | none => rw [hkN] at hk'; exact Option.noConfusion hk'
    | some n' =>
      rw [hkN] at hk'
      have hpar : n'.parent_key = n.parent_key := Option.some.inj hk'
      cases hp : n.parent_key with
      | none =>
        rw [pchain_nil_of_parent_none hk hp] at h
        obtain rfl := Option.some.inj h
        exact pchain_nil_of_parent_none hkN (hpar.trans hp)
      | some p =>
        rw [pchain_cons_of_parent hk hp] at h
        cases hc : pchain M f p with
        | none => simp [hc] at h
        | some lp =>
          simp only [hc, Option.map_some'] at h
          obtain rfl := Option.some.inj h
          have hrec := ih hc (fun y hy => hagree y (Or.inr (by
            rcases hy with rfl | hy
            · exact List.mem_cons_self _ _
            · exact List.mem_cons_of_mem _ hy)))
          rw [pchain_cons_of_parent hkN (hpar.trans hp), hrec]
          rfl

theorem pchain_graft {N M : List (Nat × InnerNode V)} {x key : Nat}
    {l₁ rest lk : List Nat} {f fk : Nat}
    (hM : pchain M f x = some (l₁ ++ key :: rest))
    (hagree : ∀ y, (y = x ∨ y ∈ l₁) →
      (lookupKey y N).map InnerNode.parent_key = (lookupKey y M).map InnerNode.parent_key)
    (hkey : pchain N fk key = some lk) :
    pchain N (l₁.length + 1 + fk) x = some (l₁ ++ key :: lk) := by
  induction l₁ generalizing x f with
  | nil =>
    obtain ⟨f', rfl⟩ : ∃ f', f = f' + 1 := by
      cases f with
      | zero => simp [pchain] at hM
      | succ f' => exact ⟨f', rfl⟩
    obtain ⟨n, hk⟩ := pchain_lookup hM
    cases hp : n.parent_key with
    | none =>
      rw [pchain_nil_of_parent_none hk hp] at hM
      exact absurd (Option.some.inj hM) (by simp)
    | some p =>
      rw [pchain_cons_of_parent hk hp] at hM
      cases hc : pchain M f' p with
      | none =>
        rw [hc] at hM
        simp at hM
      | some lp =>
        rw [hc] at hM
        simp only [Option.map_some'] at hM
        have heq := Option.some.inj hM
        simp only [List.nil_append] at heq
        have hpkey : p = key := (List.cons.inj heq).1
        have hx := hagree x (Or.inl rfl)
        rw [hk] at hx
        cases hxN : lookupKey x N with
        | none =>
          rw [hxN] at hx
          exact Option.noConfusion hx
        | some n' =>
          rw [hxN] at hx
          have hpar : n'.parent_key = n.parent_key := Option.some.inj hx
          simp only [List.nil_append, List.length_nil]
          rw [show (0 : Nat) + 1 + fk = fk + 1 from by omega,
            pchain_cons_of_parent hxN (hpar.trans (hpkey ▸ hp)), hkey]
          rfl
  | cons a l₁ ih =>
    obtain ⟨f', rfl⟩ : ∃ f', f = f' + 1 := by
      cases f with
      | zero => simp [pchain] at hM
      | succ f' => exact ⟨f', rfl⟩
    obtain ⟨n, hk⟩ := pchain_lookup hM
    cases hp : n.parent_key with
    | none =>
      rw [pchain_nil_of_parent_none hk hp] at hM
      exact absurd (Option.some.inj hM) (by simp)
    | some p =>
      rw [pchain_cons_of_parent hk hp] at hM
      cases hc : pchain M f' p with
      | none =>
        rw [hc] at hM
        simp at hM
      | some lp =>
        rw [hc] at hM
        simp only [Option.map_some'] at hM
        have heq := Option.some.inj hM
        simp only [List.cons_append] at heq
        have hpa : p = a := (List.cons.inj heq).1
        have hlp : lp = l₁ ++ key :: rest := (List.cons.inj heq).2
        have hx := hagree x (Or.inl rfl)
        rw [hk] at hx
        cases hxN : lookupKey x N with
        | none =>
          rw [hxN] at hx
          exact Option.noConfusion hx
        | some n' =>
          rw [hxN] at hx
          have hpar : n'.parent_key = n.parent_key := Option.some.inj hx
          have hrec := ih (x := a) (f := f') (hpa ▸ hlp ▸ hc)
            (fun y hy => hagree y (by
              rcases hy with rfl | hy
              · exact Or.inr (List.mem_cons_self _ _)
              · exact Or.inr (List.mem_cons_of_mem _ hy)))
          rw [List.cons_append, List.length_cons]
          rw [show l₁.length + 1 + 1 + fk = (l₁.length + 1 + fk) + 1 by omega,
            pchain_cons_of_parent hxN (hpar.trans (hpa ▸ hp)), hrec]
          rfl

theorem reach_of_chain {N : List (Nat × InnerNode V)} {k f : Nat} {l : List Nat}
    (h : pchain N f k = some l) (hsub : ∀ y ∈ l, y ∈ keysOf N) :
    (pchain N (N.length + 1) k).isSome = true := by
  have hmin := pchain_min h
  have hnd : l.Nodup := pchain_nodup h
  have hle : l.length ≤ N.length := by
    have hsp := (hnd.subperm (fun y hy => hsub y hy)).length_le
    simpa [keysOf] using hsp
  rw [pchain_mono (by omega) hmin]
  rfl

theorem pchain_congr {N1 N2 : List (Nat × InnerNode V)}
    (h : ∀ x, (lookupKey x N1).map InnerNode.parent_key =
      (lookupKey x N2).map InnerNode.parent_key) :
    ∀ f k, pchain N1 f k = pchain N2 f k := by
  intro f
  induction f with
  | zero => intro k; simp [pchain]
  | succ f ih =>
    intro k
    have hk := h k
    cases h1 : lookupKey k N1 with
    | none =>
      rw [h1] at hk
      cases h2 : lookupKey k N2 with
      | none => simp [pchain, h1, h2]
      | some n2 => rw [h2] at hk; exact Option.noConfusion hk
    | some n1 =>
      rw [h1] at hk
      cases h2 : lookupKey k N2 with
      | none => rw [h2] at hk; exact Option.noConfusion hk
      | some n2 =>
        rw [h2] at hk
        have hpar : n1.parent_key = n2.parent_key := Option.some.inj hk
        cases hp : n1.parent_key with
        | none => rw [pchain_nil_of_parent_none h1 hp,
            pchain_nil_of_parent_none h2 (hpar ▸ hp)]
        | some p => rw [pchain_cons_of_parent h1 hp,
            pchain_cons_of_parent h2 (hpar ▸ hp), ih p]

/-- `WF` only depends on the structural content (root, counter, keys,
parents, children) of a tree, not on values or depths. -/
theorem wf_of_struct_eq {t1 t2 : Tree V} (w : WF t1)
    (hroot : t2.root_key = t1.root_key) (hnext : t2.next_key = t1.next_key)
    (hkeys : keysOf t2.inner_nodes = keysOf t1.inner_nodes)
    (hlk : ∀ x, (lookupKey x t2.inner_nodes).map
        (fun m => (m.parent_key, m.child_keys)) =
      (lookupKey x t1.inner_nodes).map (fun m => (m.parent_key, m.child_keys))) :
    WF t2 := by
  have hpar : ∀ x, (lookupKey x t2.inner_nodes).map InnerNode.parent_key =
      (lookupKey x t1.inner_nodes).map InnerNode.parent_key := by
    intro x
    have := congrArg (Option.map Prod.fst) (hlk x)
    simpa [Option.map_map, Function.comp] using this
  have hlen : t2.inner_nodes.length = t1.inner_nodes.length := by
    have := congrArg List.length hkeys
    simpa [keysOf] using this
  have htrans : ∀ x n, lookupKey x t2.inner_nodes = some n →
      ∃ m, lookupKey x t1.inner_nodes = some m ∧ m.parent_key = n.parent_key ∧
        m.child_keys = n.child_keys := by
    intro x n hx
    have := hlk x
    rw [hx] at this
    cases h1 : lookupKey x t1.inner_nodes with
    | none => rw [h1] at this; exact Option.noConfusion this
    | some m =>
      rw [h1] at this
      have hpair := Option.some.inj this
      exact ⟨m, rfl, (Prod.mk.injEq .. ▸ hpair).1.symm, (Prod.mk.injEq .. ▸ hpair).2.symm⟩
  have htrans' : ∀ x m, lookupKey x t1.inner_nodes = some m →
      ∃ n, lookupKey x t2.inner_nodes = some n ∧ n.parent_key = m.parent_key ∧
        n.child_keys = m.child_keys := by
    intro x m hx
    have := hlk x
    rw [hx] at this
    cases h2 : lookupKey x t2.inner_nodes with
    | none => rw [h2] at this; exact Option.noConfusion this
    | some n =>
      rw [h2] at this
      have hpair := Option.some.inj this
      exact ⟨n, rfl, (Prod.mk.injEq .. ▸ hpair).1, (Prod.mk.injEq .. ▸ hpair).2⟩
  refine ⟨hkeys ▸ w.keys_nodup, ?_, ?_, ?_, ?_, ?_, ?_, ?_, ?_⟩
  · intro k hk
    rw [hkeys] at hk
    rw [hnext]
    exact w.keys_lt k hk
  · intro hr
    rw [hroot] at hr
    have h1 := w.root_none hr
    have : keysOf t2.inner_nodes = [] := by rw [hkeys, h1]; rfl
    cases hcase : t2.inner_nodes with
    | nil => rfl
    | cons e rest => rw [hcase] at this; simp [keysOf] at this
  · intro r hr
    rw [hroot] at hr
    obtain ⟨m, hm⟩ := w.root_live r hr
    obtain ⟨n, hn, _, _⟩ := htrans' r m hm
    exact ⟨n, hn⟩
  · intro k n hk
    obtain ⟨m, hm, hp, _⟩ := htrans k n hk
    rw [hroot, ← hp]
    exact w.parent_none_iff k m hm
  · intro k n hk c hc
    obtain ⟨m, hm, _, hch⟩ := htrans k n hk
    rw [← hch] at hc
    obtain ⟨cm, hcm, hcp⟩ := w.children_live k m hm c hc
    obtain ⟨cn, hcn, hcnp, _⟩ := htrans' c cm hcm
    exact ⟨cn, hcn, hcnp.trans hcp⟩
  · intro k n p hk hp
    obtain ⟨m, hm, hmp, _⟩ := htrans k n hk
    obtain ⟨pm, hpm, hkin⟩ := w.parent_back k m p hm (hmp.trans hp)
    obtain ⟨pn, hpn, _, hpch⟩ := htrans' p pm hpm
    exact ⟨pn, hpn, hpch ▸ hkin⟩
  · intro k n hk
    obtain ⟨m, hm, _, hch⟩ := htrans k n hk
    rw [← hch]
    exact w.child_nodup k m hm
  · intro k n hk
    obtain ⟨m, hm, _, _⟩ := htrans k n hk
    rw [pchain_congr hpar, hlen]
    exact w.reach k m hm

theorem wf_empty (nk : Nat) : WF (⟨none, [], nk⟩ : Tree V) := by
  refine ⟨by simp [keysOf], by simp [keysOf], fun _ => rfl, ?_, ?_, ?_, ?_, ?_, ?_⟩
  · intro r hr
    exact Option.noConfusion hr
  · intro k n hk
    simp [lookupKey] at hk
  · intro k n hk
    simp [lookupKey] at hk
  · intro k n p hk
    simp [lookupKey] at hk
  · intro k n hk
    simp [lookupKey] at hk
  · intro k n hk
    simp [lookupKey] at hk

theorem wf_singleton (k : Nat) (v : V) :
    WF (⟨some k, [(k, ⟨none, [], v, 0⟩)], k + 1⟩ : Tree V) := by
  have hlk : ∀ x n, lookupKey x [(k, (⟨none, [], v, 0⟩ : InnerNode V))] = some n →
      x = k ∧ n = ⟨none, [], v, 0⟩ := by
    intro x n hx
    by_cases hxk : k = x
    · simp [lookupKey, hxk] at hx
      exact ⟨hxk.symm, hx.symm⟩
    · simp [lookupKey, hxk] at hx
  refine ⟨by simp [keysOf], by simp [keysOf], fun h => Option.noConfusion h, ?_, ?_, ?_, ?_,
    ?_, ?_⟩
  · intro r hr
    obtain rfl := Option.some.inj hr
    exact ⟨⟨none, [], v, 0⟩, by simp [lookupKey]⟩
  · intro x n hx
    obtain ⟨rfl, rfl⟩ := hlk x n hx
    simp
  · intro x n hx c hc
    obtain ⟨rfl, rfl⟩ := hlk x n hx
    simp at hc
  · intro x n p hx hp
    obtain ⟨rfl, rfl⟩ := hlk x n hx
    simp at hp
  · intro x n hx
    obtain ⟨rfl, rfl⟩ := hlk x n hx
    simp
  · intro x n hx
    obtain ⟨rfl, rfl⟩ := hlk x n hx
    simp [pchain, lookupKey]

theorem wf_insertRoot (t : Tree V) (w : WF t) (v : V) : WF (insertRoot t v).1 := by
  cases hroot : t.root_key with
  | none =>
    have hnil := w.root_none hroot
    have heq : (insertRoot t v).1 =
        ⟨some t.next_key, [(t.next_key, ⟨none, [], v, 0⟩)], t.next_key + 1⟩ := by
      simp [insertRoot, hroot, hnil]
    rw [heq]
    exact wf_singleton _ _
  | some r =>
    have heq : (insertRoot t v).1 =
        ⟨some t.next_key, [(t.next_key, ⟨none, [], v, 0⟩)], t.next_key + 1⟩ := by
      simp [insertRoot, hroot, clear]
    rw [heq]
    exact wf_singleton _ _

theorem wf_clear (t : Tree V) : WF (clear t) := wf_empty t.next_key

theorem wf_setValue (t : Tree V) (w : WF t) (k : Nat) (n : InnerNode V) (v : V)
    (hk : lookupKey k t.inner_nodes = some n) :
    WF ⟨t.root_key, setKey k { n with value := v } t.inner_nodes, t.next_key⟩ := by
  refine wf_of_struct_eq w rfl rfl ?_ ?_
  · exact keysOf_setKey
  · intro x
    by_cases hxk : x = k
    · rw [hxk]
      show (lookupKey k (setKey k { n with value := v } t.inner_nodes)).map
          (fun m => (m.parent_key, m.child_keys)) =
        (lookupKey k t.inner_nodes).map (fun m => (m.parent_key, m.child_keys))
      rw [lookupKey_setKey_self, hk]
      rfl
    · show (lookupKey x (setKey k { n with value := v } t.inner_nodes)).map
          (fun m => (m.parent_key, m.child_keys)) =
        (lookupKey x t.inner_nodes).map (fun m => (m.parent_key, m.child_keys))
      rw [lookupKey_setKey_ne hxk]

theorem wf_insert (t : Tree V) (w : WF t) (v : V) (p k : Nat) (t' : Tree V)
    (h : insert t v p = some (k, t')) : WF t' := by
  cases hp : lookupKey p t.inner_nodes with
  | none => simp [insert, hp] at h
  | some pn =>
    simp only [insert, hp, Option.some.injEq, Prod.mk.injEq] at h
    obtain ⟨hk, ht'⟩ := h
    subst hk
    subst ht'
    set M := t.inner_nodes with hM
    set nk := t.next_key with hnk
    set pn' : InnerNode V := { pn with child_keys := indexSetInsert pn.child_keys nk }
      with hpn'
    set N := setKey p pn' (M ++ [(nk, ⟨some p, [], v, pn.depth + 1⟩)]) with hN
    have hfresh : lookupKey nk M = none := by
      rw [lookupKey_eq_none_iff]
      intro hmem
      exact absurd (w.keys_lt _ hmem) (lt_irrefl _)
    have hkey_ne : ∀ y ∈ keysOf M, y ≠ nk := by
      intro y hy heq
      rw [heq] at hy
      rw [← lookupKey_isSome_iff, hfresh] at hy
      simp at hy
    have hpnk : p ≠ nk := hkey_ne p (mem_keysOf_of_lookupKey hp)
    have hchar : ∀ x, lookupKey x N =
        (if x = nk then some ⟨some p, [], v, pn.depth + 1⟩
         else if x = p then some pn' else lookupKey x M) := by
      intro x
      by_cases hxnk : x = nk
      · rw [if_pos hxnk, hN, hxnk]
        rw [lookupKey_setKey_ne (fun hh => hpnk hh.symm), lookupKey_append_of_none hfresh]
        simp [lookupKey]
      · rw [if_neg hxnk]
        by_cases hxp : x = p
        · rw [if_pos hxp, hN, hxp, lookupKey_setKey_self, lookupKey_append_of_some hp]
          rfl
        · rw [if_neg hxp, hN, lookupKey_setKey_ne hxp]
          cases hxM : lookupKey x M with
          | none =>
            rw [lookupKey_append_of_none hxM]
            simp only [lookupKey]
            rw [if_neg (fun hh => hxnk hh.symm)]
          | some m => rw [lookupKey_append_of_some hxM]
    have hkeys : keysOf N = keysOf M ++ [nk] := by
      rw [hN, keysOf_setKey]
      simp [keysOf]
    have hagreeM : ∀ y, y ≠ nk → (lookupKey y N).map InnerNode.parent_key =
        (lookupKey y M).map InnerNode.parent_key := by
      intro y hy
      rw [hchar y, if_neg hy]
      by_cases hyp : y = p
      · rw [if_pos hyp, hyp, hp]
        rfl
      · rw [if_neg hyp]
    have hNlen : N.length = M.length + 1 := by
      have := congrArg List.length hkeys
      simpa [keysOf] using this
    have hkeysub : ∀ y ∈ keysOf M, y ∈ keysOf N := by
      intro y hy
      rw [hkeys]
      exact List.mem_append_left _ hy
    refine ⟨?_, ?_, ?_, ?_, ?_, ?_, ?_, ?_, ?_⟩
    · rw [hkeys, List.nodup_append]
      refine ⟨w.keys_nodup, List.nodup_singleton _, ?_⟩
      intro y hy
      simp only [List.mem_singleton]
      exact hkey_ne y hy
    · intro x hx
      show x < nk + 1
      rw [hkeys] at hx
      rcases List.mem_append.mp hx with hx | hx
      · have h1 := w.keys_lt x hx
        have h2 : nk = t.next_key := hnk
        omega
      · simp only [List.mem_singleton] at hx
        omega
    · intro hr
      have hnil := w.root_none hr
      have hp2 : lookupKey p t.inner_nodes = some pn := hp
      rw [hnil] at hp2
      simp [lookupKey] at hp2
    · intro r hr
      obtain ⟨m, hm⟩ := w.root_live r hr
      rw [hchar r, if_neg (hkey_ne r (mem_keysOf_of_lookupKey hm))]
      by_cases hrp : r = p
      · exact ⟨pn', by rw [if_pos hrp]⟩
      · exact ⟨m, by rw [if_neg hrp]; exact hm⟩
    · intro x n hx
      rw [hchar x] at hx
      by_cases hxnk : x = nk
      · rw [if_pos hxnk] at hx
        obtain rfl := Option.some.inj hx
        simp only []
        constructor
        · intro hh
          exact Option.noConfusion hh
        · intro hh
          rw [hxnk] at hh
          obtain ⟨m, hm⟩ := w.root_live nk hh
          rw [hfresh] at hm
          exact Option.noConfusion hm
      · rw [if_neg hxnk] at hx
        by_cases hxp : x = p
        · rw [if_pos hxp] at hx
          obtain rfl := Option.some.inj hx
          rw [hxp]
          have := w.parent_none_iff p pn hp
          simpa [hpn'] using this
        · rw [if_neg hxp] at hx
          exact w.parent_none_iff x n hx
    · intro x n hx c hc
      rw [hchar x] at hx
      by_cases hxnk : x = nk
      · rw [if_pos hxnk] at hx
        obtain rfl := Option.some.inj hx
        simp at hc
      · rw [if_neg hxnk] at hx
        by_cases hxp : x = p
        · rw [if_pos hxp] at hx
          obtain rfl := Option.some.inj hx
          simp only [hpn'] at hc
          rcases mem_indexSetInsert.mp hc with hcold | hcnk
          · obtain ⟨m, hm, hmp⟩ := w.children_live p pn hp c hcold
            have hcnk : c ≠ nk := hkey_ne c (mem_keysOf_of_lookupKey hm)
            have hcp : c ≠ p := by
              rintro rfl
              rw [hm] at hp
              obtain rfl := Option.some.inj hp
              exact self_parent_absurd w hm hmp
            refine ⟨m, ?_, by rw [hxp]; exact hmp⟩
            rw [hchar c, if_neg hcnk, if_neg hcp]
            exact hm
          · refine ⟨⟨some p, [], v, pn.depth + 1⟩, ?_, by rw [hxp]⟩
            rw [hchar c, if_pos hcnk]
        · rw [if_neg hxp] at hx
          obtain ⟨m, hm, hmp⟩ := w.children_live x n hx c hc
          have hcnk : c ≠ nk := hkey_ne c (mem_keysOf_of_lookupKey hm)
          rw [hchar c, if_neg hcnk]
          by_cases hcp : c = p
          · refine ⟨pn', by rw [if_pos hcp], ?_⟩
            simp only [hpn']
            rw [hcp] at hm
            rw [hm] at hp
            obtain rfl := Option.some.inj hp
            exact hmp
          · exact ⟨m, by rw [if_neg hcp]; exact hm, hmp⟩
    · intro x n q hx hq
      rw [hchar x] at hx
      by_cases hxnk : x = nk
      · rw [if_pos hxnk] at hx
        obtain rfl := Option.some.inj hx
        have hpq : some p = some q := hq
        obtain rfl := Option.some.inj hpq
        refine ⟨pn', ?_, ?_⟩
        · rw [hchar p, if_neg (fun hh => hpnk hh), if_pos rfl]
        · show x ∈ indexSetInsert pn.child_keys nk
          rw [hxnk]
          exact mem_indexSetInsert.mpr (Or.inr rfl)
      · rw [if_neg hxnk] at hx
        have hback : ∃ m, lookupKey q M = some m ∧ x ∈ m.child_keys := by
          by_cases hxp : x = p
          · rw [if_pos hxp] at hx
            obtain rfl := Option.some.inj hx
            simp only [hpn'] at hq
            obtain ⟨m, hm, hmem⟩ := w.parent_back p pn q hp hq
            exact ⟨m, hm, hxp ▸ hmem⟩
          · rw [if_neg hxp] at hx
            exact w.parent_back x n q hx hq
        obtain ⟨m, hm, hmem⟩ := hback
        have hqnk : q ≠ nk := hkey_ne q (mem_keysOf_of_lookupKey hm)
        rw [hchar q, if_neg hqnk]
        by_cases hqp : q = p
        · refine ⟨pn', by rw [if_pos hqp], ?_⟩
          simp only [hpn']
          rw [hqp] at hm
          rw [hm] at hp
          obtain rfl := Option.some.inj hp
          exact mem_indexSetInsert.mpr (Or.inl hmem)
        · exact ⟨m, by rw [if_neg hqp]; exact hm, hmem⟩
    · intro x n hx
      rw [hchar x] at hx
      by_cases hxnk : x = nk
      · rw [if_pos hxnk] at hx
        obtain rfl := Option.some.inj hx
        simp
      · rw [if_neg hxnk] at hx
        by_cases hxp : x = p
        · rw [if_pos hxp] at hx
          obtain rfl := Option.some.inj hx
          simp only [hpn']
          exact nodup_indexSetInsert (w.child_nodup p pn hp)
        · rw [if_neg hxp] at hx
          exact w.child_nodup x n hx
    · intro x n hx
      by_cases hxnk : x = nk
      · have hxl : lookupKey x N = some ⟨some p, [], v, pn.depth + 1⟩ := by
          rw [hchar x, if_pos hxnk]
        have hpc : pchain M (M.length + 1) p = some (ancChain M p) :=
          w.toWFm.ancChain_spec hp
        have htrans : pchain N (M.length + 1) p = some (ancChain M p) := by
          refine pchain_transfer hpc ?_
          intro y hy
          refine hagreeM y (hkey_ne y ?_)
          rcases hy with rfl | hy
          · exact mem_keysOf_of_lookupKey hp
          · exact ancChain_subset_keys y hy
        have hcons : pchain N (M.length + 1 + 1) x = some (p :: ancChain M p) := by
          rw [pchain_cons_of_parent hxl rfl, htrans]
          rfl
        refine reach_of_chain hcons ?_
        intro y hy
        rcases List.mem_cons.mp hy with rfl | hy
        · exact hkeysub y (mem_keysOf_of_lookupKey hp)
        · exact hkeysub y (ancChain_subset_keys y hy)
      · have hxM : ∃ m, lookupKey x M = some m := by
          have hxmem : x ∈ keysOf N := by
            rw [← lookupKey_isSome_iff, hx]
            rfl
          rw [hkeys] at hxmem
          rcases List.mem_append.mp hxmem with hxm | hxm
          · rw [← lookupKey_isSome_iff] at hxm
            exact Option.isSome_iff_exists.mp hxm
          · simp only [List.mem_singleton] at hxm
            exact absurd hxm hxnk
        obtain ⟨m, hm⟩ := hxM
        have hpc : pchain M (M.length + 1) x = some (ancChain M x) :=
          w.toWFm.ancChain_spec hm
        have htrans : pchain N (M.length + 1) x = some (ancChain M x) := by
          refine pchain_transfer hpc ?_
          intro y hy
          refine hagreeM y (hkey_ne y ?_)
          rcases hy with rfl | hy
          · exact mem_keysOf_of_lookupKey hm
          · exact ancChain_subset_keys y hy
        refine reach_of_chain htrans ?_
        intro y hy
        exact hkeysub y (ancChain_subset_keys y hy)

theorem wf_remove (t : Tree V) (w : WF t) (k : Nat) (h : Option Nat) (v : Option V)
    (t' : Tree V) (hr : remove t k h = some (v, t')) : WF t' := by
  cases hroot : t.root_key with
  | none =>
    simp only [remove, hroot] at hr
    simp at hr
    rw [← hr.2]
    exact w
  | some rk =>
    by_cases hk : k = rk
    · simp only [remove, hroot, if_pos hk] at hr
      cases hl : lookupKey rk t.inner_nodes with
      | none => exact Option.noConfusion (hl ▸ hr)
      | some n =>
        simp only [hl] at hr
        simp at hr
        rw [← hr.2]
        exact wf_clear t
    · cases hl : lookupKey k t.inner_nodes with
      | none =>
        simp only [remove, hroot, if_neg hk, hl] at hr
        simp at hr
        rw [← hr.2]
        exact w
      | some n =>
        obtain ⟨pk, pn, t'', hpk, hpn, hrem, hr2, hn2, hpk', hnone, hsame, hnd', hsub', _⟩ :=
          remove_nonroot_spec t w h hroot hk hl
        rw [hrem] at hr
        obtain ⟨_, rfl⟩ : some n.value = v ∧ t'' = t' := by
          have := Option.some.inj hr
          exact ⟨(Prod.mk.injEq .. ▸ this).1, (Prod.mk.injEq .. ▸ this).2⟩
        set M := t.inner_nodes with hM
        have wm : WFm M := w.toWFm
        have hpkk : pk ≠ k := by
          rintro rfl
          exact self_parent_absurd w hl hpk
        have hchaink : ancChain M k = pk :: ancChain M pk := ancChain_parent wm hl hpk
        have hpkchain : pk ∈ ancChain M k := by
          rw [hchaink]
          exact List.mem_cons_self _ _
        -- reverse characterisation of lookups in t''
        have hrev : ∀ x m, lookupKey x t''.inner_nodes = some m →
            (x = pk ∧ m = { pn with child_keys := pn.child_keys.erase k }) ∨
            (x ≠ pk ∧ ¬ InSub M k x ∧ lookupKey x M = some m) := by
          intro x m hx
          by_cases hxpk : x = pk
          · rw [hxpk] at hx
            rw [hpk'] at hx
            exact Or.inl ⟨hxpk, (Option.some.inj hx).symm⟩
          · by_cases hin : InSub M k x
            · rw [hnone x hin] at hx
              exact Option.noConfusion hx
            · rw [hsame x hxpk hin] at hx
              exact Or.inr ⟨hxpk, hin, hx⟩
        -- no ancestor of a survivor is removed
        have hanc_safe : ∀ x, ¬ InSub M k x → ∀ y ∈ ancChain M x, ¬ InSub M k y := by
          intro x hx y hy hky
          exact hx (InSub_trans hky (Or.inr hy))
        have hpk_not_in : ¬ InSub M k pk := by
          rintro (heq | hmem)
          · exact hpkk heq.symm
          · exact ancChain_antisym hmem hpkchain
        -- lookups of surviving non-pk keys agree with M, with equal parents at pk too
        have hagree : ∀ y, ¬ InSub M k y →
            (lookupKey y t''.inner_nodes).map InnerNode.parent_key =
              (lookupKey y M).map InnerNode.parent_key := by
          intro y hy
          by_cases hypk : y = pk
          · rw [hypk, hpk', hpn]
            rfl
          · rw [hsame y hypk hy]
        refine ⟨hnd', ?_, ?_, ?_, ?_, ?_, ?_, ?_, ?_⟩
        · intro x hx
          have := w.keys_lt x (hsub' x hx)
          rw [hn2]
          exact this
        · intro hnone2
          rw [hr2, hroot] at hnone2
          exact Option.noConfusion hnone2
        · intro r hrr
          rw [hr2, hroot] at hrr
          obtain rfl := Option.some.inj hrr
          obtain ⟨m, hm⟩ := w.root_live rk hroot
          have hrk : ¬ InSub M k rk := by
            rintro (heq | hmem)
            · exact hk heq
            · have hpar : m.parent_key = none := (w.parent_none_iff rk m hm).mpr hroot
              rw [ancChain_parent_none hm hpar] at hmem
              simp at hmem
          by_cases hrpk : rk = pk
          · exact ⟨_, by rw [hrpk]; exact hpk'⟩
          · exact ⟨m, by rw [hsame rk hrpk hrk]; exact hm⟩
        · intro x m hx
          rw [hr2]
          rcases hrev x m hx with ⟨rfl, rfl⟩ | ⟨_, _, hxm⟩
          · exact w.parent_none_iff x pn hpn
          · exact w.parent_none_iff x m hxm
        · intro x m hx c hc
          rcases hrev x m hx with ⟨rfl, rfl⟩ | ⟨hxpk, hxin, hxm⟩
          · have hcc : c ∈ pn.child_keys ∧ c ≠ k := by
              have hnd := w.child_nodup x pn hpn
              have := (List.Nodup.mem_erase_iff hnd).mp hc
              exact ⟨this.2, this.1⟩
            obtain ⟨m2, hm2, hm2p⟩ := w.children_live x pn hpn c hcc.1
            have hcpk : c ≠ x := child_ne wm hpn hcc.1
            have hcin : ¬ InSub M k c := by
              rintro (heq | hmem)
              · exact hcc.2 heq.symm
              · rw [child_chain wm hpn hcc.1] at hmem
                rcases List.mem_cons.mp hmem with heq | hmem2
                · exact hpkk heq.symm
                · exact ancChain_antisym hmem2 hpkchain
            refine ⟨m2, ?_, hm2p⟩
            rw [hsame c hcpk hcin]
            exact hm2
          · obtain ⟨m2, hm2, hm2p⟩ := w.children_live x m hxm c hc
            have hck : c ≠ k := by
              rintro rfl
              rw [hm2] at hl
              obtain rfl := Option.some.inj hl
              rw [hm2p] at hpk
              obtain rfl := Option.some.inj hpk
              exact hxpk rfl
            have hcin : ¬ InSub M k c := by
              rintro (heq | hmem)
              · exact hck heq.symm
              · rw [ancChain_parent wm hm2 hm2p] at hmem
                rcases List.mem_cons.mp hmem with heq | hmem2
                · exact hxin (Or.inl heq)
                · exact hxin (Or.inr hmem2)
            by_cases hcpk : c = pk
            · refine ⟨{ pn with child_keys := pn.child_keys.erase k }, by
                rw [hcpk]; exact hpk', ?_⟩
              have : m2 = pn := by
                rw [hcpk] at hm2
                rw [hm2] at hpn
                exact Option.some.inj hpn
              rw [← this]
              exact hm2p
            · refine ⟨m2, ?_, hm2p⟩
              rw [hsame c hcpk hcin]
              exact hm2
        · intro x m q hx hq
          rcases hrev x m hx with ⟨rfl, rfl⟩ | ⟨hxpk, hxin, hxm⟩
          · have hq2 : pn.parent_key = some q := hq
            obtain ⟨m2, hm2, hmem⟩ := w.parent_back x pn q hpn hq2
            have hqpk : q ≠ x := by
              rintro rfl
              exact self_parent_absurd w hpn hq2
            have hqin : ¬ InSub M k q := by
              rintro (heq | hmem2)
              · have : k ∈ ancChain M x := by
                  rw [ancChain_parent wm hpn hq2, heq]
                  exact List.mem_cons_self _ _
                exact ancChain_antisym this hpkchain
              · have : k ∈ ancChain M x := by
                  rw [ancChain_parent wm hpn hq2]
                  exact List.mem_cons_of_mem _ hmem2
                exact ancChain_antisym this hpkchain
            refine ⟨m2, ?_, ?_⟩
            · rw [hsame q hqpk hqin]
              exact hm2
            · exact hmem
          · obtain ⟨m2, hm2, hmem⟩ := w.parent_back x m q hxm hq
            have hqin : ¬ InSub M k q := by
              rintro (heq | hmem2)
              · apply hxin
                right
                rw [ancChain_parent wm hxm hq, heq]
                exact List.mem_cons_self _ _
              · have : k ∈ ancChain M x := by
                  rw [ancChain_parent wm hxm hq]
                  exact List.mem_cons_of_mem _ hmem2
                exact hxin (Or.inr this)
            by_cases hqpk : q = pk
            · have hm2pn : m2 = pn := by
                rw [hqpk] at hm2
                rw [hm2] at hpn
                exact Option.some.inj hpn
              refine ⟨{ pn with child_keys := pn.child_keys.erase k }, by
                rw [hqpk]; exact hpk', ?_⟩
              have hxk : x ≠ k := fun hxk => hxin (Or.inl hxk.symm)
              exact (List.Nodup.mem_erase_iff (w.child_nodup pk pn hpn)).mpr
                ⟨hxk, hm2pn ▸ hmem⟩
            · refine ⟨m2, ?_, hmem⟩
              rw [hsame q hqpk hqin]
              exact hm2
        · intro x m hx
          rcases hrev x m hx with ⟨rfl, rfl⟩ | ⟨_, _, hxm⟩
          · exact (w.child_nodup x pn hpn).erase k
          · exact w.child_nodup x m hxm
        · intro x m hx
          have hxin2 : ¬ InSub M k x := by
            rcases hrev x m hx with ⟨rfl, _⟩ | ⟨_, hxin3, _⟩
            · exact hpk_not_in
            · exact hxin3
          obtain ⟨nm, hnm⟩ : ∃ nm, lookupKey x M = some nm := by
            rcases hrev x m hx with ⟨rfl, _⟩ | ⟨_, _, hxm⟩
            · exact ⟨pn, hpn⟩
            · exact ⟨m, hxm⟩
          have hreach := w.reach x nm hnm
          obtain ⟨l, hlch⟩ := Option.isSome_iff_exists.mp hreach
          have hlanc : ancChain M x = l := by
            simp [ancChain, hlch]
          have hmem_anc : ∀ y ∈ l, y ∈ ancChain M x := by
            intro y hy
            rw [hlanc]
            exact hy
          have htr : pchain t''.inner_nodes (M.length + 1) x = some l :=
            pchain_transfer hlch (by
              intro y hy
              rcases hy with rfl | hy
              · exact hagree y hxin2
              · exact hagree y (hanc_safe x hxin2 y (hmem_anc y hy)))
          refine reach_of_chain htr ?_
          intro y hy
          have hy_safe : ¬ InSub M k y := hanc_safe x hxin2 y (hmem_anc y hy)
          obtain ⟨my, hmy⟩ := mem_ancChain_live (hmem_anc y hy)
          by_cases hypk : y = pk
          · refine mem_keysOf_of_lookupKey (n := { pn with child_keys := pn.child_keys.erase k }) ?_
            rw [hypk]
            exact hpk'
          · refine mem_keysOf_of_lookupKey (n := my) ?_
            rw [hsame y hypk hy_safe]
            exact hmy

theorem wf_reorder (t : Tree V) (w : WF t) (key : Nat) (f : List Nat → List Nat)
    (hf : ∀ l, (f l).Nodup) (t' : Tree V) (b : Bool)
    (hr : reorderChildren t key f = some (t', b)) : WF t' := by
  set M := t.inner_nodes with hM
  have wm : WFm M := w.toWFm
  have hndM : (keysOf M).Nodup := wm.keys_nodup
  cases hk : lookupKey key M with
  | none =>
    simp [reorderChildren, ← hM, hk] at hr
    rw [← hr.1]
    exact w
  | some n =>
    by_cases hcond : ((f n.child_keys).all fun c => decide (c ∈ n.child_keys)) = true
    · have hall : ∀ c ∈ f n.child_keys, c ∈ n.child_keys := by
        intro c hc
        exact of_decide_eq_true (List.all_eq_true.mp hcond c hc)
      have hstack_sub : ∀ d ∈ (n.child_keys.filter fun c => decide (c ∉ f n.child_keys)).reverse,
          d ∈ n.child_keys ∧ d ∉ f n.child_keys := by
        intro d hd
        rw [List.mem_reverse, List.mem_filter] at hd
        exact ⟨hd.1, of_decide_eq_true hd.2⟩
      have hlive : ∀ d ∈ (n.child_keys.filter fun c => decide (c ∉ f n.child_keys)).reverse,
          d ∈ keysOf M := by
        intro d hd
        obtain ⟨m, hm, _⟩ := wm.children_live key n hk d (hstack_sub d hd).1
        exact mem_keysOf_of_lookupKey hm
      have hnd : ((n.child_keys.filter fun c => decide (c ∉ f n.child_keys)).reverse).Nodup :=
        List.nodup_reverse.mpr ((wm.child_nodup key n hk).filter _)
      have hanti : ∀ a ∈ (n.child_keys.filter fun c => decide (c ∉ f n.child_keys)).reverse,
          ∀ a' ∈ (n.child_keys.filter fun c => decide (c ∉ f n.child_keys)).reverse,
          a ≠ a' → ¬ InSub M a a' := by
        intro a ha a' ha'
        exact siblings_incomp wm hk a (hstack_sub a ha).1 a' (hstack_sub a' ha').1
      have hpend : ∀ x,
          (∃ d ∈ (n.child_keys.filter fun c => decide (c ∉ f n.child_keys)).reverse,
            InSub M d x) → x ∈ keysOf M := by
        rintro x ⟨d, hd, hIn⟩
        rcases hIn with heq | hmem
        · rw [← heq]
          exact hlive d hd
        · exact mem_keysOf_of_lookupKey (live_of_mem_ancChain hmem).1.choose_spec
      obtain ⟨final, hfin, hsubf, hnone, hsame, _⟩ :=
        cascade_spec wm (M.length + 1) M
          ((n.child_keys.filter fun c => decide (c ∉ f n.child_keys)).reverse)
          (List.Sublist.refl M) hlive hnd hanti hpend (by omega)
      have hkey_not_pend :
          ¬(∃ d ∈ (n.child_keys.filter fun c => decide (c ∉ f n.child_keys)).reverse,
            InSub M d key) := by
        rintro ⟨d, hd, hIn⟩
        exact (desc_of_child wm hk (hstack_sub d hd).1 hIn).2 rfl
      have hkeyfinal : lookupKey key final = some n := by
        rw [hsame key hkey_not_pend]
        exact hk
      have hre : reorderChildren t key f = some
          (⟨t.root_key, setKey key { n with child_keys := f n.child_keys } final,
            t.next_key⟩, true) := by
        simp only [reorderChildren, ← hM, hk, hcond, if_true, hfin, hkeyfinal]
      rw [hre] at hr
      have heq := Option.some.inj hr
      obtain rfl : (⟨t.root_key, setKey key { n with child_keys := f n.child_keys } final,
          t.next_key⟩ : Tree V) = t' := (Prod.mk.injEq .. ▸ heq).1
      set S := (n.child_keys.filter fun c => decide (c ∉ f n.child_keys)).reverse with hSdef
      have hkeyN : lookupKey key (setKey key { n with child_keys := f n.child_keys } final) =
          some { n with child_keys := f n.child_keys } := by
        rw [lookupKey_setKey_self, hkeyfinal]
        rfl
      have hrev : ∀ x m,
          lookupKey x (setKey key { n with child_keys := f n.child_keys } final) = some m →
          (x = key ∧ m = { n with child_keys := f n.child_keys }) ∨
          (x ≠ key ∧ ¬(∃ d ∈ S, InSub M d x) ∧ lookupKey x M = some m) := by
        intro x m hx
        by_cases hxkey : x = key
        · rw [hxkey, lookupKey_setKey_self, hkeyfinal] at hx
          simp only [Option.map_some'] at hx
          exact Or.inl ⟨hxkey, (Option.some.inj hx).symm⟩
        · rw [lookupKey_setKey_ne hxkey] at hx
          by_cases hp : ∃ d ∈ S, InSub M d x
          · rw [hnone x hp] at hx
            exact Option.noConfusion hx
          · rw [hsame x hp] at hx
            exact Or.inr ⟨hxkey, hp, hx⟩
      refine ⟨?_, ?_, ?_, ?_, ?_, ?_, ?_, ?_, ?_⟩
      · show (keysOf (setKey key { n with child_keys := f n.child_keys } final)).Nodup
        rw [keysOf_setKey]
        exact keysOf_nodup_of_sublist hsubf hndM
      · intro x hx
        have hx' : x ∈ keysOf (setKey key { n with child_keys := f n.child_keys } final) := hx
        rw [keysOf_setKey] at hx'
        exact w.keys_lt x ((keysOf_sublist_of_sublist hsubf).subset hx')
      · intro h0
        have h0' : t.root_key = none := h0
        have hMnil : M = [] := w.root_none h0'
        rw [hMnil] at hk
        simp [lookupKey] at hk
      · intro r hrr
        have hrr' : t.root_key = some r := hrr
        obtain ⟨m, hm⟩ := w.root_live r hrr'
        have hrpend : ¬(∃ d ∈ S, InSub M d r) := by
          rintro ⟨d, hd, hIn⟩
          have hmem := (desc_of_child wm hk (hstack_sub d hd).1 hIn).1
          have hpar : m.parent_key = none := (w.parent_none_iff r m hm).mpr hrr'
          rw [ancChain_parent_none hm hpar] at hmem
          simp at hmem
        by_cases hrkey : r = key
        · exact ⟨_, by rw [hrkey]; exact hkeyN⟩
        · refine ⟨m, ?_⟩
          show lookupKey r (setKey key { n with child_keys := f n.child_keys } final) = some m
          rw [lookupKey_setKey_ne hrkey, hsame r hrpend]
          exact hm
      · intro x m hx
        have hx' : lookupKey x (setKey key { n with child_keys := f n.child_keys } final) =
            some m := hx
        show m.parent_key = none ↔ t.root_key = some x
        rcases hrev x m hx' with ⟨hx1, hx2⟩ | ⟨_, _, hxm⟩
        · rw [hx1, hx2]
          exact w.parent_none_iff key n hk
        · exact w.parent_none_iff x m hxm
      · intro x m hx c hc
        have hx' : lookupKey x (setKey key { n with child_keys := f n.child_keys } final) =
            some m := hx
        rcases hrev x m hx' with ⟨hx1, hx2⟩ | ⟨hxkey, hxpend, hxm⟩
        · have hc2 : c ∈ f n.child_keys := by
            rw [hx2] at hc
            exact hc
          have hcn : c ∈ n.child_keys := hall c hc2
          obtain ⟨m2, hm2, hm2p⟩ := wm.children_live key n hk c hcn
          have hckey : c ≠ key := child_ne wm hk hcn
          have hcpend : ¬(∃ d ∈ S, InSub M d c) := by
            rintro ⟨d, hd, hIn⟩
            have hdn := hstack_sub d hd
            have hdc : d ≠ c := by
              rintro rfl
              exact hdn.2 hc2
            exact siblings_incomp wm hk d hdn.1 c hcn hdc hIn
          refine ⟨m2, ?_, by rw [hx1]; exact hm2p⟩
          show lookupKey c (setKey key { n with child_keys := f n.child_keys } final) = some m2
          rw [lookupKey_setKey_ne hckey, hsame c hcpend]
          exact hm2
        · obtain ⟨m2, hm2, hm2p⟩ := wm.children_live x m hxm c hc
          by_cases hckey : c = key
          · refine ⟨{ n with child_keys := f n.child_keys }, ?_, ?_⟩
            · show lookupKey c (setKey key { n with child_keys := f n.child_keys } final) =
                some { n with child_keys := f n.child_keys }
              rw [hckey]
              exact hkeyN
            · have hm2n : m2 = n := by
                rw [hckey] at hm2
                rw [hm2] at hk
                exact Option.some.inj hk
              show n.parent_key = some x
              rw [← hm2n]
              exact hm2p
          · have hcpend : ¬(∃ d ∈ S, InSub M d c) := by
              rintro ⟨d, hd, hIn⟩
              rcases hIn with heq | hmem
              · have hdn := hstack_sub d hd
                rw [heq] at hdn
                obtain ⟨mc, hmc, hmcp⟩ := wm.children_live key n hk c hdn.1
                rw [hmc] at hm2
                have hmceq : mc = m2 := Option.some.inj hm2
                rw [hmceq] at hmcp
                rw [hm2p] at hmcp
                exact hxkey (Option.some.inj hmcp)
              · rw [ancChain_parent wm hm2 hm2p] at hmem
                rcases List.mem_cons.mp hmem with heq2 | hmem2
                · exact hxpend ⟨d, hd, Or.inl heq2⟩
                · exact hxpend ⟨d, hd, Or.inr hmem2⟩
            refine ⟨m2, ?_, hm2p⟩
            show lookupKey c (setKey key { n with child_keys := f n.child_keys } final) = some m2
            rw [lookupKey_setKey_ne hckey, hsame c hcpend]
            exact hm2
      · intro x m q hx hq
        have hx' : lookupKey x (setKey key { n with child_keys := f n.child_keys } final) =
            some m := hx
        rcases hrev x m hx' with ⟨hx1, hx2⟩ | ⟨hxkey, hxpend, hxm⟩
        · have hq2 : n.parent_key = some q := by
            rw [hx2] at hq
            exact hq
          obtain ⟨m2, hm2, hmem⟩ := wm.parent_back key n q hk hq2
          have hqkey : q ≠ key := by
            rintro rfl
            exact self_parent_absurd w hk hq2
          have hqpend : ¬(∃ d ∈ S, InSub M d q) := by
            rintro ⟨d, hd, hIn⟩
            have h1 := (desc_of_child wm hk (hstack_sub d hd).1 hIn).1
            have h2 : q ∈ ancChain M key := by
              rw [ancChain_parent wm hk hq2]
              exact List.mem_cons_self _ _
            exact ancChain_antisym h1 h2
          refine ⟨m2, ?_, by rw [hx1]; exact hmem⟩
          show lookupKey q (setKey key { n with child_keys := f n.child_keys } final) = some m2
          rw [lookupKey_setKey_ne hqkey, hsame q hqpend]
          exact hm2
        · obtain ⟨m2, hm2, hmem⟩ := wm.parent_back x m q hxm hq
          have hqpend : ¬(∃ d ∈ S, InSub M d q) := by
            rintro ⟨d, hd, hIn⟩
            refine hxpend ⟨d, hd, InSub_trans hIn (Or.inr ?_)⟩
            rw [ancChain_parent wm hxm hq]
            exact List.mem_cons_self _ _
          by_cases hqkey : q = key
          · refine ⟨{ n with child_keys := f n.child_keys }, ?_, ?_⟩
            · show lookupKey q (setKey key { n with child_keys := f n.child_keys } final) =
                some { n with child_keys := f n.child_keys }
              rw [hqkey]
              exact hkeyN
            · have hm2n : m2 = n := by
                rw [hqkey] at hm2
                rw [hm2] at hk
                exact Option.some.inj hk
              have hxn : x ∈ n.child_keys := by
                rw [← hm2n]
                exact hmem
              show x ∈ f n.child_keys
              by_contra hxf
              exact hxpend ⟨x, List.mem_reverse.mpr (List.mem_filter.mpr
                ⟨hxn, decide_eq_true hxf⟩), Or.inl rfl⟩
          · refine ⟨m2, ?_, hmem⟩
            show lookupKey q (setKey key { n with child_keys := f n.child_keys } final) = some m2
            rw [lookupKey_setKey_ne hqkey, hsame q hqpend]
            exact hm2
      · intro x m hx
        have hx' : lookupKey x (setKey key { n with child_keys := f n.child_keys } final) =
            some m := hx
        rcases hrev x m hx' with ⟨_, hx2⟩ | ⟨_, _, hxm⟩
        · rw [hx2]
          exact hf n.child_keys
        · exact wm.child_nodup x m hxm
      · intro x m hx
        have hx' : lookupKey x (setKey key { n with child_keys := f n.child_keys } final) =
            some m := hx
        have hxpend : ¬(∃ d ∈ S, InSub M d x) := by
          rcases hrev x m hx' with ⟨hx1, _⟩ | ⟨_, hp, _⟩
          · rw [hx1]
            exact hkey_not_pend
          · exact hp
        obtain ⟨nm, hnm⟩ : ∃ nm, lookupKey x M = some nm := by
          rcases hrev x m hx' with ⟨hx1, _⟩ | ⟨_, _, hxm⟩
          · exact ⟨n, by rw [hx1]; exact hk⟩
          · exact ⟨m, hxm⟩
        have hreach := w.reach x nm hnm
        obtain ⟨l, hlch⟩ := Option.isSome_iff_exists.mp hreach
        have hlanc : ancChain M x = l := by
          simp [ancChain, hlch]
        have hmem_anc : ∀ y ∈ l, y ∈ ancChain M x := by
          intro y hy
          rw [hlanc]
          exact hy
        have hagree : ∀ y, ¬(∃ d ∈ S, InSub M d y) →
            (lookupKey y (setKey key { n with child_keys := f n.child_keys } final)).map
              InnerNode.parent_key = (lookupKey y M).map InnerNode.parent_key := by
          intro y hy
          by_cases hykey : y = key
          · rw [hykey, hkeyN, hk]
            rfl
          · rw [lookupKey_setKey_ne hykey, hsame y hy]
        have htr : pchain (setKey key { n with child_keys := f n.child_keys } final)
            (M.length + 1) x = some l :=
          pchain_transfer hlch (by
            intro y hy
            rcases hy with rfl | hy
            · exact hagree y hxpend
            · exact hagree y (fun ⟨d, hd, hIn⟩ =>
                hxpend ⟨d, hd, InSub_trans hIn (Or.inr (hmem_anc y hy))⟩))
        refine reach_of_chain htr ?_
        intro y hy
        have hy_safe : ¬(∃ d ∈ S, InSub M d y) := fun ⟨d, hd, hIn⟩ =>
          hxpend ⟨d, hd, InSub_trans hIn (Or.inr (hmem_anc y hy))⟩
        obtain ⟨my, hmy⟩ := mem_ancChain_live (hmem_anc y hy)
        by_cases hykey : y = key
        · refine mem_keysOf_of_lookupKey (n := { n with child_keys := f n.child_keys }) ?_
          rw [hykey]
          exact hkeyN
        · refine mem_keysOf_of_lookupKey (n := my) ?_
          rw [lookupKey_setKey_ne hykey, hsame y hy_safe]
          exact hmy
    · simp [reorderChildren, ← hM, hk, hcond] at hr
      rw [← hr.1]
      exact w

theorem updateDepths_struct {fuel : Nat} :
    ∀ (stack : List (Nat × Nat)) (nodes out : List (Nat × InnerNode V)),
      updateDepths fuel stack nodes = some out →
      keysOf out = keysOf nodes ∧
      ∀ x, (lookupKey x out).map (fun m => (m.parent_key, m.child_keys)) =
        (lookupKey x nodes).map (fun m => (m.parent_key, m.child_keys)) := by
  induction fuel with
  | zero =>
    intro stack nodes out h
    simp [updateDepths] at h
  | succ fuel ih =>
    intro stack nodes out h
    cases stack with
    | nil =>
      simp only [updateDepths] at h
      obtain rfl := Option.some.inj h
      exact ⟨rfl, fun x => rfl⟩
    | cons e rest =>
      obtain ⟨d, k⟩ := e
      cases hk : lookupKey k nodes with
      | none =>
        simp only [updateDepths, hk] at h
        exact Option.noConfusion h
      | some n =>
        simp only [updateDepths, hk] at h
        obtain ⟨hkeys, hlk⟩ := ih _ _ _ h
        constructor
        · rw [hkeys, keysOf_setKey]
        · intro x
          rw [hlk x]
          by_cases hxk : x = k
          · rw [hxk, lookupKey_setKey_self, hk]
            rfl
          · rw [lookupKey_setKey_ne hxk]

theorem wf_rebase_core (t : Tree V) (w : WF t) (key cpk p : Nat)
    (node cpn npn : InnerNode V)
    (hknode : lookupKey key t.inner_nodes = some node)
    (hpar : node.parent_key = some cpk)
    (hcpnM : lookupKey cpk t.inner_nodes = some cpn)
    (hnpnM : lookupKey p t.inner_nodes = some npn)
    (hcp : cpk ≠ p)
    (hkp : key ≠ p)
    (hknp : key ∉ ancChain t.inner_nodes p) :
    WF (⟨t.root_key,
      setKey p { npn with child_keys := indexSetInsert npn.child_keys key }
        (setKey cpk { cpn with child_keys := cpn.child_keys.erase key }
          (setKey key { node with parent_key := some p } t.inner_nodes)),
      t.next_key⟩ : Tree V) := by
  set M := t.inner_nodes with hM
  have wm : WFm M := w.toWFm
  have hck : cpk ≠ key := by
    rintro rfl
    exact self_parent_absurd w hknode hpar
  have hpc : p ≠ cpk := fun h => hcp h.symm
  have hpk : p ≠ key := fun h => hkp h.symm
  have hkc : key ≠ cpk := fun h => hck h.symm
  have hkmem : key ∈ cpn.child_keys := by
    obtain ⟨cpn2, h1, h2⟩ := w.parent_back key node cpk hknode hpar
    rw [h1] at hcpnM
    rw [← Option.some.inj hcpnM]
    exact h2
  have hchain_key : ancChain M key = cpk :: ancChain M cpk := ancChain_parent wm hknode hpar
  have hcpk_in : cpk ∈ ancChain M key := by
    rw [hchain_key]
    exact List.mem_cons_self _ _
  have hkeyN : lookupKey key
      (setKey p { npn with child_keys := indexSetInsert npn.child_keys key }
        (setKey cpk { cpn with child_keys := cpn.child_keys.erase key }
          (setKey key { node with parent_key := some p } M))) =
      some { node with parent_key := some p } := by
    rw [lookupKey_setKey_ne hkp, lookupKey_setKey_ne hkc, lookupKey_setKey_self, hknode]
    rfl
  have hcpkN : lookupKey cpk
      (setKey p { npn with child_keys := indexSetInsert npn.child_keys key }
        (setKey cpk { cpn with child_keys := cpn.child_keys.erase key }
          (setKey key { node with parent_key := some p } M))) =
      some { cpn with child_keys := cpn.child_keys.erase key } := by
    rw [lookupKey_setKey_ne hcp, lookupKey_setKey_self, lookupKey_setKey_ne hck, hcpnM]
    rfl
  have hpN : lookupKey p
      (setKey p { npn with child_keys := indexSetInsert npn.child_keys key }
        (setKey cpk { cpn with child_keys := cpn.child_keys.erase key }
          (setKey key { node with parent_key := some p } M))) =
      some { npn with child_keys := indexSetInsert npn.child_keys key } := by
    rw [lookupKey_setKey_self, lookupKey_setKey_ne hpc, lookupKey_setKey_ne hpk, hnpnM]
    rfl
  have hothN : ∀ x, x ≠ key → x ≠ cpk → x ≠ p →
      lookupKey x
        (setKey p { npn with child_keys := indexSetInsert npn.child_keys key }
          (setKey cpk { cpn with child_keys := cpn.child_keys.erase key }
            (setKey key { node with parent_key := some p } M))) = lookupKey x M := by
    intro x hxk hxc hxp
    rw [lookupKey_setKey_ne hxp, lookupKey_setKey_ne hxc, lookupKey_setKey_ne hxk]
  have hkeys3 : keysOf
      (setKey p { npn with child_keys := indexSetInsert npn.child_keys key }
        (setKey cpk { cpn with child_keys := cpn.child_keys.erase key }
          (setKey key { node with parent_key := some p } M))) = keysOf M := by
    rw [keysOf_setKey, keysOf_setKey, keysOf_setKey]
  have hparents : ∀ y, y ≠ key →
      (lookupKey y
        (setKey p { npn with child_keys := indexSetInsert npn.child_keys key }
          (setKey cpk { cpn with child_keys := cpn.child_keys.erase key }
            (setKey key { node with parent_key := some p } M)))).map InnerNode.parent_key =
      (lookupKey y M).map InnerNode.parent_key := by
    intro y hy
    by_cases hyc : y = cpk
    · rw [hyc, hcpkN, hcpnM]
      rfl
    · by_cases hyp : y = p
      · rw [hyp, hpN, hnpnM]
        rfl
      · rw [hothN y hy hyc hyp]
  refine ⟨?_, ?_, ?_, ?_, ?_, ?_, ?_, ?_, ?_⟩
  · show (keysOf (setKey p { npn with child_keys := indexSetInsert npn.child_keys key }
      (setKey cpk { cpn with child_keys := cpn.child_keys.erase key }
        (setKey key { node with parent_key := some p } M)))).Nodup
    rw [hkeys3]
    exact w.keys_nodup
  · intro x hx
    have hx' : x ∈ keysOf (setKey p { npn with child_keys := indexSetInsert npn.child_keys key }
        (setKey cpk { cpn with child_keys := cpn.child_keys.erase key }
          (setKey key { node with parent_key := some p } M))) := hx
    rw [hkeys3] at hx'
    exact w.keys_lt x hx'
  · intro h0
    have h0' : t.root_key = none := h0
    have hMnil : M = [] := w.root_none h0'
    rw [hMnil] at hknode
    simp [lookupKey] at hknode
  · intro r hrr
    have hrr' : t.root_key = some r := hrr
    obtain ⟨m, hm⟩ := w.root_live r hrr'
    by_cases hrk : r = key
    · exact ⟨_, by rw [hrk]; exact hkeyN⟩
    · by_cases hrc : r = cpk
      · exact ⟨_, by rw [hrc]; exact hcpkN⟩
      · by_cases hrp : r = p
        · exact ⟨_, by rw [hrp]; exact hpN⟩
        · exact ⟨m, by rw [hothN r hrk hrc hrp]; exact hm⟩
  · intro x m hx
    have hx' : lookupKey x
        (setKey p { npn with child_keys := indexSetInsert npn.child_keys key }
          (setKey cpk { cpn with child_keys := cpn.child_keys.erase key }
            (setKey key { node with parent_key := some p } M))) = some m := hx
    show m.parent_key = none ↔ t.root_key = some x
    by_cases hxk : x = key
    · have hm : m = { node with parent_key := some p } := by
        rw [hxk, hkeyN] at hx'
        exact (Option.some.inj hx').symm
      rw [hm, hxk]
      constructor
      · intro hc
        exact Option.noConfusion hc
      · intro hroot
        have h0 := (w.parent_none_iff key node hknode).mpr hroot
        rw [h0] at hpar
        exact Option.noConfusion hpar
    · by_cases hxc : x = cpk
      · have hm : m = { cpn with child_keys := cpn.child_keys.erase key } := by
          rw [hxc, hcpkN] at hx'
          exact (Option.some.inj hx').symm
        rw [hm, hxc]
        exact w.parent_none_iff cpk cpn hcpnM
      · by_cases hxp : x = p
        · have hm : m = { npn with child_keys := indexSetInsert npn.child_keys key } := by
            rw [hxp, hpN] at hx'
            exact (Option.some.inj hx').symm
          rw [hm, hxp]
          exact w.parent_none_iff p npn hnpnM
        · rw [hothN x hxk hxc hxp] at hx'
          exact w.parent_none_iff x m hx'
  · intro x m hx c hc
    have hx' : lookupKey x
        (setKey p { npn with child_keys := indexSetInsert npn.child_keys key }
          (setKey cpk { cpn with child_keys := cpn.child_keys.erase key }
            (setKey key { node with parent_key := some p } M))) = some m := hx
    by_cases hxk : x = key
    · have hm : m = { node with parent_key := some p } := by
        rw [hxk, hkeyN] at hx'
        exact (Option.some.inj hx').symm
      have hcn : c ∈ node.child_keys := by
        rw [hm] at hc
        exact hc
      obtain ⟨mc, hmc, hmcp⟩ := wm.children_live key node hknode c hcn
      have hckey : c ≠ key := child_ne wm hknode hcn
      have hccpk : c ≠ cpk := by
        rintro rfl
        have h1 : key ∈ ancChain M c := by
          rw [ancChain_parent wm hmc hmcp]
          exact List.mem_cons_self _ _
        exact ancChain_antisym h1 hcpk_in
      have hcp2 : c ≠ p := by
        rintro rfl
        refine hknp ?_
        rw [ancChain_parent wm hmc hmcp]
        exact List.mem_cons_self _ _
      refine ⟨mc, ?_, by rw [hxk]; exact hmcp⟩
      rw [hothN c hckey hccpk hcp2]
      exact hmc
    · by_cases hxc : x = cpk
      · have hm : m = { cpn with child_keys := cpn.child_keys.erase key } := by
          rw [hxc, hcpkN] at hx'
          exact (Option.some.inj hx').symm
        have hcn : c ≠ key ∧ c ∈ cpn.child_keys := by
          rw [hm] at hc
          exact (List.Nodup.mem_erase_iff (w.child_nodup cpk cpn hcpnM)).mp hc
        obtain ⟨mc, hmc, hmcp⟩ := wm.children_live cpk cpn hcpnM c hcn.2
        by_cases hcp2 : c = p
        · refine ⟨{ npn with child_keys := indexSetInsert npn.child_keys key }, by
            rw [hcp2]; exact hpN, ?_⟩
          have hnpneq : npn = mc := by
            rw [hcp2] at hmc
            rw [hmc] at hnpnM
            exact (Option.some.inj hnpnM).symm
          show npn.parent_key = some x
          rw [hnpneq, hxc]
          exact hmcp
        · have hccpk : c ≠ cpk := child_ne wm hcpnM hcn.2
          refine ⟨mc, ?_, by rw [hxc]; exact hmcp⟩
          rw [hothN c hcn.1 hccpk hcp2]
          exact hmc
      · by_cases hxp : x = p
        · have hm : m = { npn with child_keys := indexSetInsert npn.child_keys key } := by
            rw [hxp, hpN] at hx'
            exact (Option.some.inj hx').symm
          have hcn : c ∈ npn.child_keys ∨ c = key := by
            rw [hm] at hc
            exact mem_indexSetInsert.mp hc
          rcases hcn with hcn | rfl
          · obtain ⟨mc, hmc, hmcp⟩ := wm.children_live p npn hnpnM c hcn
            have hcp2 : c ≠ p := child_ne wm hnpnM hcn
            have hckey : c ≠ key := by
              rintro rfl
              rw [hmc] at hknode
              obtain rfl := Option.some.inj hknode
              rw [hmcp] at hpar
              exact hcp (Option.some.inj hpar).symm
            by_cases hccpk : c = cpk
            · refine ⟨{ cpn with child_keys := cpn.child_keys.erase key }, by
                rw [hccpk]; exact hcpkN, ?_⟩
              have hcpneq : cpn = mc := by
                rw [hccpk] at hmc
                rw [hmc] at hcpnM
                exact (Option.some.inj hcpnM).symm
              show cpn.parent_key = some x
              rw [hcpneq, hxp]
              exact hmcp
            · refine ⟨mc, ?_, by rw [hxp]; exact hmcp⟩
              rw [hothN c hckey hccpk hcp2]
              exact hmc
          · refine ⟨{ node with parent_key := some p }, hkeyN, ?_⟩
            show some p = some x
            rw [hxp]
        · rw [hothN x hxk hxc hxp] at hx'
          obtain ⟨mc, hmc, hmcp⟩ := wm.children_live x m hx' c hc
          have hckey : c ≠ key := by
            rintro rfl
            rw [hmc] at hknode
            obtain rfl := Option.some.inj hknode
            rw [hmcp] at hpar
            exact hxc (Option.some.inj hpar)
          by_cases hccpk : c = cpk
          · refine ⟨{ cpn with child_keys := cpn.child_keys.erase key }, by
              rw [hccpk]; exact hcpkN, ?_⟩
            have hcpneq : cpn = mc := by
              rw [hccpk] at hmc
              rw [hmc] at hcpnM
              exact (Option.some.inj hcpnM).symm
            show cpn.parent_key = some x
            rw [hcpneq]
            exact hmcp
          · by_cases hcp2 : c = p
            · refine ⟨{ npn with child_keys := indexSetInsert npn.child_keys key }, by
                rw [hcp2]; exact hpN, ?_⟩
              have hnpneq : npn = mc := by
                rw [hcp2] at hmc
                rw [hmc] at hnpnM
                exact (Option.some.inj hnpnM).symm
              show npn.parent_key = some x
              rw [hnpneq]
              exact hmcp
            · refine ⟨mc, ?_, hmcp⟩
              rw [hothN c hckey hccpk hcp2]
              exact hmc
  · intro x m q hx hq
    have hx' : lookupKey x
        (setKey p { npn with child_keys := indexSetInsert npn.child_keys key }
          (setKey cpk { cpn with child_keys := cpn.child_keys.erase key }
            (setKey key { node with parent_key := some p } M))) = some m := hx
    by_cases hxk : x = key
    · have hm : m = { node with parent_key := some p } := by
        rw [hxk, hkeyN] at hx'
        exact (Option.some.inj hx').symm
      have hqp : q = p := by
        rw [hm] at hq
        exact (Option.some.inj hq).symm
      refine ⟨{ npn with child_keys := indexSetInsert npn.child_keys key }, by
        rw [hqp]; exact hpN, ?_⟩
      show x ∈ indexSetInsert npn.child_keys key
      exact mem_indexSetInsert.mpr (Or.inr hxk)
    · by_cases hxc : x = cpk
      · have hm : m = { cpn with child_keys := cpn.child_keys.erase key } := by
          rw [hxc, hcpkN] at hx'
          exact (Option.some.inj hx').symm
        have hq2 : cpn.parent_key = some q := by
          rw [hm] at hq
          exact hq
        obtain ⟨m2, hm2, hmem⟩ := wm.parent_back cpk cpn q hcpnM hq2
        have hqc : q ≠ cpk := by
          rintro rfl
          exact self_parent_absurd w hcpnM hq2
        have hqkey : q ≠ key := by
          intro hqk
          rw [hqk] at hq2
          have h1 : key ∈ ancChain M cpk := by
            rw [ancChain_parent wm hcpnM hq2]
            exact List.mem_cons_self _ _
          exact ancChain_antisym h1 hcpk_in
        by_cases hqp : q = p
        · refine ⟨{ npn with child_keys := indexSetInsert npn.child_keys key }, by
            rw [hqp]; exact hpN, ?_⟩
          have hnpneq : npn = m2 := by
            rw [hqp] at hm2
            rw [hm2] at hnpnM
            exact (Option.some.inj hnpnM).symm
          show x ∈ indexSetInsert npn.child_keys key
          refine mem_indexSetInsert.mpr (Or.inl ?_)
          rw [hnpneq, hxc]
          exact hmem
        · refine ⟨m2, ?_, by rw [hxc]; exact hmem⟩
          rw [hothN q hqkey hqc hqp]
          exact hm2
      · by_cases hxp : x = p
        · have hm : m = { npn with child_keys := indexSetInsert npn.child_keys key } := by
            rw [hxp, hpN] at hx'
            exact (Option.some.inj hx').symm
          have hq2 : npn.parent_key = some q := by
            rw [hm] at hq
            exact hq
          obtain ⟨m2, hm2, hmem⟩ := wm.parent_back p npn q hnpnM hq2
          have hqp2 : q ≠ p := by
            rintro rfl
            exact self_parent_absurd w hnpnM hq2
          have hqkey : q ≠ key := by
            rintro rfl
            refine hknp ?_
            rw [ancChain_parent wm hnpnM hq2]
            exact List.mem_cons_self _ _
          by_cases hqc : q = cpk
          · refine ⟨{ cpn with child_keys := cpn.child_keys.erase key }, by
              rw [hqc]; exact hcpkN, ?_⟩
            have hcpneq : cpn = m2 := by
              rw [hqc] at hm2
              rw [hm2] at hcpnM
              exact (Option.some.inj hcpnM).symm
            show x ∈ cpn.child_keys.erase key
            refine (List.Nodup.mem_erase_iff (w.child_nodup cpk cpn hcpnM)).mpr ⟨?_, ?_⟩
            · rw [hxp]
              exact hpk
            · rw [hcpneq, hxp]
              exact hmem
          · refine ⟨m2, ?_, by rw [hxp]; exact hmem⟩
            rw [hothN q hqkey hqc hqp2]
            exact hm2
        · rw [hothN x hxk hxc hxp] at hx'
          obtain ⟨m2, hm2, hmem⟩ := wm.parent_back x m q hx' hq
          by_cases hqkey : q = key
          · refine ⟨{ node with parent_key := some p }, by
              rw [hqkey]; exact hkeyN, ?_⟩
            have hnodeeq : node = m2 := by
              rw [hqkey] at hm2
              rw [hm2] at hknode
              exact (Option.some.inj hknode).symm
            show x ∈ node.child_keys
            rw [hnodeeq]
            exact hmem
          · by_cases hqc : q = cpk
            · refine ⟨{ cpn with child_keys := cpn.child_keys.erase key }, by
                rw [hqc]; exact hcpkN, ?_⟩
              have hcpneq : cpn = m2 := by
                rw [hqc] at hm2
                rw [hm2] at hcpnM
                exact (Option.some.inj hcpnM).symm
              show x ∈ cpn.child_keys.erase key
              refine (List.Nodup.mem_erase_iff (w.child_nodup cpk cpn hcpnM)).mpr
                ⟨hxk, ?_⟩
              rw [hcpneq]
              exact hmem
            · by_cases hqp : q = p
              · refine ⟨{ npn with child_keys := indexSetInsert npn.child_keys key }, by
                  rw [hqp]; exact hpN, ?_⟩
                have hnpneq : npn = m2 := by
                  rw [hqp] at hm2
                  rw [hm2] at hnpnM
                  exact (Option.some.inj hnpnM).symm
                show x ∈ indexSetInsert npn.child_keys key
                refine mem_indexSetInsert.mpr (Or.inl ?_)
                rw [hnpneq]
                exact hmem
              · refine ⟨m2, ?_, hmem⟩
                rw [hothN q hqkey hqc hqp]
                exact hm2
  · intro x m hx
    have hx' : lookupKey x
        (setKey p { npn with child_keys := indexSetInsert npn.child_keys key }
          (setKey cpk { cpn with child_keys := cpn.child_keys.erase key }
            (setKey key { node with parent_key := some p } M))) = some m := hx
    by_cases hxk : x = key
    · have hm : m = { node with parent_key := some p } := by
        rw [hxk, hkeyN] at hx'
        exact (Option.some.inj hx').symm
      rw [hm]
      exact w.child_nodup key node hknode
    · by_cases hxc : x = cpk
      · have hm : m = { cpn with child_keys := cpn.child_keys.erase key } := by
          rw [hxc, hcpkN] at hx'
          exact (Option.some.inj hx').symm
        rw [hm]
        exact (w.child_nodup cpk cpn hcpnM).erase key
      · by_cases hxp : x = p
        · have hm : m = { npn with child_keys := indexSetInsert npn.child_keys key } := by
            rw [hxp, hpN] at hx'
            exact (Option.some.inj hx').symm
          rw [hm]
          exact nodup_indexSetInsert (w.child_nodup p npn hnpnM)
        · rw [hothN x hxk hxc hxp] at hx'
          exact w.child_nodup x m hx'
  · intro x m hx
    have hx' : lookupKey x
        (setKey p { npn with child_keys := indexSetInsert npn.child_keys key }
          (setKey cpk { cpn with child_keys := cpn.child_keys.erase key }
            (setKey key { node with parent_key := some p } M))) = some m := hx
    have hmemN : ∀ y, (∃ my, lookupKey y M = some my) → y ∈ keysOf
        (setKey p { npn with child_keys := indexSetInsert npn.child_keys key }
          (setKey cpk { cpn with child_keys := cpn.child_keys.erase key }
            (setKey key { node with parent_key := some p } M))) := by
      rintro y ⟨my, hmy⟩
      rw [hkeys3]
      exact mem_keysOf_of_lookupKey hmy
    have hpchainM : pchain M (M.length + 1) p = some (ancChain M p) :=
      wm.ancChain_spec hnpnM
    have htrp : pchain
        (setKey p { npn with child_keys := indexSetInsert npn.child_keys key }
          (setKey cpk { cpn with child_keys := cpn.child_keys.erase key }
            (setKey key { node with parent_key := some p } M)))
        (M.length + 1) p = some (ancChain M p) :=
      pchain_transfer hpchainM (by
        intro y hy
        rcases hy with rfl | hy
        · exact hparents y hpk
        · refine hparents y ?_
          rintro rfl
          exact hknp hy)
    have hkchainN : pchain
        (setKey p { npn with child_keys := indexSetInsert npn.child_keys key }
          (setKey cpk { cpn with child_keys := cpn.child_keys.erase key }
            (setKey key { node with parent_key := some p } M)))
        (M.length + 1 + 1) key = some (p :: ancChain M p) := by
      rw [pchain_cons_of_parent hkeyN (show ({ node with parent_key := some p } :
        InnerNode V).parent_key = some p from rfl), htrp]
      rfl
    have hsubk : ∀ y ∈ p :: ancChain M p, y ∈ keysOf
        (setKey p { npn with child_keys := indexSetInsert npn.child_keys key }
          (setKey cpk { cpn with child_keys := cpn.child_keys.erase key }
            (setKey key { node with parent_key := some p } M))) := by
      intro y hy
      rcases List.mem_cons.mp hy with rfl | hy
      · exact hmemN y ⟨npn, hnpnM⟩
      · exact hmemN y (mem_ancChain_live hy)
    by_cases hxk : x = key
    · rw [hxk]
      exact reach_of_chain hkchainN hsubk
    · obtain ⟨nm, hnm⟩ : ∃ nm, lookupKey x M = some nm := by
        by_cases hxc : x = cpk
        · exact ⟨cpn, by rw [hxc]; exact hcpnM⟩
        · by_cases hxp : x = p
          · exact ⟨npn, by rw [hxp]; exact hnpnM⟩
          · rw [hothN x hxk hxc hxp] at hx'
            exact ⟨m, hx'⟩
      have hMx : pchain M (M.length + 1) x = some (ancChain M x) := wm.ancChain_spec hnm
      by_cases hkx : key ∈ ancChain M x
      · obtain ⟨l₁, rest, hsplit⟩ : ∃ l₁ rest, ancChain M x = l₁ ++ key :: rest :=
          List.append_of_mem hkx
        have hkl₁ : key ∉ l₁ := by
          have hnd := ancChain_nodup wm hnm
          rw [hsplit] at hnd
          have hdisj := (List.nodup_append.mp hnd).2.2
          intro hmem
          exact List.disjoint_left.mp hdisj hmem (List.mem_cons_self _ _)
        rw [hsplit] at hMx
        have hgraft := pchain_graft hMx (by
          intro y hy
          rcases hy with rfl | hy
          · exact hparents y hxk
          · refine hparents y ?_
            rintro rfl
            exact hkl₁ hy) hkchainN
        refine reach_of_chain hgraft ?_
        intro y hy
        rcases List.mem_append.mp hy with hy | hy
        · refine hmemN y (mem_ancChain_live (k := x) ?_)
          rw [hsplit]
          exact List.mem_append_left _ hy
        · rcases List.mem_cons.mp hy with rfl | hy
          · exact hmemN y ⟨node, hknode⟩
          · exact hsubk y hy
      · have htr := pchain_transfer hMx (by
          intro y hy
          rcases hy with rfl | hy
          · exact hparents y hxk
          · refine hparents y ?_
            rintro rfl
            exact hkx hy)
        refine reach_of_chain htr ?_
        intro y hy
        exact hmemN y (mem_ancChain_live hy)

theorem getRelationship_ancestral {t : Tree V} (w : WF t) {a b c d : Nat}
    (h : getRelationship t a b = some (some (.ancestral c d))) :
    (c = b ∧ d = a ∧ b ∈ ancChain t.inner_nodes a) ∨
    (c = a ∧ d = b ∧ a ∈ ancChain t.inner_nodes b) := by
  by_cases hab : a = b
  · rw [hab] at h
    simp only [getRelationship] at h
    by_cases hcb : contains t b
    · simp [hcb] at h
    · simp [hcb] at h
  cases ha : lookupKey a t.inner_nodes with
  | none => simp [getRelationship, contains, ha] at h
  | some na =>
    cases hb : lookupKey b t.inner_nodes with
    | none => simp [getRelationship, contains, hb] at h
    | some nb =>
      rw [getRelationship_spec w ha hb hab] at h
      by_cases hba : b ∈ ancChain t.inner_nodes a
      · rw [if_pos hba] at h
        simp only [Option.some.injEq, Relationship.ancestral.injEq] at h
        exact Or.inl ⟨h.1.symm, h.2.symm, hba⟩
      · rw [if_neg hba] at h
        by_cases hanb : a ∈ ancChain t.inner_nodes b
        · rw [hitResult_ancestral w.toWFm hb hanb] at h
          simp only [Option.map_some', Option.some.injEq,
            Relationship.ancestral.injEq] at h
          exact Or.inr ⟨h.1.symm, h.2.symm, hanb⟩
        · obtain ⟨r, hroot⟩ : ∃ r, t.root_key = some r := by
            cases hroot : t.root_key with
            | none =>
              have := w.root_none hroot
              rw [this] at ha
              simp [lookupKey] at ha
            | some r => exact ⟨r, rfl⟩
          have har : a ≠ r := by
            rintro rfl
            exact hanb (root_mem_ancChain w hroot hb (fun hx => hab hx.symm))
          have hbr : b ≠ r := by
            rintro rfl
            exact hba (root_mem_ancChain w hroot ha hab)
          obtain ⟨c₀, hcres, _⟩ := hitResult_siblings w.toWFm hb hanb
            (root_mem_ancChain w hroot ha har) (root_mem_ancChain w hroot hb hbr)
          rw [hcres] at h
          simp at h

theorem getRelationship_siblings_sep {t : Tree V} (w : WF t) {a b c : Nat}
    (h : getRelationship t a b = some (some (.siblings c))) :
    a ≠ b ∧ b ∉ ancChain t.inner_nodes a ∧ a ∉ ancChain t.inner_nodes b := by
  by_cases hab : a = b
  · rw [hab] at h
    simp only [getRelationship] at h
    by_cases hcb : contains t b
    · simp [hcb] at h
    · simp [hcb] at h
  cases ha : lookupKey a t.inner_nodes with
  | none => simp [getRelationship, contains, ha] at h
  | some na =>
    cases hb : lookupKey b t.inner_nodes with
    | none => simp [getRelationship, contains, hb] at h
    | some nb =>
      rw [getRelationship_spec w ha hb hab] at h
      by_cases hba : b ∈ ancChain t.inner_nodes a
      · rw [if_pos hba] at h
        simp at h
      · rw [if_neg hba] at h
        by_cases hanb : a ∈ ancChain t.inner_nodes b
        · rw [hitResult_ancestral w.toWFm hb hanb] at h
          simp at h
        · exact ⟨hab, hba, hanb⟩

theorem wf_rebaseGeneric (t : Tree V) (w : WF t) (key p : Nat) (t2 : Tree V)
    (hInp : ¬ InSub t.inner_nodes key p)
    (hg : rebaseGeneric t key p = some t2) : WF t2 := by
  set M := t.inner_nodes with hM
  cases hknode : lookupKey key M with
  | none =>
    simp only [rebaseGeneric, ← hM, hknode] at hg
    exact Option.noConfusion hg
  | some node =>
    cases hpar : node.parent_key with
    | none =>
      simp only [rebaseGeneric, ← hM, hknode, hpar] at hg
      exact Option.noConfusion hg
    | some cpk =>
      by_cases hcp : cpk = p
      · simp only [rebaseGeneric, ← hM, hknode, hpar, if_pos hcp] at hg
        obtain rfl := Option.some.inj hg
        exact w
      · have hck : cpk ≠ key := by
          rintro rfl
          exact self_parent_absurd w hknode hpar
        have hkp : key ≠ p := fun hh => hInp (Or.inl hh)
        have hknp : key ∉ ancChain M p := fun hh => hInp (Or.inr hh)
        have hpc : p ≠ cpk := fun hh => hcp hh.symm
        have hpk : p ≠ key := fun hh => hkp hh.symm
        obtain ⟨cpn, hcpnM, _⟩ := w.parent_back key node cpk hknode hpar
        have hlk1 : lookupKey cpk (setKey key { node with parent_key := some p } M) =
            some cpn := by
          rw [lookupKey_setKey_ne hck]
          exact hcpnM
        have hlk2 : lookupKey p (setKey cpk { cpn with child_keys := cpn.child_keys.erase key }
            (setKey key { node with parent_key := some p } M)) = lookupKey p M := by
          rw [lookupKey_setKey_ne hpc, lookupKey_setKey_ne hpk]
        cases hnpnM : lookupKey p M with
        | none =>
          rw [hnpnM] at hlk2
          simp only [rebaseGeneric, ← hM, hknode, hpar, if_neg hcp, hlk1, hlk2] at hg
          exact Option.noConfusion hg
        | some npn =>
          rw [hnpnM] at hlk2
          simp only [rebaseGeneric, ← hM, hknode, hpar, if_neg hcp, hlk1, hlk2] at hg
          have hwf3 := wf_rebase_core t w key cpk p node cpn npn hknode hpar hcpnM hnpnM
            hcp hkp hknp
          by_cases hdep : cpn.depth = npn.depth + 1
          · rw [if_pos hdep] at hg
            obtain rfl := Option.some.inj hg
            exact hwf3
          · rw [if_neg hdep] at hg
            cases hud : updateDepths
                ((setKey p { npn with child_keys := indexSetInsert npn.child_keys key }
                  (setKey cpk { cpn with child_keys := cpn.child_keys.erase key }
                    (setKey key { node with parent_key := some p } M))).length + 1)
                [(npn.depth + 1, key)]
                (setKey p { npn with child_keys := indexSetInsert npn.child_keys key }
                  (setKey cpk { cpn with child_keys := cpn.child_keys.erase key }
                    (setKey key { node with parent_key := some p } M))) with
            | none =>
              rw [hud] at hg
              simp only [Option.map_none'] at hg
              exact Option.noConfusion hg
            | some nodes4 =>
              rw [hud] at hg
              simp only [Option.map_some'] at hg
              obtain rfl := Option.some.inj hg
              obtain ⟨hkeys4, hlk4⟩ := updateDepths_struct _ _ _ hud
              exact wf_of_struct_eq hwf3 rfl rfl hkeys4 hlk4

theorem wf_rebase (t : Tree V) (w : WF t) (key p : Nat) (h : Option Nat)
    (t2 : Tree V) (b : Bool) (hr : rebase t key p h = some (t2, b)) : WF t2 := by
  cases hgr : getRelationship t key p with
  | none =>
    simp only [rebase, hgr] at hr
    exact Option.noConfusion hr
  | some r =>
    cases r with
    | none =>
      simp only [rebase, hgr] at hr
      have heq := Option.some.inj hr
      obtain rfl : t = t2 := (Prod.mk.injEq .. ▸ heq).1
      exact w
    | some rel =>
      simp only [rebase, hgr] at hr
      cases hri : rebaseInner t rel key p with
      | none =>
        rw [hri] at hr
        simp only [Option.map_none'] at hr
        exact Option.noConfusion hr
      | some t3 =>
        rw [hri] at hr
        simp only [Option.map_some'] at hr
        have heq := Option.some.inj hr
        obtain rfl : t3 = t2 := (Prod.mk.injEq .. ▸ heq).1
        cases rel with
        | same =>
          simp only [rebaseInner] at hri
          obtain rfl := Option.some.inj hri
          exact w
        | ancestral anc dsc =>
          simp only [rebaseInner] at hri
          by_cases hpa : p = anc
          · rw [if_pos hpa] at hri
            rcases getRelationship_ancestral w hgr with ⟨hc1, _, hmem⟩ | ⟨hc1, _, hmem⟩
            · refine wf_rebaseGeneric t w key p t3 ?_ hri
              rintro (heq2 | hmem2)
              · rw [heq2] at hmem
                exact not_mem_ancChain_self p hmem
              · exact ancChain_antisym hmem2 hmem
            · rw [hc1] at hpa
              rw [hpa] at hmem
              exact absurd hmem (not_mem_ancChain_self key)
          · rw [if_neg hpa] at hri
            by_cases hpd : p = dsc
            · rw [if_pos hpd] at hri
              exact Option.noConfusion hri
            · rw [if_neg hpd] at hri
              exact Option.noConfusion hri
        | siblings c =>
          simp only [rebaseInner] at hri
          obtain ⟨hne, _, hanp⟩ := getRelationship_siblings_sep w hgr
          refine wf_rebaseGeneric t w key p t3 ?_ hri
          rintro (heq2 | hmem2)
          · exact hne heq2
          · exact hanp hmem2

theorem reachable_wf {t : Tree V} (h : Reachable t) : WF t := by
  induction h with
  | empty => exact wf_empty 0
  | insert_root t v _ ih => exact wf_insertRoot t ih v
  | insert_child t v p k t' _ hins ih => exact wf_insert t ih v p k t' hins
  | remove_key t k hh v t' _ hrem ih => exact wf_remove t ih k hh v t' hrem
  | reorder t k f t' b _ hfn hre ih => exact wf_reorder t ih k f hfn t' b hre
  | rebase_key t k p hh t' b _ hrb ih => exact wf_rebase t ih k p hh t' b hrb
  | clear_tree t _ _ => exact wf_clear t
  | set_value t k n v _ hlk ih => exact wf_setValue t ih k n v hlk

theorem sibTree_reachable : Reachable sibTree := by
  have h1 : Reachable (⟨none, [], 0⟩ : Tree Nat) := Reachable.empty
  have h2 : Reachable ((insertRoot (⟨none, [], 0⟩ : Tree Nat) 100).1) :=
    Reachable.insert_root _ 100 h1
  have h3 : Reachable
      (⟨some 0, [(0, ⟨none, [1], 100, 0⟩), (1, ⟨some 0, [], 101, 1⟩)], 2⟩ : Tree Nat) :=
    Reachable.insert_child _ 101 0 1 _ h2 (by decide)
  exact Reachable.insert_child _ 102 0 2 _ h3 (by decide)

/-- **C10**: on every tree reachable through the public API, for distinct
live handles `a` and `b` with neither an ancestor of the other,
`get_relationship` returns a value (`some r`), i.e. the second loop's
`unreachable!()` branch (modelled as the outer `none`) is never taken:
the walk up `b`'s chain meets `a`'s recorded ancestor set before running
off the root. -/
theorem C10_get_relationship_no_panic (t : Tree V) (hreach : Reachable t) (a b : Nat)
    (na nb : InnerNode V) (ha : lookupKey a t.inner_nodes = some na)
    (hb : lookupKey b t.inner_nodes = some nb) (hab : a ≠ b)
    (hba : b ∉ ancChain t.inner_nodes a) (hanb : a ∉ ancChain t.inner_nodes b) :
    ∃ r, getRelationship t a b = some r :=
  getRelationship_total (reachable_wf hreach) ha hb

/-- Witness for C10 on the API-built fork `0 → [1, 2]`: the sibling pair
`(1, 2)` satisfies every hypothesis and `get_relationship` answers. -/
theorem C10_get_relationship_no_panic_witness :
    Reachable sibTree ∧
    lookupKey 1 sibTree.inner_nodes = some ⟨some 0, [], 101, 1⟩ ∧
    lookupKey 2 sibTree.inner_nodes = some ⟨some 0, [], 102, 1⟩ ∧
    (1 : Nat) ≠ 2 ∧
    2 ∉ ancChain sibTree.inner_nodes 1 ∧
    1 ∉ ancChain sibTree.inner_nodes 2 ∧
    ∃ r, getRelationship sibTree 1 2 = some r :=
  ⟨sibTree_reachable, by decide, by decide, by decide, by decide, by decide,
    C10_get_relationship_no_panic sibTree sibTree_reachable 1 2
      ⟨some 0, [], 101, 1⟩ ⟨some 0, [], 102, 1⟩ (by decide) (by decide) (by decide)
      (by decide) (by decide)⟩

end Cherry
